import Mathlib

set_option maxHeartbeats 1000000

/-!
Verification development for the ddatabase append-only log (a hypercore
style feed).  The feed core is src/index.js.  Repository modules that are
not under src (lib/hash, lib/tree-index, lib/storage) and the external
flat-tree and merkle-tree-stream packages are modelled from the
specification; every such definition is marked in its doc comment.
-/

namespace DDatabase

namespace flat

/-- Fuel-bounded halving loop for depth; any fuel at least i is
adequate. -/
def depthF : Nat → Nat → Nat
  | 0, _ => 0
  | fuel + 1, i => if i % 2 = 1 then depthF fuel (i / 2) + 1 else 0

/-- Depth of a flat-tree index (spec 4.A: the binary representation of
i + 1 determines depth and offset; the depth counts how often the index
stays odd while halving). -/
def depth (i : Nat) : Nat := depthF i i

/-- Fuel-bounded halving loop for offset. -/
def offsetF : Nat → Nat → Nat
  | 0, _ => 0
  | fuel + 1, i => if i % 2 = 1 then offsetF fuel (i / 2) else i / 2

/-- Offset of a flat-tree index: the position of the node within its row. -/
def offset (i : Nat) : Nat := offsetF i i

theorem depthF_congr : ∀ fuel1 fuel2 i, i ≤ fuel1 → i ≤ fuel2 →
    depthF fuel1 i = depthF fuel2 i := by
  intro fuel1
  induction fuel1 with
  | zero =>
      intro fuel2 i h1 _
      have h0 : i = 0 := by omega
      subst h0
      cases fuel2 with
      | zero => rfl
      | succ f2 => rw [depthF]; rfl
  | succ f1 ih =>
      intro fuel2 i h1 h2
      by_cases hi : i % 2 = 1
      · have hpos : 1 ≤ i := by omega
        cases fuel2 with
        | zero => omega
        | succ f2 =>
            rw [depthF, depthF, if_pos hi, if_pos hi,
              ih f2 (i / 2) (by omega) (by omega)]
      · cases fuel2 with
        | zero =>
            have h0 : i = 0 := by omega
            subst h0
            rfl
        | succ f2 => rw [depthF, depthF, if_neg hi, if_neg hi]

theorem offsetF_congr : ∀ fuel1 fuel2 i, i ≤ fuel1 → i ≤ fuel2 →
    offsetF fuel1 i = offsetF fuel2 i := by
  intro fuel1
  induction fuel1 with
  | zero =>
      intro fuel2 i h1 _
      have h0 : i = 0 := by omega
      subst h0
      cases fuel2 with
      | zero => rfl
      | succ f2 => rw [offsetF]; rfl
  | succ f1 ih =>
      intro fuel2 i h1 h2
      by_cases hi : i % 2 = 1
      · have hpos : 1 ≤ i := by omega
        cases fuel2 with
        | zero => omega
        | succ f2 =>
            rw [offsetF, offsetF, if_pos hi, if_pos hi,
              ih f2 (i / 2) (by omega) (by omega)]
      · cases fuel2 with
        | zero =>
            have h0 : i = 0 := by omega
            subst h0
            rfl
        | succ f2 => rw [offsetF, offsetF, if_neg hi, if_neg hi]

theorem depth_eq (i : Nat) : depth i = if i % 2 = 1 then depth (i / 2) + 1 else 0 := by
  unfold depth
  cases hi : i with
  | zero => rfl
  | succ j =>
      rw [depthF]
      by_cases hp : (j + 1) % 2 = 1
      · rw [if_pos hp, if_pos hp,
          depthF_congr j ((j + 1) / 2) ((j + 1) / 2) (by omega) (le_refl _)]
      · rw [if_neg hp, if_neg hp]

theorem offset_eq (i : Nat) :
    offset i = if i % 2 = 1 then offset (i / 2) else i / 2 := by
  unfold offset
  cases hi : i with
  | zero => rfl
  | succ j =>
      rw [offsetF]
      by_cases hp : (j + 1) % 2 = 1
      · rw [if_pos hp, if_pos hp,
          offsetF_congr j ((j + 1) / 2) ((j + 1) / 2) (by omega) (le_refl _)]
      · rw [if_neg hp, if_neg hp]

/-- Flat-tree index of the node at a given depth and offset:
idx d o + 1 = (2 o + 1) * 2 ^ d. -/
def idx (d o : Nat) : Nat := (2 * o + 1) * 2 ^ d - 1

theorem depth_of_even (i : Nat) (h : i % 2 = 0) : depth i = 0 := by
  rw [depth_eq]; simp [h]

theorem depth_of_odd (i : Nat) (h : i % 2 = 1) : depth i = depth (i / 2) + 1 := by
  rw [depth_eq]; simp [h]

theorem offset_of_even (i : Nat) (h : i % 2 = 0) : offset i = i / 2 := by
  rw [offset_eq]; simp [h]

theorem offset_of_odd (i : Nat) (h : i % 2 = 1) : offset i = offset (i / 2) := by
  rw [offset_eq]; simp [h]

theorem idx_zero (o : Nat) : idx 0 o = 2 * o := by
  simp [idx]

theorem idx_succ (d o : Nat) : idx (d + 1) o = 2 * idx d o + 1 := by
  unfold idx
  have h : 0 < (2 * o + 1) * 2 ^ d :=
    Nat.mul_pos (by omega) (pow_pos (by omega) d)
  have h2 : (2 * o + 1) * 2 ^ (d + 1) = 2 * ((2 * o + 1) * 2 ^ d) := by ring
  rw [h2]; omega

theorem idx_succ_mod (d o : Nat) : idx (d + 1) o % 2 = 1 := by
  rw [idx_succ]; omega

theorem idx_succ_div (d o : Nat) : idx (d + 1) o / 2 = idx d o := by
  rw [idx_succ]; omega

theorem depth_idx (d o : Nat) : depth (idx d o) = d := by
  induction d generalizing o with
  | zero => rw [idx_zero]; exact depth_of_even _ (by omega)
  | succ d ih =>
      rw [depth_of_odd _ (idx_succ_mod d o), idx_succ_div, ih]

theorem offset_idx (d o : Nat) : offset (idx d o) = o := by
  induction d generalizing o with
  | zero => rw [idx_zero, offset_of_even _ (by omega)]; omega
  | succ d ih =>
      rw [offset_of_odd _ (idx_succ_mod d o), idx_succ_div, ih]

theorem idx_depth_offset (i : Nat) : idx (depth i) (offset i) = i := by
  induction i using Nat.strong_induction_on with
  | _ i ih =>
      rcases Nat.mod_two_eq_zero_or_one i with h | h
      · rw [depth_of_even _ h, offset_of_even _ h, idx_zero]; omega
      · have hi : 0 < i := by omega
        rw [depth_of_odd _ h, offset_of_odd _ h, idx_succ,
          ih (i / 2) (by omega)]
        omega

theorem idx_inj {d1 o1 d2 o2 : Nat} (h : idx d1 o1 = idx d2 o2) :
    d1 = d2 ∧ o1 = o2 := by
  constructor
  · have := congrArg depth h; rwa [depth_idx, depth_idx] at this
  · have := congrArg offset h; rwa [offset_idx, offset_idx] at this

/-- Parent of a flat-tree index (spec 4.A). -/
def parent (i : Nat) : Nat := idx (depth i + 1) (offset i / 2)

/-- Sibling of a flat-tree index (spec 4.A). -/
def sibling (i : Nat) : Nat :=
  idx (depth i) (if offset i % 2 = 0 then offset i + 1 else offset i - 1)

/-- Left span of a flat-tree index: the smallest leaf index it covers. -/
def leftSpan (i : Nat) : Nat := offset i * 2 ^ (depth i + 1)

/-- Right span of a flat-tree index: the largest leaf index it covers. -/
def rightSpan (i : Nat) : Nat := (offset i + 1) * 2 ^ (depth i + 1) - 2

theorem parent_idx (d o : Nat) : parent (idx d o) = idx (d + 1) (o / 2) := by
  simp [parent, depth_idx, offset_idx]

theorem sibling_idx (d o : Nat) :
    sibling (idx d o) = idx d (if o % 2 = 0 then o + 1 else o - 1) := by
  simp [sibling, depth_idx, offset_idx]

theorem rightSpan_idx (d o : Nat) :
    rightSpan (idx d o) = (o + 1) * 2 ^ (d + 1) - 2 := by
  simp [rightSpan, depth_idx, offset_idx]

theorem leftSpan_idx (d o : Nat) :
    leftSpan (idx d o) = o * 2 ^ (d + 1) := by
  simp [leftSpan, depth_idx, offset_idx]

/-- Fuel-bounded halving loop for largestExp. -/
def largestExpF : Nat → Nat → Nat
  | 0, _ => 0
  | fuel + 1, m => if m < 2 then 0 else largestExpF fuel (m / 2) + 1

/-- Exponent of the largest power of two that is at most m (for m at
least 1); this is the factor-doubling loop of the flat-tree fullRoots
routine, expressed on exponents. -/
def largestExp (m : Nat) : Nat := largestExpF m m

theorem largestExpF_congr : ∀ fuel1 fuel2 m, m ≤ fuel1 → m ≤ fuel2 →
    largestExpF fuel1 m = largestExpF fuel2 m := by
  intro fuel1
  induction fuel1 with
  | zero =>
      intro fuel2 m h1 _
      have h0 : m = 0 := by omega
      subst h0
      cases fuel2 with
      | zero => rfl
      | succ f2 => rfl
  | succ f1 ih =>
      intro fuel2 m h1 h2
      by_cases hm : m < 2
      · cases fuel2 with
        | zero =>
            have h0 : m = 0 := by omega
            subst h0
            rfl
        | succ f2 => rw [largestExpF, largestExpF, if_pos hm, if_pos hm]
      · cases fuel2 with
        | zero => omega
        | succ f2 =>
            rw [largestExpF, largestExpF, if_neg hm, if_neg hm,
              ih f2 (m / 2) (by omega) (by omega)]

theorem largestExp_eq (m : Nat) :
    largestExp m = if m < 2 then 0 else largestExp (m / 2) + 1 := by
  unfold largestExp
  cases hm : m with
  | zero => rfl
  | succ j =>
      rw [largestExpF]
      by_cases hp : j + 1 < 2
      · rw [if_pos hp, if_pos hp]
      · rw [if_neg hp, if_neg hp,
          largestExpF_congr j ((j + 1) / 2) ((j + 1) / 2) (by omega) (le_refl _)]

theorem largestExp_spec (m : Nat) (hm : 1 ≤ m) :
    2 ^ largestExp m ≤ m ∧ m < 2 ^ (largestExp m + 1) := by
  induction m using Nat.strong_induction_on with
  | _ m ih =>
      by_cases h : m < 2
      · rw [largestExp_eq]; simp [h]; omega
      · rw [largestExp_eq]; simp [h]
        have h2 : 1 ≤ m / 2 := by omega
        have := ih (m / 2) (by omega) h2
        have hp : 2 ^ (largestExp (m / 2) + 1) = 2 * 2 ^ largestExp (m / 2) := by
          ring
        have hp2 : 2 ^ (largestExp (m / 2) + 1 + 1) =
            2 * 2 ^ (largestExp (m / 2) + 1) := by ring
        rw [hp2, hp] at *
        omega

theorem largestExp_le (m : Nat) (hm : 1 ≤ m) : 2 ^ largestExp m ≤ m :=
  (largestExp_spec m hm).1

theorem lt_largestExp_succ (m : Nat) (hm : 1 ≤ m) : m < 2 ^ (largestExp m + 1) :=
  (largestExp_spec m hm).2

/-- Fuel-bounded greedy loop for fullRootsAux. -/
def fullRootsAuxF : Nat → Nat → Nat → List Nat
  | 0, _, _ => []
  | fuel + 1, m, off =>
      match m with
      | 0 => []
      | m + 1 =>
          (off + 2 ^ largestExp (m + 1) - 1) ::
            fullRootsAuxF fuel (m + 1 - 2 ^ largestExp (m + 1))
              (off + 2 * 2 ^ largestExp (m + 1))

/-- The list of full roots covering the first m leaves, starting at flat
index off: the greedy loop of the flat-tree fullRoots routine
(spec 4.A). -/
def fullRootsAux (m off : Nat) : List Nat := fullRootsAuxF m m off

theorem fullRootsAuxF_congr : ∀ fuel1 fuel2 m off, m ≤ fuel1 → m ≤ fuel2 →
    fullRootsAuxF fuel1 m off = fullRootsAuxF fuel2 m off := by
  intro fuel1
  induction fuel1 with
  | zero =>
      intro fuel2 m off h1 _
      have h0 : m = 0 := by omega
      subst h0
      cases fuel2 with
      | zero => rfl
      | succ f2 => rfl
  | succ f1 ih =>
      intro fuel2 m off h1 h2
      match m with
      | 0 =>
          cases fuel2 with
          | zero => rfl
          | succ f2 => rfl
      | m + 1 =>
          cases fuel2 with
          | zero => omega
          | succ f2 =>
              have hpow : 1 ≤ 2 ^ largestExp (m + 1) := Nat.one_le_two_pow
              rw [fullRootsAuxF, fullRootsAuxF]
              rw [ih f2 (m + 1 - 2 ^ largestExp (m + 1)) _ (by omega) (by omega)]

theorem fullRootsAux_zero (off : Nat) : fullRootsAux 0 off = [] := rfl

theorem fullRootsAux_succ (m off : Nat) :
    fullRootsAux (m + 1) off =
      (off + 2 ^ largestExp (m + 1) - 1) ::
        fullRootsAux (m + 1 - 2 ^ largestExp (m + 1))
          (off + 2 * 2 ^ largestExp (m + 1)) := by
  unfold fullRootsAux
  rw [fullRootsAuxF]
  have hpow : 1 ≤ 2 ^ largestExp (m + 1) := Nat.one_le_two_pow
  rw [fullRootsAuxF_congr m (m + 1 - 2 ^ largestExp (m + 1)) _ _ (by omega)
    (le_refl _)]

/-- Ascending list of root indices covering the first n / 2 leaves, for
even n (spec 4.A). -/
def fullRoots (n : Nat) : List Nat := fullRootsAux (n / 2) 0

/-- Fuel-bounded greedy loop for canon. -/
def canonF : Nat → Nat → Nat → List (Nat × Nat)
  | 0, _, _ => []
  | fuel + 1, m, s =>
      match m with
      | 0 => []
      | m + 1 =>
          (s, largestExp (m + 1)) ::
            canonF fuel (m + 1 - 2 ^ largestExp (m + 1)) (s + 2 ^ largestExp (m + 1))

/-- Canonical greedy decomposition of m leaves starting at leaf position
s, as a list of (leaf start, exponent) pairs; entry (s, e) stands for the
perfect subtree covering leaves s to s + 2 ^ e - 1.  This mirrors
fullRootsAux in leaf units. -/
def canon (m s : Nat) : List (Nat × Nat) := canonF m m s

theorem canonF_congr : ∀ fuel1 fuel2 m s, m ≤ fuel1 → m ≤ fuel2 →
    canonF fuel1 m s = canonF fuel2 m s := by
  intro fuel1
  induction fuel1 with
  | zero =>
      intro fuel2 m s h1 _
      have h0 : m = 0 := by omega
      subst h0
      cases fuel2 with
      | zero => rfl
      | succ f2 => rfl
  | succ f1 ih =>
      intro fuel2 m s h1 h2
      match m with
      | 0 =>
          cases fuel2 with
          | zero => rfl
          | succ f2 => rfl
      | m + 1 =>
          cases fuel2 with
          | zero => omega
          | succ f2 =>
              have hpow : 1 ≤ 2 ^ largestExp (m + 1) := Nat.one_le_two_pow
              rw [canonF, canonF]
              rw [ih f2 (m + 1 - 2 ^ largestExp (m + 1)) _ (by omega) (by omega)]

theorem canon_zero (s : Nat) : canon 0 s = [] := rfl

theorem canon_succ (m s : Nat) :
    canon (m + 1) s =
      (s, largestExp (m + 1)) ::
        canon (m + 1 - 2 ^ largestExp (m + 1)) (s + 2 ^ largestExp (m + 1)) := by
  unfold canon
  rw [canonF]
  have hpow : 1 ≤ 2 ^ largestExp (m + 1) := Nat.one_le_two_pow
  rw [canonF_congr m (m + 1 - 2 ^ largestExp (m + 1)) _ _ (by omega) (le_refl _)]

theorem fullRootsAux_canon (m : Nat) : ∀ s : Nat,
    fullRootsAux m (2 * s) = (canon m s).map (fun p => 2 * p.1 + 2 ^ p.2 - 1) := by
  induction m using Nat.strong_induction_on with
  | _ m ih =>
      intro s
      match m with
      | 0 => rw [fullRootsAux_zero, canon_zero]; rfl
      | m + 1 =>
          rw [fullRootsAux_succ, canon_succ]
          have h1 : 1 ≤ 2 ^ largestExp (m + 1) := Nat.one_le_two_pow
          simp only [List.map_cons]
          congr 1
          have h2 : 2 * s + 2 * 2 ^ largestExp (m + 1) =
              2 * (s + 2 ^ largestExp (m + 1)) := by ring
          rw [h2, ih (m + 1 - 2 ^ largestExp (m + 1)) (by omega)]

theorem fullRoots_canon (n : Nat) :
    fullRoots (2 * n) = (canon n 0).map (fun p => 2 * p.1 + 2 ^ p.2 - 1) := by
  have h0 : (0 : Nat) = 2 * 0 := rfl
  rw [fullRoots, Nat.mul_div_cancel_left _ (by omega : 0 < 2), h0,
    fullRootsAux_canon]

/-- Total number of leaves covered by a list of (leaf start, exponent)
subtree descriptors. -/
def sumPows (l : List (Nat × Nat)) : Nat := (l.map (fun p => 2 ^ p.2)).sum

/-- Contiguity of a descriptor list: each subtree starts where the
previous one ended, the first at leaf position s. -/
def Contig : Nat → List (Nat × Nat) → Prop
  | _, [] => True
  | s, p :: t => p.1 = s ∧ Contig (p.1 + 2 ^ p.2) t

theorem sumPows_nil : sumPows [] = 0 := rfl

theorem sumPows_cons (p : Nat × Nat) (t : List (Nat × Nat)) :
    sumPows (p :: t) = 2 ^ p.2 + sumPows t := by
  simp [sumPows]

theorem canon_sumPows (m : Nat) : ∀ s, sumPows (canon m s) = m := by
  induction m using Nat.strong_induction_on with
  | _ m ih =>
      intro s
      match m with
      | 0 => rw [canon_zero]; rfl
      | m + 1 =>
          rw [canon_succ, sumPows_cons]
          dsimp only
          have h1 : 2 ^ largestExp (m + 1) ≤ m + 1 := largestExp_le _ (by omega)
          have h2 : 1 ≤ 2 ^ largestExp (m + 1) := Nat.one_le_two_pow
          rw [ih (m + 1 - 2 ^ largestExp (m + 1)) (by omega)]
          omega

theorem canon_contig (m : Nat) : ∀ s, Contig s (canon m s) := by
  induction m using Nat.strong_induction_on with
  | _ m ih =>
      intro s
      match m with
      | 0 => rw [canon_zero]; trivial
      | m + 1 =>
          rw [canon_succ]
          have h1 : 2 ^ largestExp (m + 1) ≤ m + 1 := largestExp_le _ (by omega)
          have h2 : 1 ≤ 2 ^ largestExp (m + 1) := Nat.one_le_two_pow
          exact ⟨rfl, ih (m + 1 - 2 ^ largestExp (m + 1)) (by omega) _⟩

theorem canon_exp_le (m : Nat) : ∀ s p, p ∈ canon m s → 2 ^ p.2 ≤ m := by
  induction m using Nat.strong_induction_on with
  | _ m ih =>
      intro s p hp
      match m with
      | 0 => rw [canon_zero] at hp; simp at hp
      | m + 1 =>
          rw [canon_succ] at hp
          have h1 : 2 ^ largestExp (m + 1) ≤ m + 1 := largestExp_le _ (by omega)
          have h2 : 1 ≤ 2 ^ largestExp (m + 1) := Nat.one_le_two_pow
          rcases List.mem_cons.mp hp with h | h
          · subst h; exact h1
          · have := ih (m + 1 - 2 ^ largestExp (m + 1)) (by omega) _ p h
            omega

theorem canon_chain (m : Nat) : ∀ s,
    List.Chain' (fun p q : Nat × Nat => q.2 < p.2) (canon m s) := by
  induction m using Nat.strong_induction_on with
  | _ m ih =>
      intro s
      match m with
      | 0 => rw [canon_zero]; exact List.chain'_nil
      | m + 1 =>
          rw [canon_succ]
          have h1 : 2 ^ largestExp (m + 1) ≤ m + 1 := largestExp_le _ (by omega)
          have h2 : 1 ≤ 2 ^ largestExp (m + 1) := Nat.one_le_two_pow
          have hm : m + 1 < 2 ^ (largestExp (m + 1) + 1) :=
            lt_largestExp_succ _ (by omega)
          apply List.chain'_cons'.mpr
          refine ⟨?_, ih (m + 1 - 2 ^ largestExp (m + 1)) (by omega) _⟩
          intro q hq
          have hqm : q ∈ canon (m + 1 - 2 ^ largestExp (m + 1))
              (s + 2 ^ largestExp (m + 1)) := List.mem_of_mem_head? hq
          have h3 : 2 ^ q.2 ≤ m + 1 - 2 ^ largestExp (m + 1) :=
            canon_exp_le _ _ _ hqm
          have h4 : 2 ^ q.2 < 2 ^ largestExp (m + 1) := by
            have hp : 2 ^ (largestExp (m + 1) + 1) = 2 * 2 ^ largestExp (m + 1) := by
              ring
            omega
          exact (Nat.pow_lt_pow_iff_right (by omega)).mp h4

theorem canon_align (m : Nat) : ∀ s,
    (∀ p ∈ canon m s, (2 : Nat) ^ p.2 ∣ s) →
    ∀ p ∈ canon m s, (2 : Nat) ^ p.2 ∣ p.1 := by
  induction m using Nat.strong_induction_on with
  | _ m ih =>
      intro s hs p hp
      match m with
      | 0 => rw [canon_zero] at hp; simp at hp
      | m + 1 =>
          have h1 : 2 ^ largestExp (m + 1) ≤ m + 1 := largestExp_le _ (by omega)
          have h2 : 1 ≤ 2 ^ largestExp (m + 1) := Nat.one_le_two_pow
          have hm : m + 1 < 2 ^ (largestExp (m + 1) + 1) :=
            lt_largestExp_succ _ (by omega)
          rw [canon_succ] at hp
          rcases List.mem_cons.mp hp with h | h
          · subst h
            exact hs _ (by rw [canon_succ]; exact List.mem_cons_self _ _)
          · refine ih (m + 1 - 2 ^ largestExp (m + 1)) (by omega) _ ?_ p h
            intro q hq
            have hqle : 2 ^ q.2 ≤ m + 1 - 2 ^ largestExp (m + 1) :=
              canon_exp_le _ _ _ hq
            have hqlt : q.2 < largestExp (m + 1) := by
              have h4 : 2 ^ q.2 < 2 ^ largestExp (m + 1) := by
                have hp2 : 2 ^ (largestExp (m + 1) + 1) =
                    2 * 2 ^ largestExp (m + 1) := by ring
                omega
              exact (Nat.pow_lt_pow_iff_right (by omega)).mp h4
            have hdvd1 : (2 : Nat) ^ q.2 ∣ s :=
              hs q (by rw [canon_succ]; exact List.mem_cons_of_mem _ hq)
            have hdvd2 : (2 : Nat) ^ q.2 ∣ 2 ^ largestExp (m + 1) :=
              pow_dvd_pow 2 (le_of_lt hqlt)
            exact Nat.dvd_add hdvd1 hdvd2

theorem canon_align_zero (m : Nat) :
    ∀ p ∈ canon m 0, (2 : Nat) ^ p.2 ∣ p.1 :=
  canon_align m 0 (fun p _ => Dvd.intro 0 rfl)

/-- Validity of a subtree-descriptor list as a decomposition of m leaves
starting at leaf position s: contiguous, totalling m, with strictly
decreasing subtree heights. -/
def IsDecomp (s m : Nat) (l : List (Nat × Nat)) : Prop :=
  Contig s l ∧ sumPows l = m ∧
    List.Chain' (fun p q : Nat × Nat => q.2 < p.2) l

theorem chain_sum_lt : ∀ (t : List (Nat × Nat)) (p : Nat × Nat),
    List.Chain' (fun p q : Nat × Nat => q.2 < p.2) (p :: t) →
    sumPows (p :: t) < 2 ^ (p.2 + 1) := by
  intro t
  induction t with
  | nil =>
      intro p _
      rw [sumPows_cons, sumPows_nil]
      have : 2 ^ (p.2 + 1) = 2 * 2 ^ p.2 := by ring
      have h2 : 1 ≤ 2 ^ p.2 := Nat.one_le_two_pow
      omega
  | cons q t2 ih =>
      intro p hch
      have h1 : q.2 < p.2 := (List.chain'_cons.mp hch).1
      have h2 := ih q (List.chain'_cons.mp hch).2
      have h3 : 2 ^ (q.2 + 1) ≤ 2 ^ p.2 := Nat.pow_le_pow_right (by omega) (by omega)
      rw [sumPows_cons] at h2
      rw [sumPows_cons, sumPows_cons]
      have h4 : 2 ^ (p.2 + 1) = 2 * 2 ^ p.2 := by ring
      omega

theorem pow_eq_of_bounds {a b m : Nat} (ha1 : 2 ^ a ≤ m) (ha2 : m < 2 ^ (a + 1))
    (hb1 : 2 ^ b ≤ m) (hb2 : m < 2 ^ (b + 1)) : a = b := by
  by_contra hne
  rcases Nat.lt_or_ge a b with h | h
  · have : 2 ^ (a + 1) ≤ 2 ^ b := Nat.pow_le_pow_right (by omega) (by omega)
    omega
  · have hba : b < a := by omega
    have : 2 ^ (b + 1) ≤ 2 ^ a := Nat.pow_le_pow_right (by omega) (by omega)
    omega

theorem decomp_unique : ∀ (l1 l2 : List (Nat × Nat)) (s m : Nat),
    IsDecomp s m l1 → IsDecomp s m l2 → l1 = l2 := by
  intro l1
  induction l1 with
  | nil =>
      intro l2 s m h1 h2
      have hm : m = 0 := by
        have := h1.2.1; rw [sumPows_nil] at this; omega
      match l2 with
      | [] => rfl
      | q :: t2 =>
          exfalso
          have := h2.2.1
          rw [sumPows_cons] at this
          have hq : 1 ≤ 2 ^ q.2 := Nat.one_le_two_pow
          omega
  | cons p t1 ih =>
      intro l2 s m h1 h2
      match l2 with
      | [] =>
          exfalso
          have := h1.2.1
          rw [sumPows_cons] at this
          have hp : 1 ≤ 2 ^ p.2 := Nat.one_le_two_pow
          have := h2.2.1
          rw [sumPows_nil] at this
          omega
      | q :: t2 =>
          have hs1 : p.1 = s := h1.1.1
          have hs2 : q.1 = s := h2.1.1
          have hsum1 := h1.2.1
          have hsum2 := h2.2.1
          rw [sumPows_cons] at hsum1 hsum2
          have hub1 := chain_sum_lt t1 p h1.2.2
          have hub2 := chain_sum_lt t2 q h2.2.2
          rw [sumPows_cons] at hub1 hub2
          have he : p.2 = q.2 := by
            apply pow_eq_of_bounds (m := m) <;> omega
          have hpq : p = q := Prod.ext (by rw [hs1, hs2]) he
          subst hpq
          have htail : t1 = t2 := by
            apply ih t2 (p.1 + 2 ^ p.2) (m - 2 ^ p.2)
            · exact ⟨h1.1.2, by omega, (List.chain'_cons'.mp h1.2.2).2⟩
            · exact ⟨h2.1.2, by omega, (List.chain'_cons'.mp h2.2.2).2⟩
          rw [htail]

theorem canon_isDecomp (m s : Nat) : IsDecomp s m (canon m s) :=
  ⟨canon_contig m s, canon_sumPows m s, canon_chain m s⟩

theorem sumPows_append (l1 l2 : List (Nat × Nat)) :
    sumPows (l1 ++ l2) = sumPows l1 + sumPows l2 := by
  simp [sumPows]

theorem contig_append_iff (l : List (Nat × Nat)) : ∀ (s : Nat) (p : Nat × Nat),
    Contig s (l ++ [p]) ↔ (Contig s l ∧ p.1 = s + sumPows l) := by
  induction l with
  | nil =>
      intro s p
      constructor
      · intro h
        exact ⟨trivial, by have := h.1; rw [sumPows_nil]; omega⟩
      · intro h
        exact ⟨by rw [h.2, sumPows_nil]; omega, trivial⟩
  | cons q t ih =>
      intro s p
      constructor
      · intro h
        have h2 := (ih (q.1 + 2 ^ q.2) p).mp h.2
        refine ⟨⟨h.1, h2.1⟩, ?_⟩
        rw [h2.2, sumPows_cons, h.1]
        omega
      · intro h
        refine ⟨h.1.1, (ih (q.1 + 2 ^ q.2) p).mpr ⟨h.1.2, ?_⟩⟩
        have := h.2
        rw [sumPows_cons] at this
        have hq : q.1 = s := h.1.1
        omega

theorem contig_sum_split (l1 : List (Nat × Nat)) : ∀ (s : Nat) (p : Nat × Nat)
    (l2 : List (Nat × Nat)), Contig s (l1 ++ p :: l2) → p.1 = s + sumPows l1 := by
  induction l1 with
  | nil =>
      intro s p l2 h
      have := h.1
      rw [sumPows_nil]
      omega
  | cons q t ih =>
      intro s p l2 h
      have h2 := ih (q.1 + 2 ^ q.2) p l2 h.2
      rw [sumPows_cons]
      have hq : q.1 = s := h.1
      omega

theorem chain_decr_gt_last (l1 : List (Nat × Nat)) : ∀ (a : Nat × Nat),
    List.Chain' (fun p q : Nat × Nat => q.2 < p.2) (l1 ++ [a]) →
    ∀ p ∈ l1, a.2 < p.2 := by
  induction l1 with
  | nil => intro a _ p hp; simp at hp
  | cons q t ih =>
      intro a hch p hp
      have hch2 : List.Chain' (fun p q : Nat × Nat => q.2 < p.2) (t ++ [a]) :=
        (List.chain'_cons'.mp hch).2
      rcases List.mem_cons.mp hp with h | h
      · subst h
        match t with
        | [] =>
            have := (List.chain'_cons'.mp hch).1 a rfl
            exact this
        | r :: t2 =>
            have h1 := (List.chain'_cons'.mp hch).1 r rfl
            have h2 := ih a hch2 r (List.mem_cons_self _ _)
            omega
      · exact ih a hch2 p h

theorem dvd_sumPows (l : List (Nat × Nat)) (e : Nat)
    (h : ∀ p ∈ l, e ≤ p.2) : (2 : Nat) ^ e ∣ sumPows l := by
  induction l with
  | nil => rw [sumPows_nil]; exact Dvd.intro 0 rfl
  | cons q t ih =>
      rw [sumPows_cons]
      refine Nat.dvd_add ?_ (ih fun p hp => h p (List.mem_cons_of_mem _ hp))
      exact pow_dvd_pow 2 (h q (List.mem_cons_self _ _))

theorem chain_decr_append (l1 : List (Nat × Nat)) (a p : Nat × Nat)
    (hch : List.Chain' (fun p q : Nat × Nat => q.2 < p.2) (l1 ++ [a]))
    (hlt : p.2 < a.2) :
    List.Chain' (fun p q : Nat × Nat => q.2 < p.2) ((l1 ++ [a]) ++ [p]) := by
  apply List.chain'_append.mpr
  refine ⟨hch, List.chain'_singleton p, ?_⟩
  intro x hx y hy
  simp at hy
  subst hy
  have hxa : x = a := by
    have hc : (l1 ++ [a]).getLast? = some a := List.getLast?_concat _
    rw [hc] at hx
    exact (by simpa using hx : a = x).symm
  rw [hxa]
  exact hlt

end flat

/-- Modelled from the spec: the three domain separated hashes of lib/hash
(spec 4.B), which is not under src.  leafH carries the length prefix and
the block bytes; parentH carries the summed size and the two child hashes
in left-then-right order; rootsH carries, for every root, its index, hash
and size.  Free constructors model collision resistance. -/
inductive Hash where
  | leafH : Nat → List Nat → Hash
  | parentH : Nat → Hash → Hash → Hash
  | rootsNil : Hash
  | rootsCons : Nat → Hash → Nat → Hash → Hash
deriving DecidableEq, Repr

/-- Tree node record: flat index, node hash, byte size (spec section 3). -/
structure Node where
  index : Nat
  hash : Hash
  size : Nat
deriving DecidableEq, Repr

/-- Modelled from the spec: a stored 32 byte key is either an Ed25519
public key (identified by its key pair seed) or, for a finalized feed,
the root hash of the tree; the two kinds of byte string never coincide. -/
inductive KeyV where
  | pub : Nat → KeyV
  | treeKey : Hash → KeyV
deriving DecidableEq, Repr

/-- Modelled from the spec: an Ed25519 signature (sodium-signatures is an
external collaborator), as a perfect scheme: a signature is the signing
seed together with the signed message. -/
structure Sig where
  signer : Nat
  msg : Hash
deriving DecidableEq, Repr

/-- Modelled from the spec: signing under a secret key seed. -/
def sign (sk : Nat) (m : Hash) : Sig := ⟨sk, m⟩

/-- Modelled from the spec: verification succeeds exactly for the
signature produced by the matching secret key on the same message, and
never against a non-key byte string. -/
def verifySig (s : Sig) (m : Hash) (k : KeyV) : Bool :=
  match k with
  | KeyV.pub n => s.signer == n && s.msg == m
  | KeyV.treeKey _ => false

/-- Modelled from the spec: the leaf hash of lib/hash, over length and
block bytes. -/
def hashData (data : List Nat) : Hash := Hash.leafH data.length data

/-- Modelled from the spec: the parent hash of lib/hash; the two child
nodes are ordered by index before hashing (left child first). -/
def hashParent (a b : Node) : Hash :=
  if a.index ≤ b.index then Hash.parentH (a.size + b.size) a.hash b.hash
  else Hash.parentH (a.size + b.size) b.hash a.hash

/-- Modelled from the spec: the root-set hash of lib/hash.  The real
hash consumes the concatenation of fixed-size records (hash, index,
size) per root, an injective encoding of the root list, modelled here as
a chain of free constructors. -/
def hashTree (roots : List Node) : Hash :=
  roots.foldr (fun r acc => Hash.rootsCons r.index r.hash r.size acc) Hash.rootsNil

/-- Modelled from the spec: the discovery key, a keyed hash of a fixed
label under the feed key, modelled as an injective tag of the key. -/
structure DKey where
  ofKey : KeyV
deriving DecidableEq, Repr

/-- Byte size of the perfect subtree at depth d and offset o over the
block list bs. -/
def semSize (bs : List (List Nat)) : Nat → Nat → Nat
  | 0, o => (bs.getD o []).length
  | d + 1, o => semSize bs d (2 * o) + semSize bs d (2 * o + 1)

/-- Hash of the perfect subtree at depth d and offset o over the block
list bs, combining children left first as lib/hash does. -/
def semHash (bs : List (List Nat)) : Nat → Nat → Hash
  | 0, o => hashData (bs.getD o [])
  | d + 1, o =>
      Hash.parentH (semSize bs d (2 * o) + semSize bs d (2 * o + 1))
        (semHash bs d (2 * o)) (semHash bs d (2 * o + 1))

/-- Tree node of the perfect subtree at depth d and offset o over bs. -/
def semNode (bs : List (List Nat)) (d o : Nat) : Node :=
  ⟨flat.idx d o, semHash bs d o, semSize bs d o⟩

theorem idx_lt_idx {d o1 o2 : Nat} (h : o1 < o2) : flat.idx d o1 < flat.idx d o2 := by
  unfold flat.idx
  have hp : 0 < 2 ^ d := pow_pos (by omega) d
  have hlt : (2 * o1 + 1) * 2 ^ d < (2 * o2 + 1) * 2 ^ d :=
    (Nat.mul_lt_mul_right hp).mpr (by omega)
  have h1 : 1 ≤ (2 * o1 + 1) * 2 ^ d := Nat.mul_pos (by omega) hp
  exact Nat.sub_lt_sub_right h1 hlt

theorem hashParent_children (bs : List (List Nat)) (d o : Nat) :
    hashParent (semNode bs d (2 * o)) (semNode bs d (2 * o + 1)) =
      semHash bs (d + 1) o := by
  unfold hashParent semNode
  have h : flat.idx d (2 * o) < flat.idx d (2 * o + 1) := idx_lt_idx (by omega)
  simp only []
  rw [if_pos (le_of_lt h)]
  rfl

theorem hashParent_children_rev (bs : List (List Nat)) (d o : Nat) :
    hashParent (semNode bs d (2 * o + 1)) (semNode bs d (2 * o)) =
      semHash bs (d + 1) o := by
  unfold hashParent semNode
  have h : flat.idx d (2 * o) < flat.idx d (2 * o + 1) := idx_lt_idx (by omega)
  simp only []
  rw [if_neg (by omega)]
  show Hash.parentH (semSize bs d (2 * o + 1) + semSize bs d (2 * o)) _ _ = _
  rw [Nat.add_comm]
  rfl

/-- Semantic node of the subtree descriptor p = (leaf start, exponent). -/
def semP (bs : List (List Nat)) (p : Nat × Nat) : Node :=
  semNode bs p.2 (p.1 / 2 ^ p.2)

/-- Roots of the tree over the first n blocks of bs: the semantic nodes
at the canonical full-root positions. -/
def canonNodes (bs : List (List Nat)) (n : Nat) : List Node :=
  (flat.canon n 0).map (semP bs)

theorem canon_rootIdx (n : Nat) :
    ∀ p ∈ flat.canon n 0, flat.idx p.2 (p.1 / 2 ^ p.2) = 2 * p.1 + 2 ^ p.2 - 1 := by
  intro p hp
  have hdvd : (2 : Nat) ^ p.2 ∣ p.1 := flat.canon_align_zero n p hp
  unfold flat.idx
  have : p.1 / 2 ^ p.2 * 2 ^ p.2 = p.1 := Nat.div_mul_cancel hdvd
  have hexp : (2 * (p.1 / 2 ^ p.2) + 1) * 2 ^ p.2 =
      2 * (p.1 / 2 ^ p.2 * 2 ^ p.2) + 2 ^ p.2 := by ring
  rw [hexp, this]

theorem canonNodes_indices (bs : List (List Nat)) (n : Nat) :
    (canonNodes bs n).map Node.index = flat.fullRoots (2 * n) := by
  rw [flat.fullRoots_canon, canonNodes, List.map_map]
  apply List.map_congr_left
  intro p hp
  exact canon_rootIdx n p hp

/-- Modelled from the spec: state of the streaming Merkle generator
(merkle-tree-stream, an external collaborator; spec 4.F append step 2):
the number of blocks fed so far and the current roots, most recent
first. -/
structure MerkleGen where
  blocks : Nat
  rootsRev : List Node
deriving DecidableEq, Repr

/-- Modelled from the spec: the combine loop of the Merkle generator:
while the two most recent roots share a parent, replace them by that
parent (hash combined left child first); returns the new root stack and
the created parent nodes in creation order. -/
def genCombineF : Nat → List Node → List Node × List Node
  | fuel + 1, r :: ln :: rest =>
      if flat.parent ln.index = flat.parent r.index then
        ((genCombineF fuel (⟨flat.parent ln.index, hashParent ln r, ln.size + r.size⟩ :: rest)).1,
          (⟨flat.parent ln.index, hashParent ln r, ln.size + r.size⟩ : Node) ::
            (genCombineF fuel (⟨flat.parent ln.index, hashParent ln r, ln.size + r.size⟩ :: rest)).2)
      else (r :: ln :: rest, [])
  | _, l => (l, [])

def genCombine (l : List Node) : List Node × List Node := genCombineF l.length l

theorem genCombine_cons (r ln : Node) (rest : List Node) :
    genCombine (r :: ln :: rest) =
      (if flat.parent ln.index = flat.parent r.index then
        ((genCombine (⟨flat.parent ln.index, hashParent ln r, ln.size + r.size⟩ :: rest)).1,
          (⟨flat.parent ln.index, hashParent ln r, ln.size + r.size⟩ : Node) ::
            (genCombine (⟨flat.parent ln.index, hashParent ln r, ln.size + r.size⟩ :: rest)).2)
      else (r :: ln :: rest, [])) := by
  simp only [genCombine, List.length_cons]
  rw [genCombineF]

/-- Modelled from the spec: feeding one block to the generator: append a
leaf node at index 2 * blocks, then run the combine loop; returns the new
state and the created nodes, leaf first. -/
def genNext (g : MerkleGen) (data : List Nat) : MerkleGen × List Node :=
  ⟨⟨g.blocks + 1,
      (genCombine (⟨2 * g.blocks, hashData data, data.length⟩ :: g.rootsRev)).1⟩,
    (⟨2 * g.blocks, hashData data, data.length⟩ : Node) ::
      (genCombine (⟨2 * g.blocks, hashData data, data.length⟩ :: g.rootsRev)).2⟩

/-- Generator state after feeding all blocks of bs, starting empty. -/
def genFold (bs : List (List Nat)) : MerkleGen :=
  bs.foldl (fun g d => (genNext g d).1) ⟨0, []⟩

/-- Pair-level image of the combine loop: merge the reversed front while
heights match, recording each created parent descriptor. -/
def carryR : List (Nat × Nat) → Nat × Nat → List (Nat × Nat)
  | [], _ => []
  | a :: rest, last =>
      if a.2 = last.2 then (a.1, a.2 + 1) :: carryR rest (a.1, a.2 + 1) else []

/-- Invariant of the combine loop: the reversed stack front ++ [last]
covers leaves 0..m contiguously, the front has strictly decreasing
heights, and the freshly pushed last element is no taller than any front
element. -/
def AD (m : Nat) (front : List (Nat × Nat)) (last : Nat × Nat) : Prop :=
  flat.Contig 0 (front ++ [last]) ∧ flat.sumPows (front ++ [last]) = m ∧
    List.Chain' (fun p q : Nat × Nat => q.2 < p.2) front ∧
    ∀ p ∈ front, last.2 ≤ p.2

theorem merge_step (bs : List (List Nat)) (a last : Nat × Nat)
    (he : a.2 = last.2) (hc : last.1 = a.1 + 2 ^ a.2)
    (hdvd : (2 : Nat) ^ (a.2 + 1) ∣ a.1) :
    flat.parent (semP bs a).index = flat.parent (semP bs last).index ∧
    (⟨flat.parent (semP bs a).index, hashParent (semP bs a) (semP bs last),
       (semP bs a).size + (semP bs last).size⟩ : Node) = semP bs (a.1, a.2 + 1) := by
  obtain ⟨o, ho⟩ := hdvd
  have hpow : (2 : Nat) ^ (a.2 + 1) = 2 ^ a.2 * 2 := by ring
  have hp0 : (0 : Nat) < 2 ^ a.2 := pow_pos (by omega) _
  have hoa : a.1 / 2 ^ a.2 = 2 * o := by
    rw [ho, hpow, Nat.mul_assoc]
    exact Nat.mul_div_cancel_left _ hp0
  have holast : last.1 / 2 ^ a.2 = 2 * o + 1 := by
    rw [hc, ho, hpow, Nat.mul_assoc, Nat.add_div_right _ hp0,
      Nat.mul_div_cancel_left _ hp0]
  have hoa1 : a.1 / 2 ^ (a.2 + 1) = o := by
    rw [ho]
    exact Nat.mul_div_cancel_left o (pow_pos (by omega) _)
  have hsa : semP bs a = semNode bs a.2 (2 * o) := by
    rw [semP, hoa]
  have hsl : semP bs last = semNode bs a.2 (2 * o + 1) := by
    rw [semP, ← he, holast]

  constructor
  · rw [hsa, hsl]
    show flat.parent (flat.idx a.2 (2 * o)) = flat.parent (flat.idx a.2 (2 * o + 1))
    rw [flat.parent_idx, flat.parent_idx]
    have h1 : 2 * o / 2 = o := by omega
    have h2 : (2 * o + 1) / 2 = o := by omega
    rw [h1, h2]
  · rw [hsa, hsl]
    show (⟨flat.parent (flat.idx a.2 (2 * o)),
        hashParent (semNode bs a.2 (2 * o)) (semNode bs a.2 (2 * o + 1)),
        semSize bs a.2 (2 * o) + semSize bs a.2 (2 * o + 1)⟩ : Node) =
      semP bs (a.1, a.2 + 1)
    rw [flat.parent_idx, hashParent_children]
    have h1 : 2 * o / 2 = o := by omega
    rw [h1]
    show _ = semNode bs (a.2 + 1) (a.1 / 2 ^ (a.2 + 1))
    rw [hoa1]
    rfl

theorem parent_ne_step (bs : List (List Nat)) (a last : Nat × Nat)
    (hne : a.2 ≠ last.2) :
    flat.parent (semP bs a).index ≠ flat.parent (semP bs last).index := by
  intro h
  have ha : (semP bs a).index = flat.idx a.2 (a.1 / 2 ^ a.2) := rfl
  have hl : (semP bs last).index = flat.idx last.2 (last.1 / 2 ^ last.2) := rfl
  rw [ha, hl, flat.parent_idx, flat.parent_idx] at h
  have := (flat.idx_inj h).1
  omega

theorem genCombine_AD (bs : List (List Nat)) : ∀ (front : List (Nat × Nat)),
    ∀ (last : Nat × Nat) (m : Nat), AD m front last →
    genCombine (semP bs last :: (front.map (semP bs)).reverse) =
      (((flat.canon m 0).map (semP bs)).reverse,
        (carryR front.reverse last).map (semP bs)) := by
  intro front
  induction front using List.reverseRecOn with
  | nil =>
      intro last m had
      have hcanon : flat.canon m 0 = [last] := by
        apply flat.decomp_unique (flat.canon m 0) [last] 0 m (flat.canon_isDecomp m 0)
        refine ⟨?_, ?_, List.chain'_singleton _⟩
        · exact had.1
        · exact had.2.1
      rw [hcanon]
      simp only [List.map_nil, List.reverse_nil, List.map_cons, List.reverse_cons,
        List.append_nil]
      show genCombineF 1 [semP bs last] = _
      simp [genCombineF, carryR]
  | append_singleton front2 a ih =>
      intro last m had
      obtain ⟨h_contig, h_sum, h_chain, h_ge⟩ := had
      have hstack : ((front2 ++ [a]).map (semP bs)).reverse =
          semP bs a :: (front2.map (semP bs)).reverse := by
        simp
      have hassoc : (front2 ++ [a]) ++ [last] = front2 ++ (a :: [last]) := by
        simp
      have ha1 : a.1 = flat.sumPows front2 := by
        have := flat.contig_sum_split front2 0 a [last] (by rw [← hassoc]; exact h_contig)
        omega
      have hlast1 : last.1 = a.1 + 2 ^ a.2 := by
        have := flat.contig_sum_split (front2 ++ [a]) 0 last [] h_contig
        rw [flat.sumPows_append, flat.sumPows_cons, flat.sumPows_nil] at this
        omega
      have hgt : ∀ p ∈ front2, a.2 < p.2 := flat.chain_decr_gt_last front2 a h_chain
      have hdvd : (2 : Nat) ^ (a.2 + 1) ∣ a.1 := by
        rw [ha1]
        exact flat.dvd_sumPows front2 (a.2 + 1) (fun p hp => hgt p hp)
      have hsum2 : flat.sumPows front2 + 2 ^ a.2 + 2 ^ last.2 = m := by
        simp only [flat.sumPows_append, flat.sumPows_cons, flat.sumPows_nil]
          at h_sum
        omega
      by_cases he : a.2 = last.2
      · have hm := merge_step bs a last he hlast1 hdvd
        have hAD2 : AD m front2 (a.1, a.2 + 1) := by
          refine ⟨?_, ?_, (List.chain'_append.mp h_chain).1, ?_⟩
          · apply (flat.contig_append_iff front2 0 (a.1, a.2 + 1)).mpr
            have hpre := (flat.contig_append_iff (front2 ++ [a]) 0 last).mp
              h_contig
            have hpre2 := (flat.contig_append_iff front2 0 a).mp hpre.1
            refine ⟨hpre2.1, ?_⟩
            show a.1 = 0 + flat.sumPows front2
            omega
          · simp only [flat.sumPows_append, flat.sumPows_cons, flat.sumPows_nil]
            have hp : (2 : Nat) ^ (a.2 + 1) = 2 ^ a.2 * 2 := pow_succ 2 a.2
            have hsum3 := hsum2
            rw [← he] at hsum3
            show flat.sumPows front2 + 2 ^ (a.2 + 1) = m
            omega
          · intro p hp
            have := hgt p hp
            show a.2 + 1 ≤ p.2
            omega
        have hrec := ih (a.1, a.2 + 1) m hAD2
        rw [hstack]
        rw [genCombine_cons]
        rw [if_pos hm.1]
        rw [hm.2, hrec]
        have hcarry : carryR ((front2 ++ [a]).reverse) last =
            (a.1, a.2 + 1) :: carryR front2.reverse (a.1, a.2 + 1) := by
          rw [List.reverse_append]
          show carryR (a :: front2.reverse) last = _
          rw [carryR]
          rw [if_pos he]
        rw [hcarry]
        simp
      · have hlt : last.2 < a.2 := by
          have := h_ge a (by simp)
          omega
        have hchfull : List.Chain' (fun p q : Nat × Nat => q.2 < p.2)
            ((front2 ++ [a]) ++ [last]) :=
          flat.chain_decr_append front2 a last h_chain hlt
        have hcanon : flat.canon m 0 = (front2 ++ [a]) ++ [last] := by
          apply flat.decomp_unique (flat.canon m 0) _ 0 m (flat.canon_isDecomp m 0)
          exact ⟨h_contig, h_sum, hchfull⟩
        rw [hstack]
        rw [genCombine_cons]
        rw [if_neg (parent_ne_step bs a last he)]
        have hcarry : carryR ((front2 ++ [a]).reverse) last = [] := by
          rw [List.reverse_append]
          show carryR (a :: front2.reverse) last = _
          rw [carryR]
          rw [if_neg he]
        rw [hcarry, hcanon]
        simp

theorem semSize_congr (bs1 bs2 : List (List Nat)) (d : Nat) : ∀ o N,
    (o + 1) * 2 ^ d ≤ N → (∀ j, j < N → bs1.getD j [] = bs2.getD j []) →
    semSize bs1 d o = semSize bs2 d o := by
  induction d with
  | zero =>
      intro o N hle hag
      show (bs1.getD o []).length = (bs2.getD o []).length
      rw [hag o (by omega)]
  | succ d ih =>
      intro o N hle hag
      show semSize bs1 d (2 * o) + semSize bs1 d (2 * o + 1) =
        semSize bs2 d (2 * o) + semSize bs2 d (2 * o + 1)
      have harith : (2 * o + 1 + 1) * 2 ^ d = (o + 1) * 2 ^ (d + 1) := by ring
      have h1 : (2 * o + 1) * 2 ^ d ≤ N := by
        have hp : (0 : Nat) < 2 ^ d := pow_pos (by omega) d
        have : (2 * o + 1) * 2 ^ d ≤ (2 * o + 1 + 1) * 2 ^ d :=
          Nat.mul_le_mul_right _ (by omega)
        omega
      have h2 : (2 * o + 1 + 1) * 2 ^ d ≤ N := by omega
      rw [ih (2 * o) N h1 hag, ih (2 * o + 1) N h2 hag]

theorem semHash_congr (bs1 bs2 : List (List Nat)) (d : Nat) : ∀ o N,
    (o + 1) * 2 ^ d ≤ N → (∀ j, j < N → bs1.getD j [] = bs2.getD j []) →
    semHash bs1 d o = semHash bs2 d o := by
  induction d with
  | zero =>
      intro o N hle hag
      show hashData (bs1.getD o []) = hashData (bs2.getD o [])
      rw [hag o (by omega)]
  | succ d ih =>
      intro o N hle hag
      show Hash.parentH (semSize bs1 d (2 * o) + semSize bs1 d (2 * o + 1))
          (semHash bs1 d (2 * o)) (semHash bs1 d (2 * o + 1)) =
        Hash.parentH (semSize bs2 d (2 * o) + semSize bs2 d (2 * o + 1))
          (semHash bs2 d (2 * o)) (semHash bs2 d (2 * o + 1))
      have harith : (2 * o + 1 + 1) * 2 ^ d = (o + 1) * 2 ^ (d + 1) := by ring
      have h1 : (2 * o + 1) * 2 ^ d ≤ N := by
        have hp : (0 : Nat) < 2 ^ d := pow_pos (by omega) d
        have : (2 * o + 1) * 2 ^ d ≤ (2 * o + 1 + 1) * 2 ^ d :=
          Nat.mul_le_mul_right _ (by omega)
        omega
      have h2 : (2 * o + 1 + 1) * 2 ^ d ≤ N := by omega
      rw [ih (2 * o) N h1 hag, ih (2 * o + 1) N h2 hag,
        semSize_congr bs1 bs2 d (2 * o) N h1 hag,
        semSize_congr bs1 bs2 d (2 * o + 1) N h2 hag]

theorem semP_congr (bs1 bs2 : List (List Nat)) (p : Nat × Nat) (N : Nat)
    (hdvd : (2 : Nat) ^ p.2 ∣ p.1) (hle : p.1 + 2 ^ p.2 ≤ N)
    (hag : ∀ j, j < N → bs1.getD j [] = bs2.getD j []) :
    semP bs1 p = semP bs2 p := by
  obtain ⟨o, ho⟩ := hdvd
  have hp : (0 : Nat) < 2 ^ p.2 := pow_pos (by omega) _
  have hdiv : p.1 / 2 ^ p.2 = o := by
    rw [ho]
    exact Nat.mul_div_cancel_left o hp
  have hcov : (o + 1) * 2 ^ p.2 ≤ N := by
    have : (o + 1) * 2 ^ p.2 = 2 ^ p.2 * o + 2 ^ p.2 := by ring
    omega
  unfold semP semNode
  rw [hdiv, semHash_congr bs1 bs2 p.2 o N hcov hag,
    semSize_congr bs1 bs2 p.2 o N hcov hag]

theorem canon_cover (n : Nat) : ∀ p ∈ flat.canon n 0, p.1 + 2 ^ p.2 ≤ n := by
  intro p hp
  obtain ⟨l1, l2, hsplit⟩ := List.append_of_mem hp
  have hstart : p.1 = 0 + flat.sumPows l1 :=
    flat.contig_sum_split l1 0 p l2 (by rw [← hsplit]; exact flat.canon_contig n 0)
  have hsum : flat.sumPows (l1 ++ p :: l2) = n := by
    rw [← hsplit]; exact flat.canon_sumPows n 0
  rw [flat.sumPows_append, flat.sumPows_cons] at hsum
  omega

theorem canonNodes_congr (bs : List (List Nat)) (v : List Nat) (n : Nat)
    (hn : n ≤ bs.length) :
    (flat.canon n 0).map (semP bs) = (flat.canon n 0).map (semP (bs ++ [v])) := by
  apply List.map_congr_left
  intro p hp
  apply semP_congr bs (bs ++ [v]) p bs.length (flat.canon_align_zero n p hp)
    (le_trans (canon_cover n p hp) hn)
  intro j hj
  rw [List.getD_append _ _ _ _ hj]

theorem getD_append_last (bs : List (List Nat)) (v : List Nat) :
    (bs ++ [v]).getD bs.length [] = v := by
  rw [List.getD_eq_getElem?_getD, List.getElem?_append_right (le_refl _)]
  simp

theorem leaf_semP (bs : List (List Nat)) (v : List Nat) :
    (⟨2 * bs.length, hashData v, v.length⟩ : Node) =
      semP (bs ++ [v]) (bs.length, 0) := by
  unfold semP semNode
  have h1 : (bs.length, (0 : Nat)).1 / 2 ^ (bs.length, (0 : Nat)).2 = bs.length := by
    simp
  rw [h1]
  show (⟨2 * bs.length, hashData v, v.length⟩ : Node) =
    ⟨flat.idx 0 bs.length, hashData ((bs ++ [v]).getD bs.length []),
      ((bs ++ [v]).getD bs.length []).length⟩
  rw [flat.idx_zero, getD_append_last]

theorem AD_push (n : Nat) : AD (n + 1) (flat.canon n 0) (n, 0) := by
  refine ⟨?_, ?_, flat.canon_chain _ _, fun p _ => by omega⟩
  · apply (flat.contig_append_iff _ 0 _).mpr
    refine ⟨flat.canon_contig _ _, ?_⟩
    show n = 0 + flat.sumPows (flat.canon n 0)
    rw [flat.canon_sumPows]
    omega
  · rw [flat.sumPows_append, flat.sumPows_cons, flat.sumPows_nil,
      flat.canon_sumPows]
    show n + (2 ^ (0 : Nat) + 0) = n + 1
    omega

/-- One generator step, on the canonical invariant. -/
theorem genNext_canon (bs : List (List Nat)) (v : List Nat) :
    (genNext ⟨bs.length, ((flat.canon bs.length 0).map (semP (bs ++ [v]))).reverse⟩ v).1 =
      ⟨bs.length + 1, ((flat.canon (bs.length + 1) 0).map (semP (bs ++ [v]))).reverse⟩ := by
  have hcomb := genCombine_AD (bs ++ [v]) (flat.canon bs.length 0)
    (bs.length, 0) (bs.length + 1) (AD_push bs.length)
  unfold genNext
  simp only [leaf_semP bs v]
  rw [hcomb]

/-- Main generator theorem: after feeding the blocks of bs, the generator
roots are exactly the semantic nodes at the canonical full-root
positions, most recent first. -/
theorem genFold_canon (bs : List (List Nat)) :
    genFold bs = ⟨bs.length, (canonNodes bs bs.length).reverse⟩ := by
  induction bs using List.reverseRecOn with
  | nil =>
      show genFold [] = _
      unfold genFold canonNodes
      rfl
  | append_singleton bs v ih =>
      unfold genFold
      rw [List.foldl_append]
      unfold genFold at ih
      rw [ih]
      unfold canonNodes
      rw [canonNodes_congr bs v bs.length (le_refl _)]
      have := genNext_canon bs v
      simp only [List.foldl_cons, List.foldl_nil]
      rw [this]
      have hlen : (bs ++ [v]).length = bs.length + 1 := by simp
      rw [hlen]

theorem semNode_congr (bs1 bs2 : List (List Nat)) (d o N : Nat)
    (hle : (o + 1) * 2 ^ d ≤ N)
    (hag : ∀ j, j < N → bs1.getD j [] = bs2.getD j []) :
    semNode bs1 d o = semNode bs2 d o := by
  unfold semNode
  rw [semHash_congr bs1 bs2 d o N hle hag, semSize_congr bs1 bs2 d o N hle hag]

theorem AD_step (m : Nat) (front2 : List (Nat × Nat)) (a last : Nat × Nat)
    (had : AD m (front2 ++ [a]) last) (he : a.2 = last.2) :
    AD m front2 (a.1, a.2 + 1) := by
  obtain ⟨h_contig, h_sum, h_chain, h_ge⟩ := had
  have hassoc : (front2 ++ [a]) ++ [last] = front2 ++ (a :: [last]) := by simp
  have ha1 : a.1 = flat.sumPows front2 := by
    have := flat.contig_sum_split front2 0 a [last] (by rw [← hassoc]; exact h_contig)
    omega
  have hgt : ∀ p ∈ front2, a.2 < p.2 := flat.chain_decr_gt_last front2 a h_chain
  have hsum2 : flat.sumPows front2 + 2 ^ a.2 + 2 ^ last.2 = m := by
    simp only [flat.sumPows_append, flat.sumPows_cons, flat.sumPows_nil] at h_sum
    omega
  refine ⟨?_, ?_, (List.chain'_append.mp h_chain).1, ?_⟩
  · apply (flat.contig_append_iff front2 0 (a.1, a.2 + 1)).mpr
    have hpre := (flat.contig_append_iff (front2 ++ [a]) 0 last).mp h_contig
    have hpre2 := (flat.contig_append_iff front2 0 a).mp hpre.1
    refine ⟨hpre2.1, ?_⟩
    show a.1 = 0 + flat.sumPows front2
    omega
  · simp only [flat.sumPows_append, flat.sumPows_cons, flat.sumPows_nil]
    have hp : (2 : Nat) ^ (a.2 + 1) = 2 ^ a.2 * 2 := pow_succ 2 a.2
    rw [← he] at hsum2
    show flat.sumPows front2 + 2 ^ (a.2 + 1) = m
    omega
  · intro p hp
    have := hgt p hp
    show a.2 + 1 ≤ p.2
    omega

theorem carry_mem : ∀ (front : List (Nat × Nat)) (last : Nat × Nat) (m : Nat),
    AD m front last → ∀ e, last.2 < e → (2 : Nat) ^ e ∣ m →
    (m - 2 ^ e, e) ∈ carryR front.reverse last := by
  intro front
  induction front using List.reverseRecOn with
  | nil =>
      intro last m had e hlt hdvd
      exfalso
      have hsum : (2 : Nat) ^ last.2 = m := by
        have := had.2.1
        simp only [List.nil_append, flat.sumPows_cons, flat.sumPows_nil] at this
        omega
      have h1 : (2 : Nat) ^ e ≤ m := Nat.le_of_dvd (by
        rw [← hsum]; exact pow_pos (by omega) _) hdvd
      have h2 : (2 : Nat) ^ last.2 < 2 ^ e :=
        Nat.pow_lt_pow_right (by omega) hlt
      omega
  | append_singleton front2 a ih =>
      intro last m had e hlt hdvd
      have h_chain := had.2.2.1
      have hgt : ∀ p ∈ front2, a.2 < p.2 := flat.chain_decr_gt_last front2 a h_chain
      by_cases he : a.2 = last.2
      · have had2 := AD_step m front2 a last had he
        have hrw : (front2 ++ [a]).reverse = a :: front2.reverse := by simp
        rw [hrw, carryR, if_pos he]
        have hsum2 : flat.sumPows front2 + 2 ^ a.2 + 2 ^ last.2 = m := by
          have := had.2.1
          simp only [flat.sumPows_append, flat.sumPows_cons, flat.sumPows_nil]
            at this
          omega
        have ha1 : a.1 = flat.sumPows front2 := by
          have hassoc : (front2 ++ [a]) ++ [last] = front2 ++ (a :: [last]) := by
            simp
          have := flat.contig_sum_split front2 0 a [last]
            (by rw [← hassoc]; exact had.1)
          omega
        have hpow : (2 : Nat) ^ (a.2 + 1) = 2 ^ a.2 + 2 ^ a.2 := by
          rw [pow_succ]; omega
        rcases Nat.lt_or_ge (a.2 + 1) e with hcase | hcase
        · refine List.mem_cons_of_mem _ ?_
          exact ih (a.1, a.2 + 1) m had2 e (by show (a.2 + 1) < e; omega) hdvd
        · have hee : e = a.2 + 1 := by omega
          subst hee
          have hsum3 := hsum2
          rw [← he] at hsum3
          have ha2 : m - 2 ^ (a.2 + 1) = a.1 := by omega
          rw [ha2]
          exact List.mem_cons_self _ _
      · exfalso
        have hlta : last.2 < a.2 := by
          have := had.2.2.2 a (by simp)
          omega
        have hdvd2 : (2 : Nat) ^ (last.2 + 1) ∣ flat.sumPows (front2 ++ [a]) := by
          apply flat.dvd_sumPows
          intro p hp
          rcases List.mem_append.mp hp with h | h
          · have := hgt p h; omega
          · simp at h; subst h; omega
        have hsum : flat.sumPows (front2 ++ [a]) + 2 ^ last.2 = m := by
          have := had.2.1
          simp only [flat.sumPows_append, flat.sumPows_cons, flat.sumPows_nil]
            at this ⊢
          omega
        have hdvd3 : (2 : Nat) ^ (last.2 + 1) ∣ m :=
          dvd_trans (pow_dvd_pow 2 (by omega)) hdvd
        have hdvd4 : (2 : Nat) ^ (last.2 + 1) ∣ 2 ^ last.2 := by
          have hd := Nat.dvd_sub' hdvd3 hdvd2
          have heq : m - flat.sumPows (front2 ++ [a]) = 2 ^ last.2 := by omega
          rwa [heq] at hd
        have hle : (2 : Nat) ^ (last.2 + 1) ≤ 2 ^ last.2 :=
          Nat.le_of_dvd (pow_pos (by omega) _) hdvd4
        have hlt2 : (2 : Nat) ^ last.2 < 2 ^ (last.2 + 1) :=
          Nat.pow_lt_pow_right (by omega) (by omega)
        omega

/-- All nodes created by the generator over a block sequence, in creation
order: exactly the node records the feed writes to node storage while
appending. -/
def genAll (g : MerkleGen) : List (List Nat) → List Node
  | [] => []
  | d :: rest => (genNext g d).2 ++ genAll (genNext g d).1 rest

theorem genAll_append (l1 : List (List Nat)) : ∀ (g : MerkleGen)
    (l2 : List (List Nat)),
    genAll g (l1 ++ l2) =
      genAll g l1 ++ genAll (l1.foldl (fun g d => (genNext g d).1) g) l2 := by
  induction l1 with
  | nil => intro g l2; rfl
  | cons d rest ih =>
      intro g l2
      show (genNext g d).2 ++ genAll (genNext g d).1 (rest ++ l2) = _
      rw [ih]
      simp [genAll]

/-- Every tree node fully covered by the first n leaves is created at
some point while the generator consumes bs. -/
theorem genAll_mem (bs : List (List Nat)) : ∀ d o, (o + 1) * 2 ^ d ≤ bs.length →
    semNode bs d o ∈ genAll ⟨0, []⟩ bs := by
  induction bs using List.reverseRecOn with
  | nil =>
      intro d o hle
      have hp : (0 : Nat) < 2 ^ d := pow_pos (by omega) d
      have h1 : 1 ≤ (o + 1) * 2 ^ d := Nat.mul_pos (by omega) hp
      rw [List.length_nil] at hle
      omega
  | append_singleton bs v ih =>
      intro d o hle
      have hlen : (bs ++ [v]).length = bs.length + 1 := by simp
      rw [hlen] at hle
      have hag : ∀ j, j < bs.length → bs.getD j [] = (bs ++ [v]).getD j [] := by
        intro j hj
        rw [List.getD_append _ _ _ _ hj]
      rw [genAll_append bs ⟨0, []⟩ [v]]
      by_cases hcase : (o + 1) * 2 ^ d ≤ bs.length
      · apply List.mem_append_left
        rw [← semNode_congr bs (bs ++ [v]) d o bs.length hcase hag]
        exact ih d o hcase
      · have hm : (o + 1) * 2 ^ d = bs.length + 1 := by omega
        apply List.mem_append_right
        have hfold : bs.foldl (fun g d => (genNext g d).1) ⟨0, []⟩ = genFold bs := rfl
        rw [hfold, genFold_canon bs]
        show semNode (bs ++ [v]) d o ∈
          (genNext ⟨bs.length, (canonNodes bs bs.length).reverse⟩ v).2 ++ []
        rw [List.append_nil]
        unfold canonNodes
        rw [canonNodes_congr bs v bs.length (le_refl _)]
        have hcomb := genCombine_AD (bs ++ [v]) (flat.canon bs.length 0)
          (bs.length, 0) (bs.length + 1) (AD_push bs.length)
        unfold genNext
        simp only [leaf_semP bs v]
        rw [hcomb]
        dsimp only
        match d, hm with
        | 0, hm =>
            have ho : o = bs.length := by omega
            subst ho
            have hs : semP (bs ++ [v]) (bs.length, 0) =
                semNode (bs ++ [v]) 0 bs.length := by
              unfold semP
              have h0 : (bs.length, (0 : Nat)).1 /
                  2 ^ (bs.length, (0 : Nat)).2 = bs.length := by simp
              rw [h0]
            rw [← hs]
            exact List.mem_cons_self _ _
        | d + 1, hm =>
            apply List.mem_cons_of_mem
            have hmem := carry_mem (flat.canon bs.length 0) (bs.length, 0)
              (bs.length + 1) (AD_push bs.length) (d + 1)
              (by show (0 : Nat) < d + 1; omega)
              ⟨o + 1, by rw [← hm]; ring⟩
            have hsem : semP (bs ++ [v]) (bs.length + 1 - 2 ^ (d + 1), d + 1) =
                semNode (bs ++ [v]) (d + 1) o := by
              unfold semP
              have h1 : bs.length + 1 - 2 ^ (d + 1) = o * 2 ^ (d + 1) := by
                have hexp : (o + 1) * 2 ^ (d + 1) =
                    o * 2 ^ (d + 1) + 2 ^ (d + 1) := by ring
                omega
              have h2 : (bs.length + 1 - 2 ^ (d + 1), d + 1).1 /
                  2 ^ (bs.length + 1 - 2 ^ (d + 1), d + 1).2 = o := by
                show (bs.length + 1 - 2 ^ (d + 1)) / 2 ^ (d + 1) = o
                rw [h1]
                exact Nat.mul_div_cancel _ (pow_pos (by omega) _)
              rw [h2]
            rw [← hsem]
            exact List.mem_map_of_mem (semP (bs ++ [v])) hmem

/-- Errors surfaced by the feed, named after the source message strings
of src/index.js; outOfFuel is a modelling artifact standing for loop
bounds that the source loops never exceed. -/
inductive Err where
  | notWritable
  | remoteNoSignature
  | remoteBadSignature
  | remoteChecksum
  | remoteNoRoots
  | anotherCore
  | noCoreStored
  | noProofAvailable
  | storageMiss
  | outOfFuel
deriving DecidableEq, Repr

/-- Error codes of spec section 6, to relate source error strings to the
codes the spec names. -/
inductive SpecCode where
  | notFound
  | alreadyExists
  | notWritable
  | invalidProof
  | missingSignature
  | checksumFailed
  | outOfBounds
  | cancelled
  | timeout
  | other
deriving DecidableEq, Repr

/-- Mapping from source error strings to the spec error codes: a proof
whose signature does not verify or whose root set is incomplete is an
InvalidProof; a root hash that does not match the key of a finalized
feed is a ChecksumFailed; a missing signature on a live feed is a
MissingSignature. -/
def errCode : Err → SpecCode
  | Err.notWritable => SpecCode.notWritable
  | Err.remoteNoSignature => SpecCode.missingSignature
  | Err.remoteBadSignature => SpecCode.invalidProof
  | Err.remoteChecksum => SpecCode.checksumFailed
  | Err.remoteNoRoots => SpecCode.invalidProof
  | Err.anotherCore => SpecCode.alreadyExists
  | Err.noCoreStored => SpecCode.notFound
  | Err.noProofAvailable => SpecCode.invalidProof
  | Err.storageMiss => SpecCode.notFound
  | Err.outOfFuel => SpecCode.other

/-- Value codec (the external codecs collaborator): encode on append and
put, decode on get. -/
structure Codec where
  enc : List Nat → List Nat
  dec : List Nat → List Nat

/-- Feed state (src/index.js constructor and spec section 3), together
with the storage contents the feed owns.  Modelled from the spec where
lib/storage is concerned: the data file is addressed by block index (the
byte offset of a block is a function of the tree), node records by tree
index, signature records by signature slot. -/
structure Feed where
  key : Option KeyV
  secretKey : Option Nat
  length : Nat
  byteLength : Nat
  live : Bool
  writable : Bool
  readable : Bool
  opened : Bool
  closed : Bool
  discoveryKey : Option DKey
  bitfield : Nat → Bool
  treeBits : Nat → Bool
  nodeStore : Nat → Option Node
  dataStore : Nat → Option (List Nat)
  sigStore : Nat → Option Sig
  diskTree : List Bool
  diskKey : Option KeyV
  merkle : MerkleGen
  waiting : List Nat
  selections : List (Nat × Int)

/-- Loop of source trimLength (src/index.js 870-877): starting at l,
decrease while the bit below is unset. -/
def trimAux (bf : List Bool) : Nat → Nat
  | 0 => 0
  | l + 1 => if bf.getD l false then l + 1 else trimAux bf l

/-- Source trimLength (src/index.js 870-877): drop trailing unset bits
of the stored tree bitfield. -/
def trimLength (bf : List Bool) : Nat := trimAux bf bf.length

/-- Step-back loop of Feed open (src/index.js 135-140): from an odd
position l, walk down in steps of two until the bit below is set; the
source reaches -1 when no set even bit exists, which the final length
guard turns into zero, modelled here by returning zero. -/
def stepBackF : Nat → List Bool → Nat → Nat
  | 0, _, _ => 0
  | fuel + 1, bf, l =>
      if bf.getD (l - 1) false then l
      else if l ≤ 1 then 0
      else stepBackF fuel bf (l - 2)

def stepBack (bf : List Bool) (l : Nat) : Nat := stepBackF l bf l

theorem stepBackF_congr : ∀ f1 f2 l, l ≤ f1 → l ≤ f2 →
    ∀ bf : List Bool, stepBackF f1 bf l = stepBackF f2 bf l := by
  intro f1
  induction f1 with
  | zero =>
      intro f2 l h1 h2 bf
      have hl : l = 0 := by omega
      subst hl
      cases f2 with
      | zero => rfl
      | succ f2 => simp [stepBackF]
  | succ f1 ih =>
      intro f2 l h1 h2 bf
      cases f2 with
      | zero =>
          have hl : l = 0 := by omega
          subst hl
          simp [stepBackF]
      | succ f2 =>
          rw [stepBackF, stepBackF]
          rw [ih f2 (l - 2) (by omega) (by omega) bf]

theorem stepBack_eq (bf : List Bool) (l : Nat) :
    stepBack bf l = (if bf.getD (l - 1) false then l
      else if l ≤ 1 then 0 else stepBack bf (l - 2)) := by
  match l with
  | 0 => simp [stepBack, stepBackF]
  | Nat.succ n =>
      simp only [stepBack]
      rw [stepBackF]
      rw [stepBackF_congr n (n + 1 - 2) (n + 1 - 2) (by omega) (by omega) bf]

/-- Length computation of Feed open (src/index.js 130-141): trim the
tree bitfield, correct an even trim (half-written leaf) by stepping back
to the last present leaf, and convert the final odd position to a block
count. -/
def openLen (bf : List Bool) : Nat :=
  if trimLength bf = 0 then 0
  else if trimLength bf % 2 = 0 then
    if stepBack bf (trimLength bf - 1) = 0 then 0
    else (stepBack bf (trimLength bf - 1) + 1) / 2
  else (trimLength bf + 1) / 2

/-- Node writes: store each record at its tree index
(src/index.js _write). -/
def putNodes (store : Nat → Option Node) : List Node → (Nat → Option Node)
  | [] => store
  | nd :: rest => putNodes (fun j => if j = nd.index then some nd else store j) rest

/-- Set one bit of a stored bitfield page list, extending with unset
bits as needed. -/
def setBitL (l : List Bool) (i : Nat) : List Bool :=
  (l ++ List.replicate (i + 1 - l.length) false).set i true

/-- Set several bits of a stored bitfield. -/
def setBitsL (l : List Bool) : List Nat → List Bool
  | [] => l
  | i :: rest => setBitsL (setBitL l i) rest

/-- Persist and commit one verified record: node records, the data
block, the optional signature, then the tree bits, data bit and bitfield
sync (src/index.js _write, _writeDone and _syncBitfield; tree bits are
marked for the written nodes and the leaf). -/
def writeAll (f : Feed) (index : Nat) (data : List Nat) (nodes : List Node)
    (sig : Option (Nat × Sig)) : Feed :=
  { f with
    nodeStore := putNodes f.nodeStore nodes,
    dataStore := fun j => if j = index then some data else f.dataStore j,
    sigStore := match sig with
      | some is => fun j => if j = is.1 then some is.2 else f.sigStore j
      | none => f.sigStore,
    treeBits := fun j =>
      if j = 2 * index ∨ nodes.any (fun nd => nd.index = j) then true
      else f.treeBits j,
    bitfield := fun j => if j = index then true else f.bitfield j,
    diskTree := setBitsL f.diskTree (2 * index :: nodes.map Node.index) }

/-- Source verifyNode (src/index.js 862-864). -/
def verifyNode (trusted : Option Node) (node : Node) : Bool :=
  match trusted with
  | none => false
  | some t => t.index == node.index && t.hash == node.hash

/-- Result of the hash climb of _verifyAndWrite: either the trusted
ancestor was reached, with the visited nodes to be written, or the climb
ran out of matching siblings and the top must be checked as a root. -/
inductive ClimbResult where
  | write : List Node → ClimbResult
  | roots : Node → List Node → List Node → ClimbResult
deriving DecidableEq, Repr

/-- Hash climb of _verifyAndWrite (src/index.js 521-544): combine the
top with its sibling, taken from the remote proof nodes when the index
matches, else from the loaded local nodes, until the trusted node is
reproduced or no sibling is available. -/
def climbLoopF : Nat → Option Node → Node → List Node → List Node → List Node →
    ClimbResult
  | 0, _, top, _, _, visited => ClimbResult.roots top visited []
  | fuel + 1, trusted, top, rn :: rrest, ln :: lrest, visited =>
      if rn.index = flat.sibling top.index then
        if verifyNode trusted
            ⟨flat.parent top.index, hashParent top rn, top.size + rn.size⟩ then
          ClimbResult.write (visited ++ [rn, top])
        else
          climbLoopF fuel trusted
            ⟨flat.parent top.index, hashParent top rn, top.size + rn.size⟩
            rrest (ln :: lrest) (visited ++ [rn, top])
      else
        if ln.index = flat.sibling top.index then
          if verifyNode trusted
              ⟨flat.parent top.index, hashParent top ln, top.size + ln.size⟩ then
            ClimbResult.write (visited ++ [top])
          else
            climbLoopF fuel trusted
              ⟨flat.parent top.index, hashParent top ln, top.size + ln.size⟩
              (rn :: rrest) lrest (visited ++ [top])
        else ClimbResult.roots top visited (rn :: rrest)
  | fuel + 1, trusted, top, rn :: rrest, [], visited =>
      if rn.index = flat.sibling top.index then
        if verifyNode trusted
            ⟨flat.parent top.index, hashParent top rn, top.size + rn.size⟩ then
          ClimbResult.write (visited ++ [rn, top])
        else
          climbLoopF fuel trusted
            ⟨flat.parent top.index, hashParent top rn, top.size + rn.size⟩
            rrest [] (visited ++ [rn, top])
      else ClimbResult.roots top visited (rn :: rrest)
  | fuel + 1, trusted, top, [], ln :: lrest, visited =>
      if ln.index = flat.sibling top.index then
        if verifyNode trusted
            ⟨flat.parent top.index, hashParent top ln, top.size + ln.size⟩ then
          ClimbResult.write (visited ++ [top])
        else
          climbLoopF fuel trusted
            ⟨flat.parent top.index, hashParent top ln, top.size + ln.size⟩
            [] lrest (visited ++ [top])
      else ClimbResult.roots top visited []
  | _ + 1, _, top, [], [], visited => ClimbResult.roots top visited []

def climbLoop (trusted : Option Node) (top : Node)
    (remote localNodes visited : List Node) : ClimbResult :=
  climbLoopF (remote.length + localNodes.length) trusted top remote localNodes
    visited

theorem climbLoopF_congr : ∀ f1 f2 (remote localNodes : List Node),
    remote.length + localNodes.length ≤ f1 →
    remote.length + localNodes.length ≤ f2 →
    ∀ (trusted : Option Node) (top : Node) (visited : List Node),
      climbLoopF f1 trusted top remote localNodes visited =
        climbLoopF f2 trusted top remote localNodes visited := by
  intro f1
  induction f1 with
  | zero =>
      intro f2 remote localNodes h1 h2 trusted top visited
      have hr : remote = [] := List.eq_nil_of_length_eq_zero (by omega)
      have hl : localNodes = [] := List.eq_nil_of_length_eq_zero (by omega)
      subst hr hl
      cases f2 with
      | zero => rfl
      | succ f2 => rfl
  | succ f1 ih =>
      intro f2 remote localNodes h1 h2 trusted top visited
      cases f2 with
      | zero =>
          have hr : remote = [] := List.eq_nil_of_length_eq_zero (by omega)
          have hl : localNodes = [] := List.eq_nil_of_length_eq_zero (by omega)
          subst hr hl
          rfl
      | succ f2 =>
          cases remote with
          | nil =>
              cases localNodes with
              | nil => rfl
              | cons ln lrest =>
                  simp only [List.length_nil, List.length_cons, Nat.zero_add]
                    at h1 h2
                  rw [climbLoopF, climbLoopF]
                  rw [ih f2 [] lrest (by simp only [List.length_nil,
                    List.length_cons, Nat.zero_add]; omega)
                    (by simp only [List.length_nil, List.length_cons,
                      Nat.zero_add]; omega)]
          | cons rn rrest =>
              cases localNodes with
              | nil =>
                  simp only [List.length_cons, List.length_nil, Nat.add_zero]
                    at h1 h2
                  rw [climbLoopF, climbLoopF]
                  rw [ih f2 rrest [] (by simp only [List.length_cons,
                    List.length_nil, Nat.add_zero]; omega)
                    (by simp only [List.length_cons, List.length_nil,
                      Nat.add_zero]; omega)]
              | cons ln lrest =>
                  simp only [List.length_cons] at h1 h2
                  rw [climbLoopF, climbLoopF]
                  have g1 : ∀ k, rrest.length + 1 + (lrest.length + 1) ≤ k + 1 →
                      rrest.length + (ln :: lrest).length ≤ k := by
                    intro k hk
                    simp only [List.length_cons]
                    omega
                  have g2 : ∀ k, rrest.length + 1 + (lrest.length + 1) ≤ k + 1 →
                      (rn :: rrest).length + lrest.length ≤ k := by
                    intro k hk
                    simp only [List.length_cons]
                    omega
                  rw [ih f2 rrest (ln :: lrest) (g1 f1 h1) (g1 f2 h2)]
                  rw [ih f2 (rn :: rrest) lrest (g2 f1 h1) (g2 f2 h2)]

theorem climbLoop_nil_nil (trusted : Option Node) (top : Node)
    (visited : List Node) :
    climbLoop trusted top [] [] visited = ClimbResult.roots top visited [] :=
  rfl

theorem climbLoop_nil_cons (trusted : Option Node) (top ln : Node)
    (lrest visited : List Node) :
    climbLoop trusted top [] (ln :: lrest) visited =
      (if ln.index = flat.sibling top.index then
        if verifyNode trusted
            ⟨flat.parent top.index, hashParent top ln, top.size + ln.size⟩ then
          ClimbResult.write (visited ++ [top])
        else
          climbLoop trusted
            ⟨flat.parent top.index, hashParent top ln, top.size + ln.size⟩
            [] lrest (visited ++ [top])
      else ClimbResult.roots top visited []) := by
  simp only [climbLoop, List.length_nil, List.length_cons, Nat.zero_add]
  conv_lhs => rw [climbLoopF]

theorem climbLoop_cons_nil (trusted : Option Node) (top rn : Node)
    (rrest visited : List Node) :
    climbLoop trusted top (rn :: rrest) [] visited =
      (if rn.index = flat.sibling top.index then
        if verifyNode trusted
            ⟨flat.parent top.index, hashParent top rn, top.size + rn.size⟩ then
          ClimbResult.write (visited ++ [rn, top])
        else
          climbLoop trusted
            ⟨flat.parent top.index, hashParent top rn, top.size + rn.size⟩
            rrest [] (visited ++ [rn, top])
      else ClimbResult.roots top visited (rn :: rrest)) := by
  simp only [climbLoop, List.length_cons, List.length_nil, Nat.add_zero]
  conv_lhs => rw [climbLoopF]

theorem climbLoop_cons_cons (trusted : Option Node) (top rn ln : Node)
    (rrest lrest visited : List Node) :
    climbLoop trusted top (rn :: rrest) (ln :: lrest) visited =
      (if rn.index = flat.sibling top.index then
        if verifyNode trusted
            ⟨flat.parent top.index, hashParent top rn, top.size + rn.size⟩ then
          ClimbResult.write (visited ++ [rn, top])
        else
          climbLoop trusted
            ⟨flat.parent top.index, hashParent top rn, top.size + rn.size⟩
            rrest (ln :: lrest) (visited ++ [rn, top])
      else
        if ln.index = flat.sibling top.index then
          if verifyNode trusted
              ⟨flat.parent top.index, hashParent top ln, top.size + ln.size⟩ then
            ClimbResult.write (visited ++ [top])
          else
            climbLoop trusted
              ⟨flat.parent top.index, hashParent top ln, top.size + ln.size⟩
              (rn :: rrest) lrest (visited ++ [top])
        else ClimbResult.roots top visited (rn :: rrest)) := by
  simp only [climbLoop, List.length_cons]
  rw [show rrest.length + 1 + (lrest.length + 1) =
    rrest.length + 1 + lrest.length + 1 from rfl]
  conv_lhs => rw [climbLoopF]
  rw [climbLoopF_congr (rrest.length + 1 + lrest.length)
    (rrest.length + (lrest.length + 1)) rrest (ln :: lrest)
    (by simp only [List.length_cons]; omega)
    (by simp only [List.length_cons]; omega)]

/-- Root collection of _verifyRootsAndWrite (src/index.js 557-569): for
every expected root index take the pending top, the next remote node, or
a locally stored node; returns the roots in index order and the nodes
that must additionally be written (top and consumed remote roots). -/
def collectRoots (top : Node) (tget : Nat → Bool) (store : Nat → Option Node) :
    List Nat → List Node → Except Err (List Node × List Node)
  | [], _ => Except.ok ([], [])
  | i :: rest, remote =>
      if i = top.index then
        match collectRoots top tget store rest remote with
        | Except.ok rs => Except.ok (top :: rs.1, top :: rs.2)
        | Except.error e => Except.error e
      else
        match remote with
        | rn :: rrest =>
            if rn.index = i then
              match collectRoots top tget store rest rrest with
              | Except.ok rs => Except.ok (rn :: rs.1, rn :: rs.2)
              | Except.error e => Except.error e
            else if tget i then
              match store i with
              | some nd =>
                  match collectRoots top tget store rest (rn :: rrest) with
                  | Except.ok rs => Except.ok (nd :: rs.1, rs.2)
                  | Except.error e => Except.error e
              | none => Except.error Err.storageMiss
            else Except.error Err.remoteNoRoots
        | [] =>
            if tget i then
              match store i with
              | some nd =>
                  match collectRoots top tget store rest [] with
                  | Except.ok rs => Except.ok (nd :: rs.1, rs.2)
                  | Except.error e => Except.error e
              | none => Except.error Err.storageMiss
            else Except.error Err.remoteNoRoots

/-- Proof message: sibling and root nodes plus the optional signature
(spec glossary; Feed.prototype.proof result shape). -/
structure ProofMsg where
  nodes : List Node
  signature : Option Sig
deriving DecidableEq, Repr

/-- Root verification of _verifyRootsAndWrite (src/index.js 547-611):
compute the verified span, collect the full roots at it, check the
missing-signature guard, then the signature or the root-hash equality,
update live, length and byteLength, and persist. -/
def verifyRoots (f : Feed) (index : Nat) (data : List Nat) (top : Node)
    (proofSig : Option Sig) (remaining visited : List Node) : Except Err Feed :=
  let lastNode := (remaining.getLastD top).index
  let verifiedBy := max (flat.rightSpan top.index) (flat.rightSpan lastNode) + 2
  match collectRoots top f.treeBits f.nodeStore (flat.fullRoots verifiedBy) remaining with
  | Except.error e => Except.error e
  | Except.ok rs =>
      let checksum := hashTree rs.1
      if f.length ≠ 0 ∧ f.live ∧ proofSig = none then
        Except.error Err.remoteNoSignature
      else
        match proofSig with
        | some sig =>
            if (match f.key with
                | some k => verifySig sig checksum k
                | none => false) then
              let len2 := if f.length < verifiedBy / 2 then verifiedBy / 2 else f.length
              let bl2 :=
                if f.length < verifiedBy / 2 then (rs.1.map Node.size).sum
                else f.byteLength
              let f2 := { f with live := true, length := len2, byteLength := bl2 }
              Except.ok (writeAll f2 index data (visited ++ rs.2)
                (some (verifiedBy / 2 - 1, sig)))
            else Except.error Err.remoteBadSignature
        | none =>
            if f.key = some (KeyV.treeKey checksum) then
              let len2 := if f.length < verifiedBy / 2 then verifiedBy / 2 else f.length
              let bl2 :=
                if f.length < verifiedBy / 2 then (rs.1.map Node.size).sum
                else f.byteLength
              let f2 := { f with live := false, length := len2, byteLength := bl2 }
              Except.ok (writeAll f2 index data (visited ++ rs.2) none)
            else Except.error Err.remoteChecksum

/-- Source _verifyAndWrite (src/index.js 509-545), for a put that
carries block data. -/
def verifyAndWrite (f : Feed) (index : Nat) (data : List Nat) (proof : ProofMsg)
    (missingNodes : List Node) (trustedNode : Option Node) : Except Err Feed :=
  let top : Node := ⟨2 * index, hashData data, data.length⟩
  if verifyNode trustedNode top then Except.ok (writeAll f index data [] none)
  else
    match climbLoop trustedNode top proof.nodes missingNodes [] with
    | ClimbResult.write visited => Except.ok (writeAll f index data visited none)
    | ClimbResult.roots top2 visited remaining =>
        verifyRoots f index data top2 proof.signature remaining visited

/-- Trust-frontier loop of _putBuffer (src/index.js 424-440): walk from
the leaf upward; stop at a locally present ancestor, consume a matching
proof node, or record a locally present sibling to load; returns the
trusted index when found, the missing sibling indices, and the final
next index for the post-loop check.  The fuel bounds the walk; the
source loop always terminates because siblings beyond the stored
bitfield are never present. -/
def frontierLoop (tget : Nat → Bool) :
    Nat → List Node → List Nat → Nat → Option (Option Nat × List Nat × Nat)
  | _, _, _, 0 => none
  | next, pf, acc, fuel + 1 =>
      if tget next then some (some next, acc, next)
      else
        let sib := flat.sibling next
        let nxt := flat.parent next
        match pf with
        | pn :: prest =>
            if pn.index = sib then frontierLoop tget nxt prest acc fuel
            else if tget sib then frontierLoop tget nxt pf (acc ++ [sib]) fuel
            else some (none, acc, nxt)
        | [] =>
            if tget sib then frontierLoop tget nxt [] (acc ++ [sib]) fuel
            else some (none, acc, nxt)

/-- Load a list of node records from storage, failing on a miss. -/
def loadNodes (store : Nat → Option Node) : List Nat → Except Err (List Node)
  | [] => Except.ok []
  | i :: rest =>
      match store i with
      | some nd =>
          match loadNodes store rest with
          | Except.ok l => Except.ok (nd :: l)
          | Except.error e => Except.error e
      | none => Except.error Err.storageMiss

/-- Source _putBuffer (src/index.js 411-469): compute the trust
frontier, load the trusted and missing nodes, then verify and write.
The fuel bounds the frontier walk. -/
def putBuffer (f : Feed) (index : Nat) (data : List Nat) (proof : ProofMsg)
    (fuel : Nat) : Except Err Feed :=
  match frontierLoop f.treeBits (2 * index) proof.nodes [] fuel with
  | none => Except.error Err.outOfFuel
  | some res =>
      let trusted : Option Nat := match res.1 with
        | some t => some t
        | none => if f.treeBits res.2.2 then some res.2.2 else none
      match trusted with
      | some t =>
          match f.nodeStore t with
          | some tn =>
              match loadNodes f.nodeStore res.2.1 with
              | Except.ok ms => verifyAndWrite f index data proof ms (some tn)
              | Except.error e => Except.error e
          | none => Except.error Err.storageMiss
      | none =>
          match loadNodes f.nodeStore res.2.1 with
          | Except.ok ms => verifyAndWrite f index data proof ms none
          | Except.error e => Except.error e

/-- Source Feed.prototype.put (src/index.js 301-304): encode through the
codec, then verify and absorb. -/
def put (f : Feed) (c : Codec) (index : Nat) (data : List Nat) (proof : ProofMsg)
    (fuel : Nat) : Except Err Feed :=
  putBuffer f index (c.enc data) proof fuel

/-- Storage-write phase of _append (src/index.js 741-760): for the k-th
batch value, encode it, advance the Merkle generator, write the data
block at position length + k, the created tree nodes, and, on a live
feed, the signature over the current roots at slot length + k.  The
in-memory length, byteLength and bitfields are untouched until the
commit phase. -/
def appendWrites (f : Feed) (c : Codec) : List (List Nat) → Nat → Feed
  | [], _ => f
  | v :: rest, k =>
      let data := c.enc v
      let gn := genNext f.merkle data
      let f2 := { f with
        merkle := gn.1,
        dataStore := fun j => if j = f.length + k then some data else f.dataStore j,
        nodeStore := putNodes f.nodeStore gn.2,
        sigStore :=
          if f.live then
            fun j =>
              if j = f.length + k then
                some (sign (f.secretKey.getD 0) (hashTree gn.1.rootsRev.reverse))
              else f.sigStore j
          else f.sigStore }
      appendWrites f2 c rest (k + 1)

/-- Commit phase of _append (src/index.js 762-781): add the byte count,
set the data bit and the leaf tree bit for every appended block, sync
the bitfield, and advance length. -/
def appendCommit (f : Feed) (c : Codec) (batch : List (List Nat)) : Feed :=
  let n := batch.length
  let total := (batch.map (fun v => (c.enc v).length)).sum
  { f with
    byteLength := f.byteLength + total,
    bitfield := fun j => if f.length ≤ j ∧ j < f.length + n then true else f.bitfield j,
    treeBits := fun j =>
      if j % 2 = 0 ∧ 2 * f.length ≤ j ∧ j < 2 * (f.length + n) then true
      else f.treeBits j,
    diskTree := setBitsL f.diskTree ((List.range n).map (fun k => 2 * (f.length + k))),
    length := f.length + n }

/-- Source _append (src/index.js 730-782): refuse when not writable,
else write the batch and commit. -/
def appendBatch (f : Feed) (c : Codec) (batch : List (List Nat)) : Except Err Feed :=
  if f.writable then Except.ok (appendCommit (appendWrites f c batch 0) c batch)
  else Except.error Err.notWritable

/-- Source Feed.prototype.get (src/index.js 624-640) on an opened feed:
a missing block enqueues a waiter; a present block is read from the data
stream and decoded through the codec. -/
def get (f : Feed) (c : Codec) (index : Nat) : Option (List Nat) × Feed :=
  if f.bitfield index then ((f.dataStore index).map c.dec, f)
  else (none, { f with waiting := f.waiting ++ [index] })

/-- State effect of Feed.prototype.seek (src/index.js 306-348): the byte
search itself is read-only; when it cannot resolve to a downloaded
block, a byte waiter is enqueued. -/
def seekStateEffect (f : Feed) (hit : Bool) (bytes : Nat) : Feed :=
  if hit then f else { f with waiting := f.waiting ++ [bytes] }

/-- Source Feed.prototype.download (src/index.js 202-221): register a
selection. -/
def download (f : Feed) (sel : Nat × Int) : Feed :=
  { f with selections := f.selections ++ [sel] }

/-- Source Feed.prototype.undownload (src/index.js 223-246): remove a
matching selection. -/
def undownload (f : Feed) (sel : Nat × Int) : Feed :=
  { f with selections := f.selections.erase sel }

/-- Source Feed.prototype.finalize (src/index.js 704-710): only when the
feed has no key, set it to the hash of the current Merkle roots and
recompute the discovery key; in all cases write the key to storage. -/
def finalize (f : Feed) : Feed :=
  let f2 :=
    if f.key.isNone then
      { f with
        key := some (KeyV.treeKey (hashTree f.merkle.rootsRev.reverse)),
        discoveryKey := some ⟨KeyV.treeKey (hashTree f.merkle.rootsRev.reverse)⟩ }
    else f
  { f2 with diskKey := f2.key }

/-- Source Feed.prototype.close (src/index.js 720-728): clear writable
and readable and close the storage; nothing else changes. -/
def close (f : Feed) : Feed :=
  { f with writable := false, readable := false, closed := true }

/-- Stored state handed to open by the storage binding (spec 4.E open
snapshot; lib/storage is not under src). -/
structure Stored where
  key : Option KeyV
  secretKey : Option Nat
  treeBF : List Bool
  dataBF : List Bool
  bfNonempty : Bool
  sigs : Nat → Option Sig
  nodes : Nat → Option Node
  blocks : Nat → Option (List Nat)

/-- Construction options recognized by the feed constructor that matter
to open (src/index.js 25-93 and 109-199). -/
structure OpenOpts where
  suppliedKey : Option KeyV
  createIfMissing : Bool
  live : Bool
  overwrite : Bool
  freshSk : Nat

/-- Source Feed._open (src/index.js 109-199): force an overwrite when
data exists without a key, clear state on overwrite, compute the length
from the tree bitfield, check key agreement, read the head signature to
decide liveness, fail when no key exists and none may be created,
generate a key pair for a live keyless feed, derive writability and the
discovery key, persist key material, and seed the Merkle generator from
the stored roots. -/
def openFeed (opts : OpenOpts) (st : Stored) : Except Err Feed :=
  let ow := opts.overwrite || (st.key.isNone && st.bfNonempty)
  let st1 :=
    if ow then
      { st with
        treeBF := st.treeBF.map (fun _ => false),
        dataBF := st.dataBF.map (fun _ => false),
        key := none, secretKey := none }
    else st
  let len := openLen st1.treeBF
  if st1.key.isSome ∧ opts.suppliedKey.isSome ∧ st1.key ≠ opts.suppliedKey then
    Except.error Err.anotherCore
  else
    let key0 := match st1.key with
      | some k => some k
      | none => opts.suppliedKey
    let sig := if len = 0 then none else st1.sigs (len - 1)
    let live1 := if len ≠ 0 then sig.isSome else opts.live
    if key0.isNone ∧ ¬opts.createIfMissing then Except.error Err.noCoreStored
    else
      let kp :=
        if key0.isNone ∧ live1 then
          (some (KeyV.pub opts.freshSk), some opts.freshSk)
        else (key0, st1.secretKey)
      match loadNodes st1.nodes (flat.fullRoots (2 * len)) with
      | Except.error e => Except.error e
      | Except.ok roots =>
          Except.ok
            { key := kp.1, secretKey := kp.2, length := len,
              byteLength := (roots.map Node.size).sum, live := live1,
              writable := kp.2.isSome || kp.1.isNone,
              readable := true, opened := true, closed := false,
              discoveryKey := kp.1.map DKey.mk,
              bitfield := fun j => st1.dataBF.getD j false,
              treeBits := fun j => st1.treeBF.getD j false,
              nodeStore := st1.nodes, dataStore := st1.blocks,
              sigStore := st1.sigs, diskTree := st1.treeBF, diskKey := kp.1,
              merkle := ⟨len, roots.reverse⟩,
              waiting := [], selections := [] }

/-- Plan of tree.proof (spec 4.D; lib/tree-index is not under src):
the node indices whose hashes let the remote verify a block, and the
root boundary when the proof extends to it. -/
structure ProofPlan where
  nodes : List Nat
  verifiedBy : Nat
deriving DecidableEq, Repr

/-- First subtree descriptor covering leaf position i. -/
def findCover : List (Nat × Nat) → Nat → Option (Nat × Nat)
  | [], _ => none
  | p :: rest, i => if i < p.1 + 2 ^ p.2 then some p else findCover rest i

/-- Sibling chain from leaf position i up to its covering subtree of
height e, in climb order. -/
def pathSibs (i e : Nat) : List Nat :=
  (List.range e).map (fun k => flat.sibling (flat.idx k (i / 2 ^ k)))

/-- Modelled from the spec (4.D): the proof plan served to a remote with
no prior tree knowledge: the sibling chain up to the full root covering
the block, then every other current full root; the proof extends to the
root boundary, so verifiedBy is the current boundary 2 * length. -/
def treeProofPlan (n i : Nat) : Option ProofPlan :=
  match findCover (flat.canon n 0) i with
  | none => none
  | some se =>
      some ⟨pathSibs i se.2 ++
        (flat.fullRoots (2 * n)).filter (fun r => r ≠ 2 * se.1 + 2 ^ se.2 - 1),
        2 * n⟩

/-- Source Feed.prototype.proof (src/index.js 252-291): plan the proof,
load the planned node records from storage, and, on a live feed whose
proof reaches the root boundary, attach the stored signature at slot
verifiedBy / 2 - 1. -/
def proofGen (f : Feed) (index : Nat) : Except Err ProofMsg :=
  match treeProofPlan f.length index with
  | none => Except.error Err.noProofAvailable
  | some plan =>
      match loadNodes f.nodeStore plan.nodes with
      | Except.error e => Except.error e
      | Except.ok nds =>
          if f.live ∧ plan.verifiedBy ≠ 0 then
            match f.sigStore (plan.verifiedBy / 2 - 1) with
            | some s => Except.ok ⟨nds, some s⟩
            | none => Except.error Err.storageMiss
          else Except.ok ⟨nds, none⟩

/-- Scan for the greatest even set bit strictly below a position. -/
def maxEvenSetAux (bf : List Bool) : Nat → Option Nat
  | 0 => none
  | l + 1 =>
      if l % 2 = 0 ∧ bf.getD l false then some l else maxEvenSetAux bf l

/-- Greatest even set bit of a stored tree bitfield: the last present
leaf boundary. -/
def maxEvenSet (bf : List Bool) : Option Nat := maxEvenSetAux bf bf.length

theorem trimAux_le (bf : List Bool) : ∀ l, trimAux bf l ≤ l := by
  intro l
  induction l with
  | zero => exact le_refl _
  | succ l ih =>
      rw [trimAux]
      by_cases h : bf.getD l false
      · rw [if_pos h]
      · rw [if_neg h]; omega

theorem trimAux_set (bf : List Bool) : ∀ l L, trimAux bf l = L + 1 →
    bf.getD L false = true := by
  intro l
  induction l with
  | zero => intro L h; rw [trimAux] at h; omega
  | succ l ih =>
      intro L h
      rw [trimAux] at h
      by_cases hb : bf.getD l false
      · rw [if_pos hb] at h
        have : L = l := by omega
        rw [this]; exact hb
      · rw [if_neg hb] at h
        exact ih L h

theorem trimAux_above (bf : List Bool) : ∀ l j, trimAux bf l ≤ j → j < l →
    bf.getD j false = false := by
  intro l
  induction l with
  | zero => intro j h1 h2; omega
  | succ l ih =>
      intro j h1 h2
      rw [trimAux] at h1
      by_cases hb : bf.getD l false
      · rw [if_pos hb] at h1; omega
      · rw [if_neg hb] at h1
        by_cases hj : j = l
        · rw [hj]; simpa using hb
        · exact ih j h1 (by omega)

theorem maxEvenSetAux_skip (bf : List Bool) : ∀ u L, L ≤ u →
    (∀ j, L ≤ j → j < u → bf.getD j false = false) →
    maxEvenSetAux bf u = maxEvenSetAux bf L := by
  intro u
  induction u with
  | zero =>
      intro L h1 h2
      have h0 : L = 0 := by omega
      subst h0
      rfl
  | succ u ih =>
      intro L h1 h2
      by_cases hL : L = u + 1
      · rw [hL]
      · have hb : bf.getD u false = false := h2 u (by omega) (by omega)
        have hcond : ¬(u % 2 = 0 ∧ bf.getD u false = true) := by
          intro hcon
          rw [hb] at hcon
          exact absurd hcon.2 (by simp)
        rw [maxEvenSetAux, if_neg hcond]
        exact ih L (by omega) (fun j hj1 hj2 => h2 j hj1 (by omega))

theorem maxEvenSetAux_succ (bf : List Bool) (l : Nat) :
    maxEvenSetAux bf (l + 1) =
      if l % 2 = 0 ∧ bf.getD l false then some l else maxEvenSetAux bf l := by
  rw [maxEvenSetAux]

theorem stepBack_maxEven (bf : List Bool) : ∀ l, l % 2 = 1 →
    stepBack bf l = (match maxEvenSetAux bf l with
      | some j => j + 1
      | none => 0) := by
  intro l
  induction l using Nat.strong_induction_on with
  | _ l ih =>
      intro hodd
      obtain ⟨l1, rfl⟩ : ∃ l1, l = l1 + 1 := ⟨l - 1, by omega⟩
      rw [stepBack_eq]
      simp only [Nat.add_sub_cancel]
      by_cases hb : bf.getD l1 false
      · have hcond : l1 % 2 = 0 ∧ bf.getD l1 false = true := ⟨by omega, hb⟩
        rw [if_pos hb, maxEvenSetAux_succ, if_pos hcond]
      · have hcond : ¬(l1 % 2 = 0 ∧ bf.getD l1 false = true) := by
          intro hcon
          exact absurd hcon.2 (by simpa using hb)
        rw [if_neg hb, maxEvenSetAux_succ, if_neg hcond]
        by_cases hone : l1 + 1 ≤ 1
        · rw [if_pos hone]
          have hl0 : l1 = 0 := by omega
          subst hl0
          rfl
        · rw [if_neg hone]
          obtain ⟨l2, rfl⟩ : ∃ l2, l1 = l2 + 1 := ⟨l1 - 1, by omega⟩
          have harith : l2 + 1 + 1 - 2 = l2 := by omega
          have hcond : ¬(l2 % 2 = 0 ∧ bf.getD l2 false = true) := by
            intro hcon
            exact absurd hcon.1 (by omega)
          rw [harith, ih l2 (by omega) (by omega), maxEvenSetAux_succ,
            if_neg hcond]

theorem openLen_maxEven (bf : List Bool) :
    openLen bf = (match maxEvenSet bf with
      | some j => (j + 2) / 2
      | none => 0) := by
  unfold openLen maxEvenSet
  cases hT : trimLength bf with
  | zero =>
      rw [if_pos rfl]
      have hup : ∀ j, 0 ≤ j → j < bf.length → bf.getD j false = false := by
        intro j _ hj
        exact trimAux_above bf bf.length j (by unfold trimLength at hT; omega) hj
      rw [maxEvenSetAux_skip bf bf.length 0 (Nat.zero_le _) hup]
      rfl
  | succ L =>
      unfold trimLength at hT
      have hset : bf.getD L false = true := trimAux_set bf bf.length L hT
      have hLlt : L + 1 ≤ bf.length := by
        have := trimAux_le bf bf.length
        omega
      have hup : ∀ j, L + 1 ≤ j → j < bf.length → bf.getD j false = false := by
        intro j hj1 hj2
        exact trimAux_above bf bf.length j (by omega) hj2
      have hskip : maxEvenSetAux bf bf.length = maxEvenSetAux bf (L + 1) :=
        maxEvenSetAux_skip bf bf.length (L + 1) hLlt hup
      rw [if_neg (by omega), hskip]
      by_cases hpar : L % 2 = 0
      · have hcond : L % 2 = 0 ∧ bf.getD L false = true := ⟨hpar, hset⟩
        rw [maxEvenSetAux_succ, if_pos hcond, if_neg (by omega)]
      · have hcond : ¬(L % 2 = 0 ∧ bf.getD L false = true) := by
          intro hcon; exact absurd hcon.1 hpar
        rw [maxEvenSetAux_succ, if_neg hcond, if_pos (by omega)]
        have harith : L + 1 - 1 = L := by omega
        rw [harith, stepBack_maxEven bf L (by omega)]
        cases hM : maxEvenSetAux bf L with
        | none => dsimp only; rw [if_pos rfl]
        | some j =>
            dsimp only
            have hne : ¬(j + 1 = 0) := by omega
            rw [if_neg hne]

/-- Interrupted appends do not touch the stored tree bitfield: the write
phase of _append writes only data blocks, node records and signatures
(src/index.js 741-760); the bitfield is persisted only by the commit
phase and the subsequent sync. -/
theorem appendWrites_diskTree (f : Feed) (c : Codec) :
    ∀ (batch : List (List Nat)) (k : Nat),
    (appendWrites f c batch k).diskTree = f.diskTree := by
  intro batch
  induction batch generalizing f with
  | nil => intro k; rfl
  | cons v rest ih =>
      intro k
      show (appendWrites _ c rest (k + 1)).diskTree = f.diskTree
      rw [ih]

theorem openFeed_length_keyed (skey : Option KeyV) (cim lv : Bool) (fsk : Nat)
    (k : KeyV) (sk : Option Nat) (tB dB : List Bool) (bfne : Bool)
    (sigs : Nat → Option Sig) (nodes : Nat → Option Node)
    (blocks : Nat → Option (List Nat)) :
    match openFeed ⟨skey, cim, lv, false, fsk⟩
        ⟨some k, sk, tB, dB, bfne, sigs, nodes, blocks⟩ with
    | Except.ok g => g.length = openLen tB
    | Except.error _ => True := by
  unfold openFeed
  dsimp only
  split
  all_goals try trivial
  next g heq =>
    simp only [Option.isNone_some, Bool.false_and, Bool.or_false,
      Bool.false_or, Bool.false_eq_true, if_false] at heq
    split at heq
    · exact Except.noConfusion heq
    · split at heq
      · exact Except.noConfusion heq
      · split at heq
        · exact Except.noConfusion heq
        · injection heq with h
          rw [← h]

/-- C3: on open, the computed length trims trailing unset tree bits and
corrects a half-written leaf (even trim) by stepping back to a present
leaf boundary: for every stored tree bitfield the result equals
(last present leaf index + 2) / 2, or zero when no leaf bit is present;
the write phase of an append never touches the stored tree bitfield, and
open on a keyed store computes its length from that stored bitfield, so
reopening after an interrupted append yields the earlier length. -/
theorem C3_open_length_recovery :
    (∀ bf : List Bool,
      openLen bf = (match maxEvenSet bf with
        | some j => (j + 2) / 2
        | none => 0)) ∧
    (∀ (f : Feed) (c : Codec) (batch : List (List Nat)) (k : Nat),
      (appendWrites f c batch k).diskTree = f.diskTree) ∧
    (∀ (skey : Option KeyV) (cim lv : Bool) (fsk : Nat) (k : KeyV)
      (sk : Option Nat) (tB dB : List Bool) (bfne : Bool)
      (sigs : Nat → Option Sig) (nodes : Nat → Option Node)
      (blocks : Nat → Option (List Nat)),
      match openFeed ⟨skey, cim, lv, false, fsk⟩
          ⟨some k, sk, tB, dB, bfne, sigs, nodes, blocks⟩ with
      | Except.ok g => g.length = openLen tB
      | Except.error _ => True) :=
  ⟨openLen_maxEven,
   fun f c batch k => appendWrites_diskTree f c batch k,
   openFeed_length_keyed⟩

/-- Blank opened feed state, used as a base for concrete scenarios. -/
def emptyFeed : Feed :=
  { key := none, secretKey := none, length := 0, byteLength := 0,
    live := true, writable := false, readable := true, opened := true,
    closed := false, discoveryKey := none,
    bitfield := fun _ => false, treeBits := fun _ => false,
    nodeStore := fun _ => none, dataStore := fun _ => none,
    sigStore := fun _ => none, diskTree := [], diskKey := none,
    merkle := ⟨0, []⟩, waiting := [], selections := [] }

/-- C8 counterexample: finalize does not set the key on a feed that
already has one: with an existing public key, the key after finalize is
the old public key, not the root hash of the current Merkle roots. -/
theorem C8_counterexample :
    (finalize { emptyFeed with key := some (KeyV.pub 0) }).key
        = some (KeyV.pub 0) ∧
      (finalize { emptyFeed with key := some (KeyV.pub 0) }).key
        ≠ some (KeyV.treeKey (hashTree
            (finalize { emptyFeed with key := some (KeyV.pub 0) }).merkle.rootsRev.reverse)) ∧
      (finalize { emptyFeed with key := some (KeyV.pub 0) }).discoveryKey
        = none := by
  refine ⟨rfl, ?_, rfl⟩
  intro h
  exact Option.noConfusion h (fun h2 => KeyV.noConfusion h2)

/-- C8 (amended): finalize sets key to the root hash of the current
Merkle roots, and recomputes the discovery key, only when the feed has
no key yet (a feed created with live false); a feed that already has a
key keeps it and its discovery key unchanged; in every case the
resulting key is written to the key storage. -/
theorem C8_finalize (f : Feed) :
    ((finalize f).diskKey = (finalize f).key) ∧
    (f.key = none →
      (finalize f).key = some (KeyV.treeKey (hashTree f.merkle.rootsRev.reverse)) ∧
      (finalize f).discoveryKey =
        some ⟨KeyV.treeKey (hashTree f.merkle.rootsRev.reverse)⟩) ∧
    (f.key ≠ none →
      (finalize f).key = f.key ∧ (finalize f).discoveryKey = f.discoveryKey) := by
  refine ⟨rfl, ?_, ?_⟩
  · intro h
    unfold finalize
    rw [if_pos (by rw [h]; rfl)]
    exact ⟨rfl, rfl⟩
  · intro h
    unfold finalize
    rw [if_neg (by intro hc; exact h (Option.isNone_iff_eq_none.mp hc))]
    exact ⟨rfl, rfl⟩

/-- C8 witness: on a keyless feed, finalize does set the key to the hash
of the current roots. -/
theorem C8_finalize_witness :
    (finalize emptyFeed).key =
      some (KeyV.treeKey (hashTree emptyFeed.merkle.rootsRev.reverse)) :=
  ((C8_finalize emptyFeed).2.1 rfl).1

/-- C9 counterexample: close neither rejects nor removes queued waiters:
a feed closed with a pending waiter still holds that waiter, and no
cancellation is delivered anywhere in close (src/index.js 720-728 only
clears the readable and writable flags and closes storage). -/
theorem C9_counterexample :
    (close { emptyFeed with waiting := [5] }).waiting = [5] ∧
    (close { emptyFeed with waiting := [5] }).waiting ≠ [] := by
  exact ⟨rfl, by intro h; exact List.noConfusion h⟩

/-- C9 (amended): after close the feed is neither readable nor writable
and a subsequent append fails with the not-writable error; queued
waiters are not rejected with a Cancelled error: they are left queued
unchanged. -/
theorem C9_close (f : Feed) (c : Codec) (batch : List (List Nat)) :
    (close f).writable = false ∧ (close f).readable = false ∧
    appendBatch (close f) c batch = Except.error Err.notWritable ∧
    (close f).waiting = f.waiting := by
  refine ⟨rfl, rfl, ?_, rfl⟩
  unfold appendBatch
  rw [if_neg (by intro h; exact Bool.noConfusion h)]

/-- C10 counterexample: opening a store that holds no key, with
createIfMissing true but live false, generates no key pair at all: the
opened feed has no key (the source only generates a key pair when the
feed is live, src/index.js 160-164). -/
theorem C10_counterexample :
    (openFeed ⟨none, true, false, false, 7⟩
        ⟨none, none, [], [], false, fun _ => none, fun _ => none,
          fun _ => none⟩).toOption.map Feed.key = some none := by
  rfl

/-- C10 (amended): opening a store with no key: when createIfMissing is
true and the feed is live (and the stored tree is empty), a key pair is
generated from fresh key material and the feed is writable; when
createIfMissing is true but the feed is not live, no key pair is
generated, yet the feed is still writable; when createIfMissing is
false, open fails with the no-core-stored (NotFound) error; when a
stored key and a supplied key both exist and differ, open fails with
the another-core (AlreadyExists) error. -/
theorem C10_open_key_creation :
    (∀ (fsk : Nat) (sk0 : Option Nat) (tb db : List Bool)
      (sigs : Nat → Option Sig) (nodes : Nat → Option Node)
      (blocks : Nat → Option (List Nat)),
      openLen tb = 0 →
      match openFeed ⟨none, true, true, false, fsk⟩
          ⟨none, sk0, tb, db, false, sigs, nodes, blocks⟩ with
      | Except.ok g => g.key = some (KeyV.pub fsk) ∧ g.secretKey = some fsk ∧
          g.writable = true
      | Except.error _ => False) ∧
    (∀ (fsk : Nat) (sk0 : Option Nat) (tb db : List Bool)
      (sigs : Nat → Option Sig) (nodes : Nat → Option Node)
      (blocks : Nat → Option (List Nat)),
      openLen tb = 0 →
      match openFeed ⟨none, true, false, false, fsk⟩
          ⟨none, sk0, tb, db, false, sigs, nodes, blocks⟩ with
      | Except.ok g => g.key = none ∧ g.secretKey = sk0 ∧ g.writable = true
      | Except.error _ => False) ∧
    (∀ (fsk : Nat) (lv bfne : Bool) (sk0 : Option Nat) (tb db : List Bool)
      (sigs : Nat → Option Sig) (nodes : Nat → Option Node)
      (blocks : Nat → Option (List Nat)),
      openFeed ⟨none, false, lv, false, fsk⟩
          ⟨none, sk0, tb, db, bfne, sigs, nodes, blocks⟩ =
        Except.error Err.noCoreStored) ∧
    (∀ (k1 k2 : KeyV) (cim lv bfne : Bool) (fsk : Nat) (sk0 : Option Nat)
      (tb db : List Bool) (sigs : Nat → Option Sig)
      (nodes : Nat → Option Node) (blocks : Nat → Option (List Nat)),
      k1 ≠ k2 →
      openFeed ⟨some k2, cim, lv, false, fsk⟩
          ⟨some k1, sk0, tb, db, bfne, sigs, nodes, blocks⟩ =
        Except.error Err.anotherCore) := by
  refine ⟨?_, ?_, ?_, ?_⟩
  · intro fsk sk0 tb db sigs nodes blocks h3
    unfold openFeed
    dsimp only
    simp only [h3, Option.isNone_none, Option.isSome_none, Bool.and_false,
      Bool.or_false, Bool.false_eq_true, if_false, ne_eq, eq_self_iff_true,
      not_true, if_true, true_and, and_true, false_and, and_false, and_self]
    exact ⟨rfl, rfl, rfl⟩
  · intro fsk sk0 tb db sigs nodes blocks h3
    unfold openFeed
    dsimp only
    simp only [h3, Option.isNone_none, Option.isSome_none, Bool.and_false,
      Bool.or_false, Bool.false_eq_true, if_false, ne_eq, eq_self_iff_true,
      not_true, if_true, true_and, and_true, false_and, and_false, and_self]
    cases sk0 <;> exact ⟨rfl, rfl, rfl⟩
  · intro fsk lv bfne sk0 tb db sigs nodes blocks
    cases bfne
    · rfl
    · rfl
  · intro k1 k2 cim lv bfne fsk sk0 tb db sigs nodes blocks h2
    unfold openFeed
    dsimp only
    simp only [Option.isNone_some, Bool.false_and, Bool.false_or,
      Bool.false_eq_true, if_false, Option.isSome_some]
    rw [if_pos ⟨by trivial, by trivial, fun hc => h2 (Option.some.inj hc)⟩]

/-- C10 witness: on a fresh empty store, open with createIfMissing and
live generates the key pair and a writable feed; open without
createIfMissing fails NotFound; open of a store keyed pub 0 with a
supplied key pub 1 fails AlreadyExists. -/
theorem C10_open_key_creation_witness :
    (match openFeed ⟨none, true, true, false, 7⟩
        ⟨none, none, [], [], false, fun _ => none, fun _ => none,
          fun _ => none⟩ with
      | Except.ok g => g.key = some (KeyV.pub 7) ∧ g.secretKey = some 7 ∧
          g.writable = true
      | Except.error _ => False) ∧
    openFeed ⟨none, false, true, false, 7⟩
        ⟨none, none, [], [], false, fun _ => none, fun _ => none,
          fun _ => none⟩ = Except.error Err.noCoreStored ∧
    openFeed ⟨some (KeyV.pub 1), true, true, false, 7⟩
        ⟨some (KeyV.pub 0), none, [], [], false, fun _ => none,
          fun _ => none, fun _ => none⟩ = Except.error Err.anotherCore :=
  ⟨C10_open_key_creation.1 7 none [] [] (fun _ => none) (fun _ => none)
      (fun _ => none) rfl,
   C10_open_key_creation.2.2.1 7 true false none [] [] (fun _ => none)
      (fun _ => none) (fun _ => none),
   C10_open_key_creation.2.2.2 (KeyV.pub 0) (KeyV.pub 1) true true false 7
      none [] [] (fun _ => none) (fun _ => none) (fun _ => none)
      (by intro h; exact KeyV.noConfusion h (fun h2 => Nat.noConfusion h2))⟩

theorem appendWrites_length (f : Feed) (c : Codec) :
    ∀ (batch : List (List Nat)) (k : Nat),
    (appendWrites f c batch k).length = f.length := by
  intro batch
  induction batch generalizing f with
  | nil => intro k; rfl
  | cons v rest ih =>
      intro k
      show (appendWrites _ c rest (k + 1)).length = f.length
      rw [ih]

theorem appendWrites_byteLength (f : Feed) (c : Codec) :
    ∀ (batch : List (List Nat)) (k : Nat),
    (appendWrites f c batch k).byteLength = f.byteLength := by
  intro batch
  induction batch generalizing f with
  | nil => intro k; rfl
  | cons v rest ih =>
      intro k
      show (appendWrites _ c rest (k + 1)).byteLength = f.byteLength
      rw [ih]

theorem verifyRoots_mono (f : Feed) (i : Nat) (d : List Nat) (top : Node)
    (ps : Option Sig) (rem vis : List Node) (g : Feed)
    (h : verifyRoots f i d top ps rem vis = Except.ok g) :
    f.length ≤ g.length ∧ (f.byteLength ≤ g.byteLength ∨ f.length < g.length) := by
  unfold verifyRoots at h
  dsimp only at h
  split at h
  · exact Except.noConfusion h
  · split at h
    · exact Except.noConfusion h
    · split at h
      · split at h
        · injection h with h2
          subst h2
          dsimp only [writeAll]
          split_ifs with hc
          · exact ⟨Nat.le_of_lt hc, Or.inr hc⟩
          · exact ⟨Nat.le_refl _, Or.inl (Nat.le_refl _)⟩
        · exact Except.noConfusion h
      · split at h
        · injection h with h2
          subst h2
          dsimp only [writeAll]
          split_ifs with hc
          · exact ⟨Nat.le_of_lt hc, Or.inr hc⟩
          · exact ⟨Nat.le_refl _, Or.inl (Nat.le_refl _)⟩
        · exact Except.noConfusion h

theorem verifyAndWrite_mono (f : Feed) (i : Nat) (d : List Nat) (pf : ProofMsg)
    (ms : List Node) (tn : Option Node) (g : Feed)
    (h : verifyAndWrite f i d pf ms tn = Except.ok g) :
    f.length ≤ g.length ∧ (f.byteLength ≤ g.byteLength ∨ f.length < g.length) := by
  unfold verifyAndWrite at h
  dsimp only at h
  split at h
  · injection h with h2
    subst h2
    exact ⟨Nat.le_refl _, Or.inl (Nat.le_refl _)⟩
  · split at h
    · injection h with h2
      subst h2
      exact ⟨Nat.le_refl _, Or.inl (Nat.le_refl _)⟩
    · exact verifyRoots_mono f i d _ pf.signature _ _ g h

theorem putBuffer_mono (f : Feed) (i : Nat) (d : List Nat) (pf : ProofMsg)
    (fuel : Nat) (g : Feed) (h : putBuffer f i d pf fuel = Except.ok g) :
    f.length ≤ g.length ∧ (f.byteLength ≤ g.byteLength ∨ f.length < g.length) := by
  unfold putBuffer at h
  dsimp only at h
  split at h
  · exact Except.noConfusion h
  · split at h
    · split at h
      · split at h
        · exact verifyAndWrite_mono f i d pf _ _ g h
        · exact Except.noConfusion h
      · exact Except.noConfusion h
    · split at h
      · exact verifyAndWrite_mono f i d pf _ _ g h
      · exact Except.noConfusion h

/-- A reader feed whose byteLength was computed, at open, from a stored
root record carrying an adversarial size field. -/
def inflatedFeed : Feed :=
  { emptyFeed with
    key := some (KeyV.pub 0), length := 1, byteLength := 10, live := true,
    bitfield := fun j => j == 0, treeBits := fun j => j == 0,
    nodeStore := fun j => if j = 0 then some ⟨0, hashData [1], 10⟩ else none,
    diskTree := [true] }

/-- C6 counterexample: byteLength is not monotone: on a feed whose
byteLength is 10, a put of block 1 carrying a correctly signed proof for
a two-block tree is accepted and recomputes byteLength from the fresh
root set, decreasing it to 2 (src/index.js 601-607 reassigns byteLength
from the collected roots whenever the verified span exceeds length). -/
theorem C6_counterexample :
    inflatedFeed.byteLength = 10 ∧
    (putBuffer inflatedFeed 1 [2]
        ⟨[⟨0, hashData [1], 1⟩],
          some (sign 0 (hashTree
            [⟨1, Hash.parentH 2 (hashData [1]) (hashData [2]), 2⟩]))⟩
        10).toOption.map Feed.byteLength = some 2 :=
  ⟨rfl, rfl⟩

/-- C6 (amended): append on a writable feed advances length by the batch
size and byteLength by the total encoded byte count; a successful put
never decreases length, and can change byteLength only when it advances
length (when the verified span exceeds the current length — and the
recomputed byteLength may then be smaller); get, seek, download,
undownload, finalize and close preserve both fields exactly. -/
theorem C6_length_monotonic :
    (∀ (f : Feed) (c : Codec) (batch : List (List Nat)),
      match appendBatch f c batch with
      | Except.ok g => g.length = f.length + batch.length ∧
          g.byteLength =
            f.byteLength + (batch.map (fun v => (c.enc v).length)).sum
      | Except.error _ => True) ∧
    (∀ (f : Feed) (i : Nat) (d : List Nat) (pf : ProofMsg) (fuel : Nat),
      match putBuffer f i d pf fuel with
      | Except.ok g => f.length ≤ g.length ∧
          (f.byteLength ≤ g.byteLength ∨ f.length < g.length)
      | Except.error _ => True) ∧
    (∀ (f : Feed) (c : Codec) (i : Nat),
      (get f c i).2.length = f.length ∧
        (get f c i).2.byteLength = f.byteLength) ∧
    (∀ (f : Feed) (hit : Bool) (b : Nat),
      (seekStateEffect f hit b).length = f.length ∧
        (seekStateEffect f hit b).byteLength = f.byteLength) ∧
    (∀ (f : Feed) (sel : Nat × Int),
      (download f sel).length = f.length ∧
        (download f sel).byteLength = f.byteLength ∧
        (undownload f sel).length = f.length ∧
        (undownload f sel).byteLength = f.byteLength) ∧
    (∀ f : Feed, (finalize f).length = f.length ∧
      (finalize f).byteLength = f.byteLength ∧
      (close f).length = f.length ∧ (close f).byteLength = f.byteLength) := by
  refine ⟨?_, ?_, ?_, ?_, ?_, ?_⟩
  · intro f c batch
    unfold appendBatch
    by_cases hw : f.writable
    · rw [if_pos hw]
      refine ⟨?_, ?_⟩
      · show (appendWrites f c batch 0).length + batch.length =
          f.length + batch.length
        rw [appendWrites_length]
      · show (appendWrites f c batch 0).byteLength +
            (batch.map (fun v => (c.enc v).length)).sum =
          f.byteLength + (batch.map (fun v => (c.enc v).length)).sum
        rw [appendWrites_byteLength]
    · rw [if_neg hw]
      trivial
  · intro f i d pf fuel
    cases hpb : putBuffer f i d pf fuel with
    | ok g => exact putBuffer_mono f i d pf fuel g hpb
    | error e => trivial
  · intro f c i
    by_cases hb : f.bitfield i <;> simp [get, hb]
  · intro f hit b
    cases hit <;> simp [seekStateEffect]
  · intro f sel
    exact ⟨rfl, rfl, rfl, rfl⟩
  · intro f
    by_cases hk : f.key.isNone <;> simp [finalize, close, hk]

theorem verifyRoots_noSig_aux (f : Feed) (i : Nat) (d : List Nat) (top : Node)
    (rem vis : List Node) (rs : List Node × List Node)
    (h1 : 0 < f.length) (h2 : f.live = true)
    (hcol : collectRoots top f.treeBits f.nodeStore
      (flat.fullRoots (max (flat.rightSpan top.index)
        (flat.rightSpan (rem.getLastD top).index) + 2)) rem = Except.ok rs) :
    verifyRoots f i d top none rem vis =
      Except.error Err.remoteNoSignature := by
  unfold verifyRoots
  dsimp only
  rw [hcol]
  dsimp only
  have hcond : f.length ≠ 0 ∧ f.live = true ∧ (none : Option Sig) = none :=
    ⟨by omega, h2, rfl⟩
  rw [if_pos hcond]

theorem verifyRoots_noSig_never (f : Feed) (i : Nat) (d : List Nat)
    (top : Node) (rem vis : List Node) (g : Feed)
    (h1 : 0 < f.length) (h2 : f.live = true) :
    verifyRoots f i d top none rem vis ≠ Except.ok g := by
  unfold verifyRoots
  dsimp only
  split
  · intro hc
    exact Except.noConfusion hc
  · have hcond : f.length ≠ 0 ∧ f.live = true ∧ (none : Option Sig) = none :=
      ⟨by omega, h2, rfl⟩
    rw [if_pos hcond]
    intro hc
    exact Except.noConfusion hc

/-- C7: on a live feed holding at least one block, a proof that reaches
the root-collection stage (the climb found no trusted ancestor and the
expected roots were all collected) without carrying a signature is
rejected with the missing-signature error, which is the spec
MissingSignature code; such a signatureless root verification never
succeeds, so nothing is ever written for it (in this development every
write is performed by writeAll on the success payload only, so an error
leaves length, byteLength, the bitfield and all stored nodes unchanged). -/
theorem C7_missing_signature :
    (∀ (f : Feed) (i : Nat) (d : List Nat) (top : Node) (rem vis : List Node)
      (rs : List Node × List Node),
      0 < f.length → f.live = true →
      collectRoots top f.treeBits f.nodeStore
        (flat.fullRoots (max (flat.rightSpan top.index)
          (flat.rightSpan (rem.getLastD top).index) + 2)) rem =
        Except.ok rs →
      verifyRoots f i d top none rem vis =
        Except.error Err.remoteNoSignature ∧
      errCode Err.remoteNoSignature = SpecCode.missingSignature) ∧
    (∀ (f : Feed) (i : Nat) (d : List Nat) (top : Node) (rem vis : List Node)
      (g : Feed), 0 < f.length → f.live = true →
      verifyRoots f i d top none rem vis ≠ Except.ok g) :=
  ⟨fun f i d top rem vis rs h1 h2 hcol =>
    ⟨verifyRoots_noSig_aux f i d top rem vis rs h1 h2 hcol, rfl⟩,
   fun f i d top rem vis g h1 h2 =>
    verifyRoots_noSig_never f i d top rem vis g h1 h2⟩

/-- C7 witness: the live length-1 feed rejects a signatureless root
verification of block 1 with the missing-signature error. -/
theorem C7_missing_signature_witness :
    verifyRoots inflatedFeed 1 [2] ⟨1, hashData [9], 2⟩ none [] [] =
      Except.error Err.remoteNoSignature :=
  (C7_missing_signature.1 inflatedFeed 1 [2] ⟨1, hashData [9], 2⟩ [] []
    ([⟨1, hashData [9], 2⟩], [⟨1, hashData [9], 2⟩]) (by decide) rfl rfl).1

theorem appendWrites_dataStore_lt (f : Feed) (c : Codec) :
    ∀ (batch : List (List Nat)) (k j : Nat), j < f.length + k →
    (appendWrites f c batch k).dataStore j = f.dataStore j := by
  intro batch
  induction batch generalizing f with
  | nil => intro k j hj; rfl
  | cons v rest ih =>
      intro k j hj
      show (appendWrites _ c rest (k + 1)).dataStore j = f.dataStore j
      rw [ih _ (k + 1) j (by show j < f.length + (k + 1); omega)]
      show (if j = f.length + k then some (c.enc v) else f.dataStore j) =
        f.dataStore j
      rw [if_neg (by omega)]

theorem appendWrites_dataStore (f : Feed) (c : Codec) :
    ∀ (batch : List (List Nat)) (k m : Nat), m < batch.length →
    (appendWrites f c batch k).dataStore (f.length + k + m) =
      some (c.enc (batch.getD m [])) := by
  intro batch
  induction batch generalizing f with
  | nil =>
      intro k m hm
      exact absurd hm (by simp)
  | cons v rest ih =>
      intro k m hm
      cases m with
      | zero =>
          show (appendWrites _ c rest (k + 1)).dataStore (f.length + k + 0) =
            some (c.enc v)
          rw [appendWrites_dataStore_lt _ c rest (k + 1) _
            (by show _ < f.length + (k + 1); omega)]
          show (if f.length + k + 0 = f.length + k then some (c.enc v)
            else f.dataStore (f.length + k + 0)) = some (c.enc v)
          rw [if_pos (by omega)]
      | succ m2 =>
          have harith : f.length + k + (m2 + 1) = f.length + (k + 1) + m2 := by
            omega
          rw [harith]
          have hm2 : m2 < rest.length := by
            simp only [List.length_cons] at hm
            omega
          exact ih _ (k + 1) m2 hm2

/-- C5: append/get round-trip: with a codec whose decode inverts its
encode, appending a batch to a writable feed and then getting any block
at the index it was appended at returns the appended value. -/
theorem C5_append_get_roundtrip :
    ∀ (f : Feed) (c : Codec) (batch : List (List Nat)),
      (∀ v, c.dec (c.enc v) = v) →
      match appendBatch f c batch with
      | Except.ok g =>
          ∀ m, m < batch.length →
            (get g c (f.length + m)).1 = some (batch.getD m [])
      | Except.error _ => True := by
  intro f c batch hdec
  unfold appendBatch
  by_cases hw : f.writable
  · rw [if_pos hw]
    intro m hm
    have hc : (appendWrites f c batch 0).length ≤ f.length + m ∧
        f.length + m < (appendWrites f c batch 0).length + batch.length := by
      rw [appendWrites_length]
      omega
    have hbit : (appendCommit (appendWrites f c batch 0) c batch).bitfield
        (f.length + m) = true := by
      show (if (appendWrites f c batch 0).length ≤ f.length + m ∧
          f.length + m < (appendWrites f c batch 0).length + batch.length
        then true
        else (appendWrites f c batch 0).bitfield (f.length + m)) = true
      rw [if_pos hc]
    have hdata : (appendCommit (appendWrites f c batch 0) c batch).dataStore
        (f.length + m) = some (c.enc (batch.getD m [])) := by
      show (appendWrites f c batch 0).dataStore (f.length + m) = _
      exact appendWrites_dataStore f c batch 0 m hm
    unfold get
    rw [hbit, if_pos rfl]
    show ((appendCommit (appendWrites f c batch 0) c batch).dataStore
      (f.length + m)).map c.dec = _
    rw [hdata]
    show some (c.dec (c.enc (batch.getD m []))) = _
    rw [hdec]
  · rw [if_neg hw]
    trivial

/-- C5 witness: appending hello and world (as byte lists, through the
identity codec) to a fresh writable feed gives length 2, byteLength 10,
and get returns the two values. -/
theorem C5_append_get_roundtrip_witness :
    match appendBatch { emptyFeed with writable := true } ⟨id, id⟩
        [[104, 101, 108, 108, 111], [119, 111, 114, 108, 100]] with
    | Except.ok g =>
        (get g ⟨id, id⟩ 0).1 = some [104, 101, 108, 108, 111] ∧
        (get g ⟨id, id⟩ 1).1 = some [119, 111, 114, 108, 100] ∧
        g.length = 2 ∧ g.byteLength = 10
    | Except.error _ => False := by
  have h := C5_append_get_roundtrip { emptyFeed with writable := true }
    ⟨id, id⟩ [[104, 101, 108, 108, 111], [119, 111, 114, 108, 100]]
    (fun v => rfl)
  exact ⟨h 0 (by decide), h 1 (by decide), rfl, rfl⟩

theorem appendWrites_sigStore_lt (f : Feed) (c : Codec) :
    ∀ (batch : List (List Nat)) (k j : Nat), j < f.length + k →
    (appendWrites f c batch k).sigStore j = f.sigStore j := by
  intro batch
  induction batch generalizing f with
  | nil => intro k j hj; rfl
  | cons v rest ih =>
      intro k j hj
      show (appendWrites _ c rest (k + 1)).sigStore j = f.sigStore j
      rw [ih _ (k + 1) j (by show j < f.length + (k + 1); omega)]
      show (if f.live = true then (fun j2 =>
          if j2 = f.length + k then
            some (sign (f.secretKey.getD 0)
              (hashTree (genNext f.merkle (c.enc v)).1.rootsRev.reverse))
          else f.sigStore j2)
        else f.sigStore) j = f.sigStore j
      by_cases hl : f.live = true
      · rw [if_pos hl]
        show (if j = f.length + k then _ else f.sigStore j) = f.sigStore j
        rw [if_neg (by omega)]
      · rw [if_neg hl]

theorem appendWrites_sigStore (c : Codec) :
    ∀ (batch : List (List Nat)) (f : Feed) (k m s : Nat),
    f.live = true → f.secretKey = some s → m < batch.length →
    (appendWrites f c batch k).sigStore (f.length + k + m) =
      some (sign s (hashTree
        ((((batch.take (m + 1)).map c.enc).foldl
          (fun g d => (genNext g d).1) f.merkle).rootsRev.reverse))) := by
  intro batch
  induction batch with
  | nil =>
      intro f k m s hlive hsk hm
      exact absurd hm (by simp)
  | cons v rest ih =>
      intro f k m s hlive hsk hm
      cases m with
      | zero =>
          show (appendWrites _ c rest (k + 1)).sigStore (f.length + k + 0) = _
          rw [appendWrites_sigStore_lt _ c rest (k + 1) _
            (by show _ < f.length + (k + 1); omega)]
          show (if f.live = true then (fun j2 =>
              if j2 = f.length + k then
                some (sign (f.secretKey.getD 0)
                  (hashTree (genNext f.merkle (c.enc v)).1.rootsRev.reverse))
              else f.sigStore j2)
            else f.sigStore) (f.length + k + 0) = _
          rw [if_pos hlive]
          show (if f.length + k + 0 = f.length + k then
            some (sign (f.secretKey.getD 0)
              (hashTree (genNext f.merkle (c.enc v)).1.rootsRev.reverse))
            else f.sigStore (f.length + k + 0)) = _
          rw [if_pos (by omega), hsk]
          rfl
      | succ m2 =>
          have harith : f.length + k + (m2 + 1) = f.length + (k + 1) + m2 := by
            omega
          rw [harith]
          have hm2 : m2 < rest.length := by
            simp only [List.length_cons] at hm
            omega
          exact ih _ (k + 1) m2 s hlive hsk hm2

/-- C4: per-leaf signatures on live append: a live feed whose Merkle
generator matches its already appended (encoded) blocks signs, for every
value of an appended batch, the root-set hash of the tree over all
blocks up to that value, storing the signature at slot length + k; in
particular after a successful nonempty append a signature exists at slot
length - 1 over the root-set hash of the full roots at the new length,
it verifies against the matching public key, and the signed root set
sits exactly at the full-root indices fullRoots(2 * length). -/
theorem C4_per_leaf_signatures :
    ∀ (past : List (List Nat)) (f : Feed) (c : Codec)
      (batch : List (List Nat)) (s : Nat),
      f.merkle = genFold past → f.length = past.length →
      f.live = true → f.secretKey = some s →
      match appendBatch f c batch with
      | Except.ok g =>
          (∀ m, m < batch.length →
            g.sigStore (f.length + m) =
              some (sign s (hashTree (canonNodes
                (past ++ (batch.take (m + 1)).map c.enc)
                (f.length + m + 1))))) ∧
          (0 < batch.length →
            g.sigStore (g.length - 1) =
              some (sign s (hashTree (canonNodes
                (past ++ batch.map c.enc) g.length))) ∧
            verifySig
              (sign s (hashTree (canonNodes (past ++ batch.map c.enc)
                g.length)))
              (hashTree (canonNodes (past ++ batch.map c.enc) g.length))
              (KeyV.pub s) = true ∧
            (canonNodes (past ++ batch.map c.enc) g.length).map Node.index =
              flat.fullRoots (2 * g.length))
      | Except.error _ => True := by
  intro past f c batch s hmk hlen hlive hsk
  unfold appendBatch
  by_cases hw : f.writable
  · rw [if_pos hw]
    have hconj1 : ∀ m, m < batch.length →
        (appendCommit (appendWrites f c batch 0) c batch).sigStore
          (f.length + m) =
        some (sign s (hashTree (canonNodes
          (past ++ (batch.take (m + 1)).map c.enc) (f.length + m + 1)))) := by
      intro m hm
      have h1 := appendWrites_sigStore c batch f 0 m s hlive hsk hm
      have hidx : f.length + 0 + m = f.length + m := by omega
      rw [hidx] at h1
      have hfold : ((batch.take (m + 1)).map c.enc).foldl
          (fun g d => (genNext g d).1) f.merkle =
          genFold (past ++ (batch.take (m + 1)).map c.enc) := by
        rw [hmk]
        unfold genFold
        rw [List.foldl_append]
      rw [hfold, genFold_canon] at h1
      have hflen : (past ++ (batch.take (m + 1)).map c.enc).length =
          f.length + m + 1 := by
        rw [List.length_append, List.length_map, List.length_take]
        omega
      rw [hflen] at h1
      dsimp only at h1
      rw [List.reverse_reverse] at h1
      show (appendWrites f c batch 0).sigStore (f.length + m) = _
      exact h1
    refine ⟨hconj1, ?_⟩
    intro hb
    have glen : (appendCommit (appendWrites f c batch 0) c batch).length =
        f.length + batch.length := by
      show (appendWrites f c batch 0).length + batch.length = _
      rw [appendWrites_length]
    have hm := hconj1 (batch.length - 1) (by omega)
    have ht : batch.length - 1 + 1 = batch.length := by omega
    rw [ht, List.take_length] at hm
    have hn : f.length + (batch.length - 1) + 1 = f.length + batch.length := by
      omega
    rw [hn] at hm
    have hidx2 : f.length + (batch.length - 1) =
        f.length + batch.length - 1 := by omega
    rw [hidx2] at hm
    rw [glen]
    exact ⟨hm, by simp [verifySig, sign], canonNodes_indices _ _⟩
  · rw [if_neg hw]
    trivial

/-- C4 witness: on a fresh live writable feed with key pair seed 0,
appending one block stores, at slot 0, the signature over the root-set
hash of the one-leaf tree, and it verifies against the public key. -/
theorem C4_per_leaf_signatures_witness :
    match appendBatch { emptyFeed with writable := true, secretKey := some 0 }
        ⟨id, id⟩ [[1]] with
    | Except.ok g =>
        g.sigStore 0 = some (sign 0 (hashTree (canonNodes [[1]] 1))) ∧
        verifySig (sign 0 (hashTree (canonNodes [[1]] 1)))
          (hashTree (canonNodes [[1]] 1)) (KeyV.pub 0) = true
    | Except.error _ => False := by
  have h := C4_per_leaf_signatures []
    { emptyFeed with writable := true, secretKey := some 0 }
    ⟨id, id⟩ [[1]] 0 rfl rfl rfl rfl
  exact ⟨(h.2 (by decide)).1, (h.2 (by decide)).2.1⟩

theorem span_mul_le (a b e : Nat) (h : a ≤ 2 * b) :
    a * 2 ^ e ≤ b * 2 ^ (e + 1) := by
  rw [pow_succ]
  calc a * 2 ^ e ≤ 2 * b * 2 ^ e := Nat.mul_le_mul_right _ h
    _ = b * (2 ^ e * 2) := by ring

theorem rightSpan_le_parent (i : Nat) :
    flat.rightSpan i ≤ flat.rightSpan (flat.parent i) := by
  unfold flat.parent
  rw [flat.rightSpan_idx]
  unfold flat.rightSpan
  have h1 : (flat.offset i + 1) * 2 ^ (flat.depth i + 1) ≤
      (flat.offset i / 2 + 1) * 2 ^ (flat.depth i + 1 + 1) :=
    span_mul_le _ _ _ (by omega)
  omega

theorem rightSpan_sibling_le_parent (i : Nat) :
    flat.rightSpan (flat.sibling i) ≤ flat.rightSpan (flat.parent i) := by
  unfold flat.sibling flat.parent
  rw [flat.rightSpan_idx, flat.rightSpan_idx]
  by_cases ho : flat.offset i % 2 = 0
  · rw [if_pos ho]
    have h1 : (flat.offset i + 1 + 1) * 2 ^ (flat.depth i + 1) ≤
        (flat.offset i / 2 + 1) * 2 ^ (flat.depth i + 1 + 1) :=
      span_mul_le _ _ _ (by omega)
    omega
  · rw [if_neg ho]
    have h1 : (flat.offset i - 1 + 1) * 2 ^ (flat.depth i + 1) ≤
        (flat.offset i / 2 + 1) * 2 ^ (flat.depth i + 1 + 1) :=
      span_mul_le _ _ _ (by omega)
    omega

theorem climbLoopF_roots_remote : ∀ (fuel : Nat) (trusted : Option Node)
    (top : Node) (remote lns visited : List Node) (top2 : Node)
    (vis2 rem2 : List Node),
    remote.length + lns.length ≤ fuel →
    climbLoopF fuel trusted top remote lns visited =
      ClimbResult.roots top2 vis2 rem2 →
    flat.rightSpan top.index ≤ flat.rightSpan top2.index ∧
    ∃ pre, remote = pre ++ rem2 ∧
      ∀ nd ∈ pre, flat.rightSpan nd.index ≤ flat.rightSpan top2.index := by
  intro fuel
  induction fuel with
  | zero =>
      intro trusted top remote lns visited top2 vis2 rem2 hle h
      have hr : remote = [] := List.eq_nil_of_length_eq_zero (by omega)
      subst hr
      injection h with h1 h2 h3
      subst h1 h3
      exact ⟨Nat.le_refl _, [], rfl, fun nd hnd => absurd hnd (by simp)⟩
  | succ fuel ih =>
      intro trusted top remote lns visited top2 vis2 rem2 hle h
      cases remote with
      | nil =>
          cases lns with
          | nil =>
              injection h with h1 h2 h3
              subst h1 h3
              exact ⟨Nat.le_refl _, [], rfl, fun nd hnd => absurd hnd (by simp)⟩
          | cons ln lrest =>
              rw [climbLoopF] at h
              split at h
              · split at h
                · exact ClimbResult.noConfusion h
                · have hrec := ih trusted _ [] lrest _ top2 vis2 rem2
                    (by simp only [List.length_nil, List.length_cons] at hle ⊢
                        omega) h
                  refine ⟨Nat.le_trans (rightSpan_le_parent top.index) hrec.1, ?_⟩
                  obtain ⟨pre, hpre, hsp⟩ := hrec.2
                  have hpn : pre = [] := by
                    cases pre with
                    | nil => rfl
                    | cons a b => exact List.noConfusion hpre
                  subst hpn
                  have hr2 : rem2 = [] := by simpa using hpre.symm
                  subst hr2
                  exact ⟨[], rfl, fun nd hnd => absurd hnd (by simp)⟩
              · injection h with h1 h2 h3
                subst h1 h3
                exact ⟨Nat.le_refl _, [], rfl, fun nd hnd => absurd hnd (by simp)⟩
      | cons rn rrest =>
          cases lns with
          | nil =>
              rw [climbLoopF] at h
              split at h
              · split at h
                · exact ClimbResult.noConfusion h
                · have hrec := ih trusted _ rrest [] _ top2 vis2 rem2
                    (by simp only [List.length_nil, List.length_cons] at hle ⊢
                        omega) h
                  next hsib _ =>
                  refine ⟨Nat.le_trans (rightSpan_le_parent top.index) hrec.1, ?_⟩
                  obtain ⟨pre, hpre, hsp⟩ := hrec.2
                  refine ⟨rn :: pre, by rw [List.cons_append, hpre], ?_⟩
                  intro nd hnd
                  cases hnd with
                  | head =>
                      rw [hsib]
                      exact Nat.le_trans (rightSpan_sibling_le_parent top.index)
                        hrec.1
                  | tail _ hnd2 => exact hsp nd hnd2
              · injection h with h1 h2 h3
                subst h1 h3
                exact ⟨Nat.le_refl _, [], rfl, fun nd hnd => absurd hnd (by simp)⟩
          | cons ln lrest =>
              rw [climbLoopF] at h
              split at h
              · split at h
                · exact ClimbResult.noConfusion h
                · have hrec := ih trusted _ rrest (ln :: lrest) _ top2 vis2 rem2
                    (by simp only [List.length_cons] at hle ⊢
                        omega) h
                  next hsib _ =>
                  refine ⟨Nat.le_trans (rightSpan_le_parent top.index) hrec.1, ?_⟩
                  obtain ⟨pre, hpre, hsp⟩ := hrec.2
                  refine ⟨rn :: pre, by rw [List.cons_append, hpre], ?_⟩
                  intro nd hnd
                  cases hnd with
                  | head =>
                      rw [hsib]
                      exact Nat.le_trans (rightSpan_sibling_le_parent top.index)
                        hrec.1
                  | tail _ hnd2 => exact hsp nd hnd2
              · split at h
                · split at h
                  · exact ClimbResult.noConfusion h
                  · have hrec := ih trusted _ (rn :: rrest) lrest _ top2 vis2
                      rem2
                      (by simp only [List.length_cons] at hle ⊢
                          omega) h
                    exact ⟨Nat.le_trans (rightSpan_le_parent top.index) hrec.1,
                      hrec.2⟩
                · injection h with h1 h2 h3
                  subst h1 h3
                  exact ⟨Nat.le_refl _, [], rfl, fun nd hnd => absurd hnd
                    (by simp)⟩

theorem getLastD_mem : ∀ (l : List Node) (d : Node),
    l.getLastD d ∈ l ∨ l.getLastD d = d
  | [], _ => Or.inr rfl
  | a :: l, d => by
      rw [List.getLastD_cons]
      cases getLastD_mem l a with
      | inl h => exact Or.inl (List.mem_cons_of_mem a h)
      | inr h => exact Or.inl (by rw [h]; exact List.mem_cons_self a l)

theorem getLastD_append_cons : ∀ (l1 : List Node) (a : Node) (l2 : List Node)
    (d : Node), (l1 ++ a :: l2).getLastD d = (a :: l2).getLastD d
  | [], _, _, _ => rfl
  | b :: l1, a, l2, d => by
      rw [List.cons_append, List.getLastD_cons]
      rw [getLastD_append_cons l1 a l2 b]
      rw [List.getLastD_cons, List.getLastD_cons]

theorem climbLoop_lastNode_equiv (trusted : Option Node) (top : Node)
    (remote lns : List Node) (top2 : Node) (vis2 rem2 : List Node)
    (h : climbLoop trusted top remote lns [] =
      ClimbResult.roots top2 vis2 rem2) :
    max (flat.rightSpan top2.index)
        (flat.rightSpan ((rem2.getLastD top2).index)) =
      max (flat.rightSpan top2.index)
        (flat.rightSpan ((remote.getLastD top2).index)) := by
  have hr := climbLoopF_roots_remote (remote.length + lns.length) trusted top
    remote lns [] top2 vis2 rem2 (Nat.le_refl _) h
  obtain ⟨pre, hpre, hsp⟩ := hr.2
  cases rem2 with
  | nil =>
      rw [List.append_nil] at hpre
      rw [hpre]
      show max (flat.rightSpan top2.index) (flat.rightSpan top2.index) = _
      cases getLastD_mem pre top2 with
      | inl hmem =>
          have := hsp _ hmem
          omega
      | inr heq =>
          rw [heq]
  | cons a b =>
      rw [hpre, getLastD_append_cons pre a b top2]

/-- C2: the put verification procedure: verification starts from the
leaf node (2 index, leaf hash of the data, data length) and accepts at
once when it matches the trusted local ancestor; while climbing, the
sibling is consumed from the remote proof nodes when the next expected
index matches, otherwise from the loaded local nodes, combining into
(parent index, parent hash with children ordered left first, summed
size), and stopping as soon as the combined node verifies against the
trusted ancestor; when no sibling matches, the procedure hands the
pending top to root collection, whose boundary
max(rightSpan top, rightSpan lastNode) + 2 computed on the remaining
proof nodes coincides with the one computed on the original proof node
list (the spec wording), consumed nodes being covered by the climbed
top. -/
theorem C2_put_verification :
    (∀ (f : Feed) (i : Nat) (d : List Nat) (pf : ProofMsg) (ms : List Node)
      (tn : Option Node),
      verifyNode tn ⟨2 * i, hashData d, d.length⟩ = true →
      verifyAndWrite f i d pf ms tn = Except.ok (writeAll f i d [] none)) ∧
    (∀ (trusted : Option Node) (top rn : Node) (rrest lns visited : List Node),
      rn.index = flat.sibling top.index →
      climbLoop trusted top (rn :: rrest) lns visited =
        (if verifyNode trusted
            ⟨flat.parent top.index, hashParent top rn, top.size + rn.size⟩ then
          ClimbResult.write (visited ++ [rn, top])
        else
          climbLoop trusted
            ⟨flat.parent top.index, hashParent top rn, top.size + rn.size⟩
            rrest lns (visited ++ [rn, top]))) ∧
    (∀ (trusted : Option Node) (top ln : Node) (lrest visited : List Node),
      ln.index = flat.sibling top.index →
      climbLoop trusted top [] (ln :: lrest) visited =
        (if verifyNode trusted
            ⟨flat.parent top.index, hashParent top ln, top.size + ln.size⟩ then
          ClimbResult.write (visited ++ [top])
        else
          climbLoop trusted
            ⟨flat.parent top.index, hashParent top ln, top.size + ln.size⟩
            [] lrest (visited ++ [top]))) ∧
    (∀ (trusted : Option Node) (top rn ln : Node)
      (rrest lrest visited : List Node),
      rn.index ≠ flat.sibling top.index → ln.index = flat.sibling top.index →
      climbLoop trusted top (rn :: rrest) (ln :: lrest) visited =
        (if verifyNode trusted
            ⟨flat.parent top.index, hashParent top ln, top.size + ln.size⟩ then
          ClimbResult.write (visited ++ [top])
        else
          climbLoop trusted
            ⟨flat.parent top.index, hashParent top ln, top.size + ln.size⟩
            (rn :: rrest) lrest (visited ++ [top]))) ∧
    (∀ (bs : List (List Nat)) (d o : Nat),
      hashParent (semNode bs d (2 * o)) (semNode bs d (2 * o + 1)) =
        semHash bs (d + 1) o ∧
      hashParent (semNode bs d (2 * o + 1)) (semNode bs d (2 * o)) =
        semHash bs (d + 1) o) ∧
    (∀ (f : Feed) (i : Nat) (d : List Nat) (pf : ProofMsg) (ms : List Node)
      (tn : Option Node) (top2 : Node) (vis2 rem2 : List Node),
      verifyNode tn ⟨2 * i, hashData d, d.length⟩ = false →
      climbLoop tn ⟨2 * i, hashData d, d.length⟩ pf.nodes ms [] =
        ClimbResult.roots top2 vis2 rem2 →
      verifyAndWrite f i d pf ms tn =
        verifyRoots f i d top2 pf.signature rem2 vis2) ∧
    (∀ (trusted : Option Node) (top : Node) (remote lns : List Node)
      (top2 : Node) (vis2 rem2 : List Node),
      climbLoop trusted top remote lns [] =
        ClimbResult.roots top2 vis2 rem2 →
      max (flat.rightSpan top2.index)
          (flat.rightSpan ((rem2.getLastD top2).index)) =
        max (flat.rightSpan top2.index)
          (flat.rightSpan ((remote.getLastD top2).index))) := by
  refine ⟨?_, ?_, ?_, ?_, ?_, ?_, ?_⟩
  · intro f i d pf ms tn h
    unfold verifyAndWrite
    rw [if_pos h]
  · intro trusted top rn rrest lns visited h
    cases lns with
    | nil => rw [climbLoop_cons_nil, if_pos h]
    | cons ln lrest => rw [climbLoop_cons_cons, if_pos h]
  · intro trusted top ln lrest visited h
    rw [climbLoop_nil_cons, if_pos h]
  · intro trusted top rn ln rrest lrest visited h1 h2
    rw [climbLoop_cons_cons, if_neg h1, if_pos h2]
  · intro bs d o
    exact ⟨hashParent_children bs d o, hashParent_children_rev bs d o⟩
  · intro f i d pf ms tn top2 vis2 rem2 h1 h2
    unfold verifyAndWrite
    rw [if_neg (by rw [h1]; exact Bool.false_ne_true)]
    rw [h2]
  · intro trusted top remote lns top2 vis2 rem2 h
    exact climbLoop_lastNode_equiv trusted top remote lns top2 vis2 rem2 h

/-- C2 witness: on the concrete climb of block 1 against proof node 0,
the remote sibling is consumed into the parent node, and for the
resulting roots stage the boundary computed on the remaining (empty)
node list agrees with the one computed on the original node list. -/
theorem C2_put_verification_witness :
    (climbLoop none (⟨2, hashData [2], 1⟩ : Node) [⟨0, hashData [1], 1⟩] [] [] =
      climbLoop none
        ⟨1, hashParent ⟨2, hashData [2], 1⟩ ⟨0, hashData [1], 1⟩, 2⟩
        [] [] [⟨0, hashData [1], 1⟩, ⟨2, hashData [2], 1⟩]) ∧
    max (flat.rightSpan 1) (flat.rightSpan 1) =
      max (flat.rightSpan 1) (flat.rightSpan 0) := by
  constructor
  · have h := C2_put_verification.2.1 none ⟨2, hashData [2], 1⟩
      ⟨0, hashData [1], 1⟩ [] [] [] rfl
    rwa [if_neg (by decide)] at h
  · exact C2_put_verification.2.2.2.2.2.2 none ⟨2, hashData [2], 1⟩
      [⟨0, hashData [1], 1⟩] []
      ⟨1, hashParent ⟨2, hashData [2], 1⟩ ⟨0, hashData [1], 1⟩, 2⟩
      [⟨0, hashData [1], 1⟩, ⟨2, hashData [2], 1⟩] [] rfl

theorem putNodes_append (l1 : List Node) : ∀ (l2 : List Node)
    (st : Nat → Option Node),
    putNodes st (l1 ++ l2) = putNodes (putNodes st l1) l2 := by
  induction l1 with
  | nil => intro l2 st; rfl
  | cons a rest ih =>
      intro l2 st
      show putNodes _ (rest ++ l2) = _
      rw [ih]
      rfl

theorem putNodes_miss : ∀ (l : List Node) (st : Nat → Option Node) (j : Nat),
    (∀ nd ∈ l, nd.index ≠ j) → putNodes st l j = st j := by
  intro l
  induction l with
  | nil => intro st j _; rfl
  | cons a rest ih =>
      intro st j hne
      show putNodes _ rest j = st j
      rw [ih _ j (fun nd hnd => hne nd (List.mem_cons_of_mem a hnd))]
      show (if j = a.index then some a else st j) = st j
      rw [if_neg (fun hc => hne a (List.mem_cons_self a rest) hc.symm)]

theorem putNodes_consistent : ∀ (l : List Node) (st : Nat → Option Node)
    (nd : Node), nd ∈ l → (∀ nd2 ∈ l, nd2.index = nd.index → nd2 = nd) →
    putNodes st l nd.index = some nd := by
  intro l
  induction l with
  | nil => intro st nd hmem; exact absurd hmem (by simp)
  | cons a rest ih =>
      intro st nd hmem hcons
      show putNodes _ rest nd.index = some nd
      by_cases hmr : nd ∈ rest
      · exact ih _ nd hmr
          (fun nd2 hnd2 => hcons nd2 (List.mem_cons_of_mem a hnd2))
      · have hna : nd = a := by
          cases List.mem_cons.mp hmem with
          | inl h => exact h
          | inr h => exact absurd h hmr
        have hmiss : ∀ nd2 ∈ rest, nd2.index ≠ nd.index := by
          intro nd2 hnd2 hc
          exact hmr ((hcons nd2 (List.mem_cons_of_mem a hnd2) hc) ▸ hnd2)
        rw [putNodes_miss rest _ nd.index hmiss]
        show (if nd.index = a.index then some a else st nd.index) = some nd
        rw [if_pos (by rw [hna]), hna]

theorem appendWrites_nodeStore (c : Codec) : ∀ (batch : List (List Nat))
    (f : Feed) (k : Nat),
    (appendWrites f c batch k).nodeStore =
      putNodes f.nodeStore (genAll f.merkle (batch.map c.enc)) := by
  intro batch
  induction batch with
  | nil => intro f k; rfl
  | cons v rest ih =>
      intro f k
      show (appendWrites _ c rest (k + 1)).nodeStore = _
      rw [ih _ (k + 1)]
      show putNodes (putNodes f.nodeStore (genNext f.merkle (c.enc v)).2)
        (genAll (genNext f.merkle (c.enc v)).1 (rest.map c.enc)) = _
      rw [← putNodes_append]
      rfl

theorem carryR_values : ∀ (front : List (Nat × Nat)) (last : Nat × Nat)
    (m : Nat), AD m front last → ∀ p ∈ carryR front.reverse last,
    p.1 + 2 ^ p.2 = m ∧ (2 : Nat) ^ p.2 ∣ p.1 := by
  intro front
  induction front using List.reverseRecOn with
  | nil =>
      intro last m had p hp
      rw [List.reverse_nil] at hp
      exact absurd hp (by simp [carryR])
  | append_singleton front2 a ih =>
      intro last m had p hp
      have h_chain := had.2.2.1
      have hgt : ∀ q ∈ front2, a.2 < q.2 :=
        flat.chain_decr_gt_last front2 a h_chain
      rw [List.reverse_append] at hp
      by_cases he : a.2 = last.2
      · rw [show ([a].reverse ++ front2.reverse : List (Nat × Nat)) =
          a :: front2.reverse from rfl] at hp
        rw [carryR, if_pos he] at hp
        have ha1 : a.1 = flat.sumPows front2 := by
          have hassoc : (front2 ++ [a]) ++ [last] = front2 ++ (a :: [last]) := by
            simp
          have := flat.contig_sum_split front2 0 a [last]
            (by rw [← hassoc]; exact had.1)
          omega
        have hsum2 : flat.sumPows front2 + 2 ^ a.2 + 2 ^ last.2 = m := by
          have := had.2.1
          simp only [flat.sumPows_append, flat.sumPows_cons, flat.sumPows_nil]
            at this
          omega
        have hdvd : (2 : Nat) ^ (a.2 + 1) ∣ a.1 := by
          rw [ha1]
          exact flat.dvd_sumPows front2 (a.2 + 1) (fun q hq => hgt q hq)
        cases List.mem_cons.mp hp with
        | inl hh =>
            subst hh
            refine ⟨?_, hdvd⟩
            show a.1 + 2 ^ (a.2 + 1) = m
            have hpow : (2 : Nat) ^ (a.2 + 1) = 2 ^ a.2 + 2 ^ a.2 := by
              rw [pow_succ]; omega
            rw [← he] at hsum2
            omega
        | inr hh =>
            exact ih (a.1, a.2 + 1) m (AD_step m front2 a last had he) p hh
      · rw [show ([a].reverse ++ front2.reverse : List (Nat × Nat)) =
          a :: front2.reverse from rfl] at hp
        rw [carryR, if_neg he] at hp
        exact absurd hp (by simp)

theorem genAll_values (bs : List (List Nat)) : ∀ nd ∈ genAll ⟨0, []⟩ bs,
    ∃ d o, nd = semNode bs d o ∧ (o + 1) * 2 ^ d ≤ bs.length := by
  induction bs using List.reverseRecOn with
  | nil =>
      intro nd hnd
      exact absurd hnd (by simp [genAll])
  | append_singleton bs v ih =>
      intro nd hnd
      rw [genAll_append bs ⟨0, []⟩ [v]] at hnd
      have hag : ∀ j, j < bs.length → bs.getD j [] = (bs ++ [v]).getD j [] := by
        intro j hj
        rw [List.getD_append _ _ _ _ hj]
      have hlen : (bs ++ [v]).length = bs.length + 1 := by simp
      cases List.mem_append.mp hnd with
      | inl hl =>
          obtain ⟨d, o, hval, hcov⟩ := ih nd hl
          refine ⟨d, o, ?_, by omega⟩
          rw [hval]
          exact semNode_congr bs (bs ++ [v]) d o bs.length hcov hag
      | inr hr =>
          have hfold : bs.foldl (fun g d => (genNext g d).1) ⟨0, []⟩ =
            genFold bs := rfl
          rw [hfold, genFold_canon bs] at hr
          have hr2 : nd ∈
              (genNext ⟨bs.length, (canonNodes bs bs.length).reverse⟩ v).2 := by
            simpa [genAll] using hr
          unfold canonNodes at hr2
          rw [canonNodes_congr bs v bs.length (le_refl _)] at hr2
          have hcomb := genCombine_AD (bs ++ [v]) (flat.canon bs.length 0)
            (bs.length, 0) (bs.length + 1) (AD_push bs.length)
          unfold genNext at hr2
          simp only [leaf_semP bs v] at hr2
          rw [hcomb] at hr2
          dsimp only at hr2
          cases List.mem_cons.mp hr2 with
          | inl hh =>
              refine ⟨0, bs.length, ?_, by omega⟩
              rw [hh]
              unfold semP semNode
              have h0 : (bs.length, (0 : Nat)).1 /
                  2 ^ (bs.length, (0 : Nat)).2 = bs.length := by simp
              rw [h0]
          | inr hh =>
              obtain ⟨p, hpmem, hpeq⟩ := List.mem_map.mp hh
              have hv := carryR_values (flat.canon bs.length 0) (bs.length, 0)
                (bs.length + 1) (AD_push bs.length) p hpmem
              obtain ⟨o, ho⟩ := hv.2
              have hp0 : (0 : Nat) < 2 ^ p.2 := pow_pos (by omega) _
              have hdiv : p.1 / 2 ^ p.2 = o := by
                rw [ho]
                exact Nat.mul_div_cancel_left o hp0
              refine ⟨p.2, o, ?_, ?_⟩
              · rw [← hpeq]
                unfold semP
                rw [hdiv]
              · have : (o + 1) * 2 ^ p.2 = 2 ^ p.2 * o + 2 ^ p.2 := by ring
                rw [hlen]
                omega

/-- The identity codec (no value encoding). -/
def idCodec : Codec := ⟨id, id⟩

/-- A fresh live writable feed holding the key pair with seed s. -/
def writerFeed (s : Nat) : Feed :=
  { emptyFeed with
    key := some (KeyV.pub s), secretKey := some s, writable := true }

/-- The writer feed after appending the blocks bs. -/
def writerAfter (s : Nat) (bs : List (List Nat)) : Feed :=
  appendCommit (appendWrites (writerFeed s) idCodec bs 0) idCodec bs

theorem writerAfter_append (s : Nat) (bs : List (List Nat)) :
    appendBatch (writerFeed s) idCodec bs = Except.ok (writerAfter s bs) := by
  unfold appendBatch writerAfter
  rw [if_pos (show (writerFeed s).writable = true from rfl)]

theorem writerAfter_length (s : Nat) (bs : List (List Nat)) :
    (writerAfter s bs).length = bs.length := by
  show (appendWrites (writerFeed s) idCodec bs 0).length + bs.length =
    bs.length
  rw [appendWrites_length]
  show 0 + bs.length = bs.length
  omega

theorem appendWrites_live (f : Feed) (c : Codec) :
    ∀ (batch : List (List Nat)) (k : Nat),
    (appendWrites f c batch k).live = f.live := by
  intro batch
  induction batch generalizing f with
  | nil => intro k; rfl
  | cons v rest ih =>
      intro k
      show (appendWrites _ c rest (k + 1)).live = f.live
      rw [ih]

theorem writerAfter_live (s : Nat) (bs : List (List Nat)) :
    (writerAfter s bs).live = true := by
  show (appendWrites (writerFeed s) idCodec bs 0).live = true
  rw [appendWrites_live]
  rfl

theorem writerAfter_nodeStore (s : Nat) (bs : List (List Nat)) (d o : Nat)
    (hcov : (o + 1) * 2 ^ d ≤ bs.length) :
    (writerAfter s bs).nodeStore (flat.idx d o) = some (semNode bs d o) := by
  show (appendWrites (writerFeed s) idCodec bs 0).nodeStore (flat.idx d o) = _
  rw [appendWrites_nodeStore]
  show putNodes (writerFeed s).nodeStore (genAll ⟨0, []⟩ (bs.map id))
    (flat.idx d o) = _
  rw [List.map_id]
  have hnd : semNode bs d o ∈ genAll ⟨0, []⟩ bs := genAll_mem bs d o hcov
  have hidx : (semNode bs d o).index = flat.idx d o := rfl
  rw [← hidx]
  apply putNodes_consistent _ _ _ hnd
  intro nd2 hnd2 hie
  obtain ⟨d2, o2, hval, hcov2⟩ := genAll_values bs nd2 hnd2
  have hii : flat.idx d2 o2 = flat.idx d o := by
    rw [hval] at hie
    exact hie
  obtain ⟨hd, ho⟩ := flat.idx_inj hii
  rw [hval, hd, ho]

theorem writerAfter_sigStore (s : Nat) (bs : List (List Nat))
    (hn : 0 < bs.length) :
    (writerAfter s bs).sigStore (bs.length - 1) =
      some (sign s (hashTree (canonNodes bs bs.length))) := by
  have h1 := appendWrites_sigStore idCodec bs (writerFeed s) 0 (bs.length - 1)
    s rfl rfl (by omega)
  have hidx : (writerFeed s).length + 0 + (bs.length - 1) = bs.length - 1 := by
    show 0 + 0 + (bs.length - 1) = bs.length - 1
    omega
  rw [hidx] at h1
  rw [show bs.length - 1 + 1 = bs.length from by omega, List.take_length]
    at h1
  have hfold : List.foldl (fun g d => (genNext g d).1) (writerFeed s).merkle
      (bs.map idCodec.enc) = genFold bs := by
    show List.foldl _ _ (bs.map id) = _
    rw [List.map_id]
    rfl
  rw [hfold, genFold_canon] at h1
  dsimp only at h1
  rw [List.reverse_reverse] at h1
  show (appendWrites (writerFeed s) idCodec bs 0).sigStore (bs.length - 1) = _
  exact h1

theorem findCover_go : ∀ (l : List (Nat × Nat)) (st i : Nat),
    flat.Contig st l → st ≤ i → i < st + flat.sumPows l →
    ∃ p, findCover l i = some p ∧ p ∈ l ∧ p.1 ≤ i ∧ i < p.1 + 2 ^ p.2 := by
  intro l
  induction l with
  | nil =>
      intro st i _ h1 h2
      rw [flat.sumPows_nil] at h2
      omega
  | cons p rest ih =>
      intro st i hc h1 h2
      have hp1 : p.1 = st := hc.1
      by_cases hcase : i < p.1 + 2 ^ p.2
      · refine ⟨p, ?_, List.mem_cons_self _ _, by omega, hcase⟩
        rw [findCover, if_pos hcase]
      · obtain ⟨q, hq1, hq2, hq3, hq4⟩ := ih (p.1 + 2 ^ p.2) i hc.2 (by omega)
          (by rw [flat.sumPows_cons] at h2; omega)
        refine ⟨q, ?_, List.mem_cons_of_mem p hq2, hq3, hq4⟩
        rw [findCover, if_neg hcase]
        exact hq1

theorem findCover_canon (n i : Nat) (h : i < n) :
    ∃ p, findCover (flat.canon n 0) i = some p ∧ p ∈ flat.canon n 0 ∧
      p.1 ≤ i ∧ i < p.1 + 2 ^ p.2 :=
  findCover_go (flat.canon n 0) 0 i (flat.canon_contig n 0) (by omega)
    (by rw [flat.canon_sumPows]; omega)

theorem sib_cover (c1 ce k i n : Nat) (hk : k < ce) (hdvd : 2 ^ ce ∣ c1)
    (hi1 : c1 ≤ i) (hi2 : i < c1 + 2 ^ ce) (hend : c1 + 2 ^ ce ≤ n) :
    ((if (i / 2 ^ k) % 2 = 0 then i / 2 ^ k + 1 else i / 2 ^ k - 1) + 1) *
      2 ^ k ≤ n := by
  obtain ⟨a, ha⟩ := hdvd
  have hsplit : (2 : Nat) ^ ce = 2 ^ k * 2 ^ (ce - k) := by
    rw [← pow_add]
    congr 1
    omega
  have hP : (0 : Nat) < 2 ^ k := pow_pos (by omega) _
  have hQ2 : (2 : Nat) ^ (ce - k) = 2 ^ (ce - k - 1) * 2 := by
    rw [← pow_succ]
    congr 1
    omega
  obtain ⟨b, hb⟩ : ∃ b, (a + 1) * 2 ^ (ce - k) = 2 * b := by
    refine ⟨(a + 1) * 2 ^ (ce - k - 1), ?_⟩
    rw [hQ2]
    ring
  have hdm := Nat.div_add_mod i (2 ^ k)
  have hmlt : i % 2 ^ k < 2 ^ k := Nat.mod_lt _ hP
  have holt : i / 2 ^ k < (a + 1) * 2 ^ (ce - k) := by
    apply Nat.lt_of_mul_lt_mul_left (a := 2 ^ k)
    calc 2 ^ k * (i / 2 ^ k) ≤ i := Nat.mul_div_le i (2 ^ k)
      _ < c1 + 2 ^ ce := hi2
      _ = 2 ^ k * ((a + 1) * 2 ^ (ce - k)) := by rw [ha, hsplit]; ring
  have hMeq : ((a + 1) * 2 ^ (ce - k)) * 2 ^ k = c1 + 2 ^ ce := by
    rw [ha, hsplit]
    ring
  by_cases ho : (i / 2 ^ k) % 2 = 0
  · rw [if_pos ho]
    have holt2 : i / 2 ^ k < 2 * b := by rw [← hb]; exact holt
    have hle : i / 2 ^ k + 1 + 1 ≤ 2 * b := by omega
    calc (i / 2 ^ k + 1 + 1) * 2 ^ k ≤ (2 * b) * 2 ^ k :=
          Nat.mul_le_mul_right _ hle
      _ = ((a + 1) * 2 ^ (ce - k)) * 2 ^ k := by rw [hb]
      _ = c1 + 2 ^ ce := hMeq
      _ ≤ n := hend
  · rw [if_neg ho]
    have holt2 : i / 2 ^ k < 2 * b := by rw [← hb]; exact holt
    have ho1 : 1 ≤ i / 2 ^ k := by
      rcases Nat.eq_zero_or_pos (i / 2 ^ k) with h0 | h0
      · exact absurd (by rw [h0]) ho
      · exact h0
    have hle : i / 2 ^ k - 1 + 1 ≤ 2 * b := by omega
    calc (i / 2 ^ k - 1 + 1) * 2 ^ k ≤ (2 * b) * 2 ^ k :=
          Nat.mul_le_mul_right _ hle
      _ = ((a + 1) * 2 ^ (ce - k)) * 2 ^ k := by rw [hb]
      _ = c1 + 2 ^ ce := hMeq
      _ ≤ n := hend

theorem loadNodes_map (store : Nat → Option Node) (F : Nat → Node) :
    ∀ idxs : List Nat, (∀ j ∈ idxs, store j = some (F j)) →
    loadNodes store idxs = Except.ok (idxs.map F) := by
  intro idxs
  induction idxs with
  | nil => intro _; rfl
  | cons j rest ih =>
      intro h
      rw [loadNodes, h j (List.mem_cons_self j rest),
        ih (fun j2 hj2 => h j2 (List.mem_cons_of_mem j hj2))]
      rfl

theorem writer_plan_nodes (s : Nat) (bs : List (List Nat)) (i : Nat)
    (c1 ce : Nat) (hmem : (c1, ce) ∈ flat.canon bs.length 0)
    (hi1 : c1 ≤ i) (hi2 : i < c1 + 2 ^ ce) :
    ∀ j, (j ∈ pathSibs i ce ∨ j ∈ flat.fullRoots (2 * bs.length)) →
    (writerAfter s bs).nodeStore j =
      some (semNode bs (flat.depth j) (flat.offset j)) := by
  have hend : c1 + 2 ^ ce ≤ bs.length := canon_cover bs.length (c1, ce) hmem
  have hdvd : (2 : Nat) ^ ce ∣ c1 := flat.canon_align_zero bs.length _ hmem
  intro j hj
  cases hj with
  | inl hp =>
      obtain ⟨k, hk, hje⟩ := List.mem_map.mp hp
      rw [List.mem_range] at hk
      have hsib : flat.sibling (flat.idx k (i / 2 ^ k)) =
          flat.idx k (if (i / 2 ^ k) % 2 = 0 then i / 2 ^ k + 1
            else i / 2 ^ k - 1) := by
        rw [flat.sibling_idx]
      rw [← hje, hsib]
      rw [flat.depth_idx, flat.offset_idx]
      exact writerAfter_nodeStore s bs k _
        (sib_cover c1 ce k i bs.length hk hdvd hi1 hi2 hend)
  | inr hr =>
      rw [flat.fullRoots_canon] at hr
      obtain ⟨p, hpmem, hpe⟩ := List.mem_map.mp hr
      have hri : flat.idx p.2 (p.1 / 2 ^ p.2) = j := by
        rw [canon_rootIdx bs.length p hpmem, hpe]
      have hdvd2 : (2 : Nat) ^ p.2 ∣ p.1 :=
        flat.canon_align_zero bs.length p hpmem
      obtain ⟨q, hq⟩ := hdvd2
      have hp0 : (0 : Nat) < 2 ^ p.2 := pow_pos (by omega) _
      have hdiv : p.1 / 2 ^ p.2 = q := by
        rw [hq]
        exact Nat.mul_div_cancel_left q hp0
      have hcov : (q + 1) * 2 ^ p.2 ≤ bs.length := by
        have hc := canon_cover bs.length p hpmem
        have : (q + 1) * 2 ^ p.2 = 2 ^ p.2 * q + 2 ^ p.2 := by ring
        omega
      rw [← hri, flat.depth_idx, flat.offset_idx, hdiv]
      exact writerAfter_nodeStore s bs p.2 q hcov

theorem proofGen_writer (s : Nat) (bs : List (List Nat)) (i : Nat)
    (c1 ce : Nat) (hn : 0 < bs.length)
    (hfc : findCover (flat.canon bs.length 0) i = some (c1, ce))
    (hmem : (c1, ce) ∈ flat.canon bs.length 0)
    (hi1 : c1 ≤ i) (hi2 : i < c1 + 2 ^ ce) :
    proofGen (writerAfter s bs) i = Except.ok
      ⟨(pathSibs i ce ++ (flat.fullRoots (2 * bs.length)).filter
          (fun r => r ≠ 2 * c1 + 2 ^ ce - 1)).map
        (fun j => semNode bs (flat.depth j) (flat.offset j)),
        some (sign s (hashTree (canonNodes bs bs.length)))⟩ := by
  unfold proofGen treeProofPlan
  rw [writerAfter_length, hfc]
  dsimp only
  have hload := loadNodes_map (writerAfter s bs).nodeStore
    (fun j => semNode bs (flat.depth j) (flat.offset j))
    (pathSibs i ce ++ (flat.fullRoots (2 * bs.length)).filter
      (fun r => r ≠ 2 * c1 + 2 ^ ce - 1))
    (by
      intro j hj
      apply writer_plan_nodes s bs i c1 ce hmem hi1 hi2
      cases List.mem_append.mp hj with
      | inl h => exact Or.inl h
      | inr h => exact Or.inr (List.mem_filter.mp h).1)
  rw [hload]
  dsimp only
  rw [if_pos ⟨writerAfter_live s bs, by omega⟩]
  have hslot : 2 * bs.length / 2 - 1 = bs.length - 1 := by
    rw [Nat.mul_div_cancel_left _ (by omega : (0 : Nat) < 2)]
  rw [hslot, writerAfter_sigStore s bs hn]

/-- A fresh reader feed holding only the public key with seed s. -/
def readerFeed (s : Nat) : Feed :=
  { emptyFeed with key := some (KeyV.pub s) }

theorem frontierLoop_false : ∀ (fuel : Nat) (pf : List Node) (next : Nat)
    (acc : List Nat), pf.length < fuel →
    ∃ next2, frontierLoop (fun _ => false) next pf acc fuel =
      some (none, acc, next2) := by
  intro fuel
  induction fuel with
  | zero =>
      intro pf next acc h
      omega
  | succ fuel ih =>
      intro pf next acc h
      rw [frontierLoop]
      dsimp only
      rw [if_neg (by intro hc; exact Bool.noConfusion hc)]
      cases pf with
      | nil =>
          rw [if_neg (by intro hc; exact Bool.noConfusion hc)]
          exact ⟨flat.parent next, rfl⟩
      | cons pn prest =>
          dsimp only
          by_cases hpn : pn.index = flat.sibling next
          · rw [if_pos hpn]
            exact ih prest (flat.parent next) acc
              (by simp only [List.length_cons] at h; omega)
          · rw [if_neg hpn, if_neg (by intro hc; exact Bool.noConfusion hc)]
            exact ⟨flat.parent next, rfl⟩

theorem putBuffer_fresh (f : Feed) (i : Nat) (data : List Nat) (pf : ProofMsg)
    (fuel : Nat) (htb : f.treeBits = fun _ => false)
    (hfuel : pf.nodes.length < fuel) :
    putBuffer f i data pf fuel = verifyAndWrite f i data pf [] none := by
  obtain ⟨next2, hfl⟩ := frontierLoop_false fuel pf.nodes (2 * i) [] hfuel
  unfold putBuffer
  rw [htb, hfl]
  rfl

/-- Index condition for a sibling chain: each node carries the sibling
index of the current position, walking to the parent each step. -/
def SibChain : Nat → List Node → Prop
  | _, [] => True
  | j, nd :: rest => nd.index = flat.sibling j ∧ SibChain (flat.parent j) rest

/-- Pure image of the hash climb: combine the top with each listed
sibling in order. -/
def climbFold : Node → List Node → Node
  | top, [] => top
  | top, sib :: rest =>
      climbFold
        ⟨flat.parent top.index, hashParent top sib, top.size + sib.size⟩ rest

theorem climbFold_append (l1 : List Node) : ∀ (top : Node) (l2 : List Node),
    climbFold top (l1 ++ l2) = climbFold (climbFold top l1) l2 := by
  induction l1 with
  | nil => intro top l2; rfl
  | cons sib rest ih =>
      intro top l2
      show climbFold _ (rest ++ l2) = _
      rw [ih]
      rfl

theorem climb_consume : ∀ (seg : List Node) (top : Node)
    (others vis : List Node), SibChain top.index seg →
    ∃ vis2, climbLoop none top (seg ++ others) [] vis =
      climbLoop none (climbFold top seg) others [] vis2 := by
  intro seg
  induction seg with
  | nil => intro top others vis _; exact ⟨vis, rfl⟩
  | cons sib rest ih =>
      intro top others vis hsc
      rw [List.cons_append]
      rw [climbLoop_cons_nil]
      rw [if_pos hsc.1]
      rw [if_neg (by intro hc; exact Bool.noConfusion hc)]
      have hidx : (⟨flat.parent top.index, hashParent top sib,
          top.size + sib.size⟩ : Node).index = flat.parent top.index := rfl
      obtain ⟨vis2, hv⟩ := ih
        ⟨flat.parent top.index, hashParent top sib, top.size + sib.size⟩
        others (vis ++ [sib, top]) (by rw [hidx]; exact hsc.2)
      exact ⟨vis2, hv⟩

theorem climb_exit (C : Node) (others vis : List Node)
    (hmis : ∀ o1 orest, others = o1 :: orest →
      o1.index ≠ flat.sibling C.index) :
    climbLoop none C others [] vis = ClimbResult.roots C vis others := by
  cases others with
  | nil => exact climbLoop_nil_nil none C vis
  | cons o1 orest =>
      rw [climbLoop_cons_nil, if_neg (hmis o1 orest rfl)]

theorem semNode_do_index (bs : List (List Nat)) (j : Nat) :
    (semNode bs (flat.depth j) (flat.offset j)).index = j := by
  show flat.idx (flat.depth j) (flat.offset j) = j
  exact flat.idx_depth_offset j

theorem parent_idx_div (i k : Nat) :
    flat.parent (flat.idx k (i / 2 ^ k)) = flat.idx (k + 1) (i / 2 ^ (k + 1)) := by
  rw [flat.parent_idx]
  congr 1
  rw [Nat.div_div_eq_div_mul, ← pow_succ]

theorem pathSeg_shift (i e k : Nat) :
    (List.range e).map
        (fun m => flat.sibling (flat.idx (k + (m + 1)) (i / 2 ^ (k + (m + 1))))) =
      (List.range e).map
        (fun m => flat.sibling (flat.idx (k + 1 + m) (i / 2 ^ (k + 1 + m)))) := by
  apply List.map_congr_left
  intro m _
  have h : k + (m + 1) = k + 1 + m := by omega
  rw [h]

theorem pathSeg_succ (i e k : Nat) :
    (List.range (e + 1)).map
        (fun m => flat.sibling (flat.idx (k + m) (i / 2 ^ (k + m)))) =
      flat.sibling (flat.idx k (i / 2 ^ k)) ::
        (List.range e).map
          (fun m => flat.sibling (flat.idx (k + 1 + m) (i / 2 ^ (k + 1 + m)))) := by
  rw [List.range_succ_eq_map, List.map_cons, List.map_map]
  congr 1
  rw [show (fun m => flat.sibling (flat.idx (k + m) (i / 2 ^ (k + m)))) ∘
      Nat.succ =
    (fun m => flat.sibling (flat.idx (k + (m + 1)) (i / 2 ^ (k + (m + 1)))))
    from rfl]
  exact pathSeg_shift i e k

theorem sibChain_pathSibs (bs : List (List Nat)) (i : Nat) :
    ∀ (e k : Nat),
    SibChain (flat.idx k (i / 2 ^ k))
      (((List.range e).map
        (fun m => flat.sibling (flat.idx (k + m) (i / 2 ^ (k + m))))).map
        (fun j => semNode bs (flat.depth j) (flat.offset j))) := by
  intro e
  induction e with
  | zero => intro k; trivial
  | succ e ih =>
      intro k
      rw [pathSeg_succ, List.map_cons]
      refine ⟨?_, ?_⟩
      · rw [semNode_do_index]
      · rw [parent_idx_div]
        exact ih (k + 1)

theorem climb_step_sem (bs : List (List Nat)) (k o : Nat) :
    (⟨flat.parent (flat.idx k o),
      hashParent (semNode bs k o)
        (semNode bs k (if o % 2 = 0 then o + 1 else o - 1)),
      (semNode bs k o).size +
        (semNode bs k (if o % 2 = 0 then o + 1 else o - 1)).size⟩ : Node) =
      semNode bs (k + 1) (o / 2) := by
  by_cases ho : o % 2 = 0
  · obtain ⟨q, hq⟩ : ∃ q, o = 2 * q := ⟨o / 2, by omega⟩
    subst hq
    rw [if_pos ho]
    rw [show 2 * q / 2 = q from by omega]
    have hidx : flat.parent (flat.idx k (2 * q)) = flat.idx (k + 1) q := by
      rw [flat.parent_idx]
      congr 1
      omega
    show (⟨flat.parent (flat.idx k (2 * q)),
      hashParent (semNode bs k (2 * q)) (semNode bs k (2 * q + 1)),
      semSize bs k (2 * q) + semSize bs k (2 * q + 1)⟩ : Node) = _
    rw [hidx, hashParent_children bs k q]
    rfl
  · obtain ⟨q, hq⟩ : ∃ q, o = 2 * q + 1 := ⟨o / 2, by omega⟩
    subst hq
    rw [if_neg ho]
    rw [show (2 * q + 1) / 2 = q from by omega]
    rw [show 2 * q + 1 - 1 = 2 * q from by omega]
    have hidx : flat.parent (flat.idx k (2 * q + 1)) = flat.idx (k + 1) q := by
      rw [flat.parent_idx]
      congr 1
      omega
    show (⟨flat.parent (flat.idx k (2 * q + 1)),
      hashParent (semNode bs k (2 * q + 1)) (semNode bs k (2 * q)),
      semSize bs k (2 * q + 1) + semSize bs k (2 * q)⟩ : Node) = _
    rw [hidx, hashParent_children_rev bs k q,
      Nat.add_comm (semSize bs k (2 * q + 1)) (semSize bs k (2 * q))]
    rfl

theorem climbFold_sem (bs : List (List Nat)) (i : Nat) :
    ∀ (e k : Nat),
    climbFold (semNode bs k (i / 2 ^ k))
      (((List.range e).map
        (fun m => flat.sibling (flat.idx (k + m) (i / 2 ^ (k + m))))).map
        (fun j => semNode bs (flat.depth j) (flat.offset j))) =
      semNode bs (k + e) (i / 2 ^ (k + e)) := by
  intro e
  induction e with
  | zero => intro k; rfl
  | succ e ih =>
      intro k
      rw [pathSeg_succ, List.map_cons]
      have hsib : flat.sibling (flat.idx k (i / 2 ^ k)) =
          flat.idx k (if (i / 2 ^ k) % 2 = 0 then i / 2 ^ k + 1
            else i / 2 ^ k - 1) := flat.sibling_idx k (i / 2 ^ k)
      show climbFold
        ⟨flat.parent (semNode bs k (i / 2 ^ k)).index,
          hashParent (semNode bs k (i / 2 ^ k))
            (semNode bs (flat.depth (flat.sibling (flat.idx k (i / 2 ^ k))))
              (flat.offset (flat.sibling (flat.idx k (i / 2 ^ k))))),
          (semNode bs k (i / 2 ^ k)).size +
            (semNode bs (flat.depth (flat.sibling (flat.idx k (i / 2 ^ k))))
              (flat.offset (flat.sibling (flat.idx k (i / 2 ^ k))))).size⟩
        _ = _
      rw [hsib, flat.depth_idx, flat.offset_idx]
      rw [show (semNode bs k (i / 2 ^ k)).index = flat.idx k (i / 2 ^ k)
        from rfl]
      rw [climb_step_sem bs k (i / 2 ^ k)]
      rw [show i / 2 ^ k / 2 = i / 2 ^ (k + 1) from by
        rw [Nat.div_div_eq_div_mul, ← pow_succ]]
      have := ih (k + 1)
      rw [show k + (e + 1) = k + 1 + e from by omega]
      exact this

theorem rootIdx_eq_idx (p : Nat × Nat) (hdvd : (2 : Nat) ^ p.2 ∣ p.1) :
    flat.idx p.2 (p.1 / 2 ^ p.2) = 2 * p.1 + 2 ^ p.2 - 1 := by
  unfold flat.idx
  have hc : p.1 / 2 ^ p.2 * 2 ^ p.2 = p.1 := Nat.div_mul_cancel hdvd
  have hexp : (2 * (p.1 / 2 ^ p.2) + 1) * 2 ^ p.2 =
      2 * (p.1 / 2 ^ p.2 * 2 ^ p.2) + 2 ^ p.2 := by ring
  rw [hexp, hc]

theorem canon_split_at (n : Nat) (c : Nat × Nat)
    (hmem : c ∈ flat.canon n 0) :
    ∃ A B, flat.canon n 0 = A ++ c :: B ∧
      (∀ p ∈ A, c.2 < p.2) ∧ (∀ p ∈ B, p.2 < c.2) := by
  obtain ⟨A, B, hAB⟩ := List.append_of_mem hmem
  refine ⟨A, B, hAB, ?_, ?_⟩
  all_goals
    have hchain := flat.canon_chain n 0
    rw [hAB] at hchain
    haveI : IsTrans (Nat × Nat) (fun p q : Nat × Nat => q.2 < p.2) :=
      ⟨fun _ _ _ hab hbc => lt_trans hbc hab⟩
    have hpw := List.chain'_iff_pairwise.mp hchain
    rw [List.pairwise_append] at hpw
  · intro p hp
    exact hpw.2.2 p hp c (List.mem_cons_self c B)
  · intro p hp
    exact (List.pairwise_cons.mp hpw.2.1).1 p hp

theorem map_index_sem (bs : List (List Nat)) (l : List Nat) :
    ((l.map (fun j => semNode bs (flat.depth j) (flat.offset j))).map
      Node.index) = l := by
  rw [List.map_map]
  have h : (Node.index ∘ fun j => semNode bs (flat.depth j) (flat.offset j)) =
      fun j => (semNode bs (flat.depth j) (flat.offset j)).index := rfl
  rw [h]
  have h2 : (fun j => (semNode bs (flat.depth j) (flat.offset j)).index) =
      fun j => j := by
    funext j
    exact semNode_do_index bs j
  rw [h2]
  exact List.map_id l

theorem span_root (p : Nat × Nat) (hdvd : (2 : Nat) ^ p.2 ∣ p.1) :
    flat.rightSpan (flat.idx p.2 (p.1 / 2 ^ p.2)) = 2 * (p.1 + 2 ^ p.2) - 2 := by
  rw [flat.rightSpan_idx]
  obtain ⟨a, ha⟩ := hdvd
  have hdiv : p.1 / 2 ^ p.2 = a := by
    rw [ha]
    exact Nat.mul_div_cancel_left a (pow_pos (by omega) _)
  rw [hdiv]
  have hexp : (a + 1) * 2 ^ (p.2 + 1) = 2 * (2 ^ p.2 * a + 2 ^ p.2) := by
    rw [pow_succ]
    ring
  rw [hexp, ha]

theorem canon_last_end (n : Nat) (hn : 0 < n) :
    ∃ C g, flat.canon n 0 = C ++ [g] ∧ g.1 + 2 ^ g.2 = n := by
  have hne : flat.canon n 0 ≠ [] := by
    intro hc
    have := flat.canon_sumPows n 0
    rw [hc, flat.sumPows_nil] at this
    omega
  obtain ⟨C, g, hCg⟩ := List.eq_nil_or_concat (flat.canon n 0) |>.resolve_left hne
  rw [List.concat_eq_append] at hCg
  refine ⟨C, g, hCg, ?_⟩
  have hcontig := flat.canon_contig n 0
  rw [hCg] at hcontig
  have hstart : g.1 = 0 + flat.sumPows C :=
    flat.contig_sum_split C 0 g [] hcontig
  have hsum := flat.canon_sumPows n 0
  rw [hCg, flat.sumPows_append, flat.sumPows_cons, flat.sumPows_nil] at hsum
  omega

theorem collect_post (top : Node) (tget : Nat → Bool)
    (store : Nat → Option Node) :
    ∀ (nodes2 : List Node), top.index ∉ nodes2.map Node.index →
    collectRoots top tget store (nodes2.map Node.index) nodes2 =
      Except.ok (nodes2, nodes2) := by
  intro nodes2
  induction nodes2 with
  | nil => intro _; rfl
  | cons nd rest ih =>
      intro hnot
      rw [List.map_cons]
      simp only [collectRoots]
      rw [if_neg (by
        intro hc
        exact hnot (by rw [← hc]; exact List.mem_cons_self _ _))]
      rw [ih (by intro hc; exact hnot (List.mem_cons_of_mem _ hc))]
      rw [if_pos trivial]

theorem collect_main (top : Node) (tget : Nat → Bool)
    (store : Nat → Option Node) :
    ∀ (nodes1 nodes2 : List Node),
    top.index ∉ nodes1.map Node.index → top.index ∉ nodes2.map Node.index →
    collectRoots top tget store
      (nodes1.map Node.index ++ top.index :: nodes2.map Node.index)
      (nodes1 ++ nodes2) =
      Except.ok (nodes1 ++ top :: nodes2, nodes1 ++ top :: nodes2) := by
  intro nodes1
  induction nodes1 with
  | nil =>
      intro nodes2 _ h2
      rw [List.map_nil, List.nil_append, List.nil_append]
      simp only [collectRoots]
      rw [collect_post top tget store nodes2 h2]
      rw [if_pos trivial]
      rfl
  | cons nd rest ih =>
      intro nodes2 h1 h2
      rw [List.map_cons, List.cons_append, List.cons_append]
      simp only [collectRoots]
      rw [if_neg (by
        intro hc
        exact h1 (by rw [← hc]; exact List.mem_cons_self _ _))]
      rw [ih nodes2 (by intro hc; exact h1 (List.mem_cons_of_mem _ hc)) h2]
      rw [if_pos trivial]
      rfl

theorem put_reader_eval (s i n : Nat) (data : List Nat) (M : Hash)
    (seg nodes1 nodes2 : List Node) (fuel : Nat)
    (hfuel : (seg ++ (nodes1 ++ nodes2)).length < fuel)
    (hsc : SibChain (2 * i) seg)
    (hmis : ∀ o1 orest, nodes1 ++ nodes2 = o1 :: orest →
      o1.index ≠ flat.sibling
        ((climbFold ⟨2 * i, hashData data, data.length⟩ seg).index))
    (hvb : max (flat.rightSpan
        ((climbFold ⟨2 * i, hashData data, data.length⟩ seg).index))
        (flat.rightSpan (((nodes1 ++ nodes2).getLastD
          (climbFold ⟨2 * i, hashData data, data.length⟩ seg)).index)) + 2 =
      2 * n)
    (hfr : flat.fullRoots (2 * n) =
      nodes1.map Node.index ++
        (climbFold ⟨2 * i, hashData data, data.length⟩ seg).index ::
          nodes2.map Node.index)
    (h1 : (climbFold ⟨2 * i, hashData data, data.length⟩ seg).index ∉
      nodes1.map Node.index)
    (h2 : (climbFold ⟨2 * i, hashData data, data.length⟩ seg).index ∉
      nodes2.map Node.index) :
    (M = hashTree (nodes1 ++
        climbFold ⟨2 * i, hashData data, data.length⟩ seg :: nodes2) →
      ∃ g, putBuffer (readerFeed s) i data
        ⟨seg ++ (nodes1 ++ nodes2), some (sign s M)⟩ fuel = Except.ok g) ∧
    (M ≠ hashTree (nodes1 ++
        climbFold ⟨2 * i, hashData data, data.length⟩ seg :: nodes2) →
      putBuffer (readerFeed s) i data
        ⟨seg ++ (nodes1 ++ nodes2), some (sign s M)⟩ fuel =
        Except.error Err.remoteBadSignature) := by
  have hred := putBuffer_fresh (readerFeed s) i data
    ⟨seg ++ (nodes1 ++ nodes2), some (sign s M)⟩ fuel rfl hfuel
  obtain ⟨vis2, hclimb⟩ := climb_consume seg
    ⟨2 * i, hashData data, data.length⟩ (nodes1 ++ nodes2) [] hsc
  have hexit := climb_exit (climbFold ⟨2 * i, hashData data, data.length⟩ seg)
    (nodes1 ++ nodes2) vis2 hmis
  have hvaw : putBuffer (readerFeed s) i data
      ⟨seg ++ (nodes1 ++ nodes2), some (sign s M)⟩ fuel =
      verifyRoots (readerFeed s) i data
        (climbFold ⟨2 * i, hashData data, data.length⟩ seg)
        (some (sign s M)) (nodes1 ++ nodes2) vis2 := by
    rw [hred]
    unfold verifyAndWrite
    rw [if_neg (by intro hc; exact Bool.noConfusion hc)]
    dsimp only
    rw [hclimb, hexit]
  rw [hvaw]
  unfold verifyRoots
  dsimp only
  rw [hvb, hfr]
  rw [collect_main _ _ _ nodes1 nodes2 h1 h2]
  dsimp only
  rw [if_neg (by intro hc; exact Option.noConfusion hc.2.2)]
  rw [show (readerFeed s).key = some (KeyV.pub s) from rfl]
  dsimp only
  show _ ∧ _
  constructor
  · intro hM
    rw [if_pos (by
      show verifySig (sign s M) _ (KeyV.pub s) = true
      unfold verifySig sign
      dsimp only
      rw [← hM]
      simp)]
    exact ⟨_, rfl⟩
  · intro hM
    rw [if_neg (by
      show ¬(verifySig (sign s M) _ (KeyV.pub s) = true)
      unfold verifySig sign
      dsimp only
      intro hc
      rw [Bool.and_eq_true] at hc
      exact hM (eq_of_beq hc.2))]

theorem node_eq (a b : Node) (h1 : a.index = b.index) (h2 : a.hash = b.hash)
    (h3 : a.size = b.size) : a = b := by
  cases a
  cases b
  simp_all

theorem hashTree_inj : ∀ (l1 l2 : List Node),
    hashTree l1 = hashTree l2 → l1 = l2 := by
  intro l1
  induction l1 with
  | nil =>
      intro l2 h
      cases l2 with
      | nil => rfl
      | cons b t =>
          exact absurd (h : Hash.rootsNil = Hash.rootsCons _ _ _ _)
            (by intro hc; exact Hash.noConfusion hc)
  | cons a r ih =>
      intro l2 h
      cases l2 with
      | nil =>
          exact absurd (h : Hash.rootsCons _ _ _ _ = Hash.rootsNil)
            (by intro hc; exact Hash.noConfusion hc)
      | cons b t =>
          have h2 : Hash.rootsCons a.index a.hash a.size (hashTree r) =
              Hash.rootsCons b.index b.hash b.size (hashTree t) := h
          injection h2 with e1 e2 e3 e4
          rw [node_eq a b e1 e2 e3, ih t e4]

theorem hashTree_ne_at (l1 : List Node) (a b : Node) (l2 : List Node)
    (hne : a ≠ b) : hashTree (l1 ++ a :: l2) ≠ hashTree (l1 ++ b :: l2) := by
  intro hc
  have := hashTree_inj _ _ hc
  have h2 := List.append_inj_right this rfl
  exact hne (List.head_eq_of_cons_eq h2)

theorem climbFold_index_congr : ∀ (l1 l2 : List Node) (t1 t2 : Node),
    t1.index = t2.index → l1.map Node.index = l2.map Node.index →
    (climbFold t1 l1).index = (climbFold t2 l2).index := by
  intro l1
  induction l1 with
  | nil =>
      intro l2 t1 t2 h1 hm
      cases l2 with
      | nil => exact h1
      | cons b t => exact absurd hm (by simp)
  | cons a r ih =>
      intro l2 t1 t2 h1 hm
      cases l2 with
      | nil => exact absurd hm (by simp)
      | cons b t =>
          simp only [List.map_cons, List.cons.injEq] at hm
          show (climbFold ⟨flat.parent t1.index, _, _⟩ r).index = _
          exact ih t _ _ (by show flat.parent t1.index = flat.parent t2.index
                             rw [h1]) hm.2

theorem sibChain_congr : ∀ (l1 l2 : List Node) (j : Nat),
    l1.map Node.index = l2.map Node.index → SibChain j l1 → SibChain j l2 := by
  intro l1
  induction l1 with
  | nil =>
      intro l2 j hm _
      cases l2 with
      | nil => trivial
      | cons b t => exact absurd hm (by simp)
  | cons a r ih =>
      intro l2 j hm hsc
      cases l2 with
      | nil => exact absurd hm (by simp)
      | cons b t =>
          simp only [List.map_cons, List.cons.injEq] at hm
          exact ⟨by rw [← hm.1]; exact hsc.1, ih t _ hm.2 hsc.2⟩

theorem getLastD_index_congr : ∀ (l1 l2 : List Node) (d1 d2 : Node),
    l1.map Node.index = l2.map Node.index → d1.index = d2.index →
    (l1.getLastD d1).index = (l2.getLastD d2).index := by
  intro l1
  induction l1 with
  | nil =>
      intro l2 d1 d2 hm hd
      cases l2 with
      | nil => exact hd
      | cons b t => exact absurd hm (by simp)
  | cons a r ih =>
      intro l2 d1 d2 hm hd
      cases l2 with
      | nil => exact absurd hm (by simp)
      | cons b t =>
          rw [List.getLastD_cons, List.getLastD_cons]
          simp only [List.map_cons, List.cons.injEq] at hm
          exact ih t a b hm.2 hm.1

theorem climbFold_inj : ∀ (segA segB : List Node) (tA tB : Node),
    tA.index = tB.index → segA.map Node.index = segB.map Node.index →
    climbFold tA segA = climbFold tB segB →
    tA.hash = tB.hash ∧ (tA.size = tB.size → segA = segB ∧ tA = tB) := by
  intro segA
  induction segA with
  | nil =>
      intro segB tA tB hidx hm h
      cases segB with
      | nil =>
          have h2 : tA = tB := h
          exact ⟨by rw [h2], fun _ => ⟨rfl, h2⟩⟩
      | cons b t => exact absurd hm (by simp)
  | cons a r ih =>
      intro segB tA tB hidx hm h
      cases segB with
      | nil => exact absurd hm (by simp)
      | cons b t =>
          simp only [List.map_cons, List.cons.injEq] at hm
          have hstep := ih t
            ⟨flat.parent tA.index, hashParent tA a, tA.size + a.size⟩
            ⟨flat.parent tB.index, hashParent tB b, tB.size + b.size⟩
            (by show flat.parent tA.index = flat.parent tB.index; rw [hidx])
            hm.2 h
          have hhp : hashParent tA a = hashParent tB b := hstep.1
          unfold hashParent at hhp
          by_cases hord : tA.index ≤ a.index
          · rw [if_pos hord, if_pos (by rw [← hidx, ← hm.1]; exact hord)]
              at hhp
            injection hhp with e1 e2 e3
            refine ⟨e2, ?_⟩
            intro hsz
            have hasz : a.size = b.size := by omega
            have hab : a = b := node_eq a b hm.1 e3 hasz
            have hstepsz := hstep.2 (by
              show tA.size + a.size = tB.size + b.size
              omega)
            refine ⟨?_, node_eq tA tB hidx e2 hsz⟩
            rw [hab, hstepsz.1]
          · rw [if_neg hord, if_neg (by rw [← hidx, ← hm.1]; exact hord)]
              at hhp
            injection hhp with e1 e2 e3
            refine ⟨e3, ?_⟩
            intro hsz
            have hasz : a.size = b.size := by omega
            have hab : a = b := node_eq a b hm.1 e2 hasz
            have hstepsz := hstep.2 (by
              show tA.size + a.size = tB.size + b.size
              omega)
            refine ⟨?_, node_eq tA tB hidx e3 hsz⟩
            rw [hab, hstepsz.1]

theorem rt_ne (p c : Nat × Nat) (hp : (2 : Nat) ^ p.2 ∣ p.1)
    (hc : (2 : Nat) ^ c.2 ∣ c.1) (hne : p.2 ≠ c.2) :
    2 * p.1 + 2 ^ p.2 - 1 ≠ 2 * c.1 + 2 ^ c.2 - 1 := by
  intro h
  rw [← rootIdx_eq_idx p hp, ← rootIdx_eq_idx c hc] at h
  exact hne (flat.idx_inj h).1

theorem map_Fsem_rt (bs : List (List Nat)) (l : List (Nat × Nat))
    (hdvd : ∀ p ∈ l, (2 : Nat) ^ p.2 ∣ p.1) :
    ((l.map (fun p => 2 * p.1 + 2 ^ p.2 - 1)).map
      (fun j => semNode bs (flat.depth j) (flat.offset j))) =
      l.map (semP bs) := by
  rw [List.map_map]
  apply List.map_congr_left
  intro p hp
  show semNode bs (flat.depth (2 * p.1 + 2 ^ p.2 - 1))
    (flat.offset (2 * p.1 + 2 ^ p.2 - 1)) = semP bs p
  rw [← rootIdx_eq_idx p (hdvd p hp), flat.depth_idx, flat.offset_idx]
  rfl

theorem filter_roots (A B : List (Nat × Nat)) (c : Nat × Nat)
    (hA : ∀ p ∈ A, (2 : Nat) ^ p.2 ∣ p.1 ∧ p.2 ≠ c.2)
    (hB : ∀ p ∈ B, (2 : Nat) ^ p.2 ∣ p.1 ∧ p.2 ≠ c.2)
    (hc : (2 : Nat) ^ c.2 ∣ c.1) :
    ((A.map (fun p : Nat × Nat => 2 * p.1 + 2 ^ p.2 - 1) ++
        (2 * c.1 + 2 ^ c.2 - 1) ::
          B.map (fun p : Nat × Nat => 2 * p.1 + 2 ^ p.2 - 1)).filter
      (fun r => r ≠ 2 * c.1 + 2 ^ c.2 - 1)) =
      A.map (fun p => 2 * p.1 + 2 ^ p.2 - 1) ++
        B.map (fun p => 2 * p.1 + 2 ^ p.2 - 1) := by
  rw [List.filter_append, List.filter_cons]
  rw [if_neg (by simp)]
  congr 1
  · apply List.filter_eq_self.mpr
    intro x hx
    obtain ⟨p, hpmem, hpe⟩ := List.mem_map.mp hx
    rw [← hpe]
    exact decide_eq_true (rt_ne p c (hA p hpmem).1 hc (hA p hpmem).2)
  · apply List.filter_eq_self.mpr
    intro x hx
    obtain ⟨p, hpmem, hpe⟩ := List.mem_map.mp hx
    rw [← hpe]
    exact decide_eq_true (rt_ne p c (hB p hpmem).1 hc (hB p hpmem).2)

theorem span_rt_le (n : Nat) (p : Nat × Nat) (hdvd : (2 : Nat) ^ p.2 ∣ p.1)
    (hend : p.1 + 2 ^ p.2 ≤ n) :
    flat.rightSpan (2 * p.1 + 2 ^ p.2 - 1) ≤ 2 * n - 2 := by
  rw [← rootIdx_eq_idx p hdvd, span_root p hdvd]
  omega

theorem canon_g_eq (n : Nat) (A B : List (Nat × Nat)) (c g : Nat × Nat)
    (Ci : List (Nat × Nat)) (hAB : flat.canon n 0 = A ++ c :: B)
    (hCg : flat.canon n 0 = Ci ++ [g]) (hBnil : B = []) : c = g := by
  rw [hBnil] at hAB
  have h1 : (flat.canon n 0).getLast? = some c := by
    rw [hAB]
    exact List.getLast?_concat _
  have h2 : (flat.canon n 0).getLast? = some g := by
    rw [hCg]
    exact List.getLast?_concat _
  rw [h1] at h2
  exact Option.some.inj h2

theorem canon_g_eq2 (n : Nat) (A B2 : List (Nat × Nat)) (c g gb : Nat × Nat)
    (Ci : List (Nat × Nat)) (hAB : flat.canon n 0 = A ++ c :: (B2 ++ [gb]))
    (hCg : flat.canon n 0 = Ci ++ [g]) : gb = g := by
  have h1 : (flat.canon n 0).getLast? = some gb := by
    rw [hAB, show A ++ c :: (B2 ++ [gb]) = (A ++ c :: B2) ++ [gb] from by simp]
    exact List.getLast?_concat _
  have h2 : (flat.canon n 0).getLast? = some g := by
    rw [hCg]
    exact List.getLast?_concat _
  rw [h1] at h2
  exact Option.some.inj h2

theorem verifiedBy_sem (n c1 ce : Nat) (A B : List (Nat × Nat))
    (hn : 0 < n) (hAB : flat.canon n 0 = A ++ (c1, ce) :: B)
    (X : Node) (nodes1 nodes2 : List Node)
    (hX : X.index = 2 * c1 + 2 ^ ce - 1)
    (hm1 : nodes1.map Node.index = A.map (fun p => 2 * p.1 + 2 ^ p.2 - 1))
    (hm2 : nodes2.map Node.index = B.map (fun p => 2 * p.1 + 2 ^ p.2 - 1)) :
    max (flat.rightSpan X.index)
      (flat.rightSpan (((nodes1 ++ nodes2).getLastD X).index)) + 2 = 2 * n := by
  have hcmem : (c1, ce) ∈ flat.canon n 0 := by
    rw [hAB]
    exact List.mem_append.mpr (Or.inr (List.mem_cons_self _ _))
  have hcdvd : (2 : Nat) ^ ce ∣ c1 := flat.canon_align_zero n _ hcmem
  have hcend : c1 + 2 ^ ce ≤ n := canon_cover n _ hcmem
  have hXspan : flat.rightSpan X.index ≤ 2 * n - 2 := by
    rw [hX]
    exact span_rt_le n (c1, ce) hcdvd hcend
  have hmemspan : ∀ p ∈ flat.canon n 0,
      flat.rightSpan (2 * p.1 + 2 ^ p.2 - 1) ≤ 2 * n - 2 := fun p hp =>
    span_rt_le n p (flat.canon_align_zero n p hp) (canon_cover n p hp)
  have hlast_le : flat.rightSpan (((nodes1 ++ nodes2).getLastD X).index) ≤
      2 * n - 2 := by
    cases getLastD_mem (nodes1 ++ nodes2) X with
    | inl hmem =>
        have hidxmem : ((nodes1 ++ nodes2).getLastD X).index ∈
            (nodes1 ++ nodes2).map Node.index :=
          List.mem_map_of_mem Node.index hmem
        rw [List.map_append, hm1, hm2] at hidxmem
        cases List.mem_append.mp hidxmem with
        | inl h =>
            obtain ⟨p, hpm, hpe⟩ := List.mem_map.mp h
            rw [← hpe]
            exact hmemspan p (by rw [hAB]; exact List.mem_append_left _ hpm)
        | inr h =>
            obtain ⟨p, hpm, hpe⟩ := List.mem_map.mp h
            rw [← hpe]
            exact hmemspan p (by
              rw [hAB]
              exact List.mem_append_right _ (List.mem_cons_of_mem _ hpm))
    | inr heq =>
        rw [heq]
        exact hXspan
  obtain ⟨Ci, g, hCg, hgend⟩ := canon_last_end n hn
  have h2n : 2 ≤ 2 * n := by omega
  rcases List.eq_nil_or_concat B with hBnil | ⟨B2, gb, hB2⟩
  · have hcg : (c1, ce) = g := canon_g_eq n A B (c1, ce) g Ci hAB hCg hBnil
    have hXfull : flat.rightSpan X.index = 2 * n - 2 := by
      rw [hX]
      rw [← rootIdx_eq_idx (c1, ce) hcdvd, span_root (c1, ce) hcdvd]
      have : (c1, ce).1 + 2 ^ (c1, ce).2 = n := by
        rw [hcg]
        exact hgend
      omega
    omega
  · rw [List.concat_eq_append] at hB2
    have hgb : gb = g := canon_g_eq2 n A B2 (c1, ce) g gb Ci
      (by rw [← hB2]; exact hAB) hCg
    have hgbmem : gb ∈ flat.canon n 0 := by
      rw [hAB, hB2]
      exact List.mem_append_right _ (List.mem_cons_of_mem _
        (List.mem_append_right _ (List.mem_cons_self _ _)))
    have hlast_eq : (((nodes1 ++ nodes2).getLastD X).index) =
        2 * gb.1 + 2 ^ gb.2 - 1 := by
      have hnodes2ne : nodes2 ≠ [] := by
        intro hc
        rw [hc] at hm2
        rw [hB2] at hm2
        simp at hm2
      obtain ⟨n2i, lastn, hsplit⟩ := List.eq_nil_or_concat nodes2
        |>.resolve_left hnodes2ne
      rw [List.concat_eq_append] at hsplit
      have hfull : nodes1 ++ nodes2 = (nodes1 ++ n2i) ++ [lastn] := by
        rw [hsplit]
        simp
      rw [hfull, List.getLastD_concat]
      have hlidx : lastn.index = 2 * gb.1 + 2 ^ gb.2 - 1 := by
        have := hm2
        rw [hsplit, hB2] at this
        simp only [List.map_append, List.map_cons, List.map_nil] at this
        have hlen : (n2i.map Node.index).length = (B2.map
            (fun p => 2 * p.1 + 2 ^ p.2 - 1)).length := by
          have hl := congrArg List.length this
          simp only [List.length_append, List.length_map,
            List.length_cons, List.length_nil] at hl ⊢
          omega
        have := List.append_inj_right this (by
          simpa using hlen)
        exact List.head_eq_of_cons_eq this
      rw [hlidx]
    rw [hlast_eq]
    have hgbspan : flat.rightSpan (2 * gb.1 + 2 ^ gb.2 - 1) = 2 * n - 2 := by
      have hgbdvd := flat.canon_align_zero n gb hgbmem
      rw [← rootIdx_eq_idx gb hgbdvd, span_root gb hgbdvd]
      have : gb.1 + 2 ^ gb.2 = n := by rw [hgb]; exact hgend
      omega
    rw [hgbspan]
    omega

theorem canon_split_exps (n : Nat) (A B : List (Nat × Nat)) (c : Nat × Nat)
    (hAB : flat.canon n 0 = A ++ c :: B) :
    (∀ p ∈ A, c.2 < p.2) ∧ (∀ p ∈ B, p.2 < c.2) := by
  have hchain := flat.canon_chain n 0
  rw [hAB] at hchain
  haveI : IsTrans (Nat × Nat) (fun p q : Nat × Nat => q.2 < p.2) :=
    ⟨fun _ _ _ hab hbc => lt_trans hbc hab⟩
  have hpw := List.chain'_iff_pairwise.mp hchain
  rw [List.pairwise_append] at hpw
  exact ⟨fun p hp => hpw.2.2 p hp c (List.mem_cons_self c B),
    fun p hp => (List.pairwise_cons.mp hpw.2.1).1 p hp⟩

theorem others_head_ne (n c1 ce : Nat) (A B : List (Nat × Nat))
    (hAB : flat.canon n 0 = A ++ (c1, ce) :: B) (X : Node)
    (hX : X.index = 2 * c1 + 2 ^ ce - 1) :
    ∀ j, (j ∈ A.map (fun p => 2 * p.1 + 2 ^ p.2 - 1) ∨
      j ∈ B.map (fun p => 2 * p.1 + 2 ^ p.2 - 1)) →
      j ≠ flat.sibling X.index := by
  have hcmem : (c1, ce) ∈ flat.canon n 0 := by
    rw [hAB]
    exact List.mem_append.mpr (Or.inr (List.mem_cons_self _ _))
  have hcdvd : (2 : Nat) ^ ce ∣ c1 := flat.canon_align_zero n _ hcmem
  have hexps := canon_split_exps n A B (c1, ce) hAB
  intro j hj
  have hsib : flat.sibling X.index =
      flat.idx ce (if c1 / 2 ^ ce % 2 = 0 then c1 / 2 ^ ce + 1
        else c1 / 2 ^ ce - 1) := by
    rw [hX, ← rootIdx_eq_idx (c1, ce) hcdvd]
    exact flat.sibling_idx ce _
  have hqmem : ∃ p, p ∈ flat.canon n 0 ∧ p.2 ≠ ce ∧
      j = 2 * p.1 + 2 ^ p.2 - 1 := by
    cases hj with
    | inl h =>
        obtain ⟨p, hpm, hpe⟩ := List.mem_map.mp h
        exact ⟨p, by rw [hAB]; exact List.mem_append_left _ hpm,
          by have := hexps.1 p hpm; omega, hpe.symm⟩
    | inr h =>
        obtain ⟨p, hpm, hpe⟩ := List.mem_map.mp h
        refine ⟨p, ?_, by have := hexps.2 p hpm; omega, hpe.symm⟩
        rw [hAB]
        exact List.mem_append_right _ (List.mem_cons_of_mem _ hpm)
  obtain ⟨p, hpm, hpne, hpj⟩ := hqmem
  intro hc
  rw [hpj, hsib, ← rootIdx_eq_idx p (flat.canon_align_zero n p hpm)] at hc
  exact hpne (flat.idx_inj hc).1

theorem map_semP_index (bs : List (List Nat)) (l : List (Nat × Nat))
    (hdvd : ∀ p ∈ l, (2 : Nat) ^ p.2 ∣ p.1) :
    ((l.map (semP bs)).map Node.index) =
      l.map (fun p => 2 * p.1 + 2 ^ p.2 - 1) := by
  rw [List.map_map]
  apply List.map_congr_left
  intro p hp
  show (semP bs p).index = _
  exact rootIdx_eq_idx p (hdvd p hp)

/-- Both directions of remote verification against the writer signature:
the honest proof message passes, and any message carrying the same node
indices but a different block or different node contents fails the
signature check. -/
theorem put_reader_both (s i n : Nat) (data : List Nat) (M : Hash)
    (seg nodes1 nodes2 : List Node)
    (hsc : SibChain (2 * i) seg)
    (hmis : ∀ o1 orest, nodes1 ++ nodes2 = o1 :: orest →
      o1.index ≠ flat.sibling
        ((climbFold ⟨2 * i, hashData data, data.length⟩ seg).index))
    (hvb : max (flat.rightSpan
        ((climbFold ⟨2 * i, hashData data, data.length⟩ seg).index))
        (flat.rightSpan (((nodes1 ++ nodes2).getLastD
          (climbFold ⟨2 * i, hashData data, data.length⟩ seg)).index)) + 2 =
      2 * n)
    (hfr : flat.fullRoots (2 * n) =
      nodes1.map Node.index ++
        (climbFold ⟨2 * i, hashData data, data.length⟩ seg).index ::
          nodes2.map Node.index)
    (h1 : (climbFold ⟨2 * i, hashData data, data.length⟩ seg).index ∉
      nodes1.map Node.index)
    (h2 : (climbFold ⟨2 * i, hashData data, data.length⟩ seg).index ∉
      nodes2.map Node.index)
    (hM : M = hashTree (nodes1 ++
      climbFold ⟨2 * i, hashData data, data.length⟩ seg :: nodes2)) :
    (∃ g, putBuffer (readerFeed s) i data
        ⟨seg ++ (nodes1 ++ nodes2), some (sign s M)⟩
        ((seg ++ (nodes1 ++ nodes2)).length + 1) = Except.ok g) ∧
    (∀ (data2 : List Nat) (tampered : List Node),
      tampered.map Node.index = (seg ++ (nodes1 ++ nodes2)).map Node.index →
      data2 ≠ data ∨ tampered ≠ seg ++ (nodes1 ++ nodes2) →
      putBuffer (readerFeed s) i data2 ⟨tampered, some (sign s M)⟩
        ((seg ++ (nodes1 ++ nodes2)).length + 1) =
        Except.error Err.remoteBadSignature) := by
  constructor
  · exact (put_reader_eval s i n data M seg nodes1 nodes2
      ((seg ++ (nodes1 ++ nodes2)).length + 1) (by omega)
      hsc hmis hvb hfr h1 h2).1 hM
  · intro data2 nodesT hidx hne
    have hsegm : (nodesT.take seg.length).map Node.index =
        seg.map Node.index := by
      rw [List.map_take, hidx, List.map_append]
      exact List.take_left' (by rw [List.length_map])
    have hdropm : (nodesT.drop seg.length).map Node.index =
        (nodes1 ++ nodes2).map Node.index := by
      rw [List.map_drop, hidx, List.map_append]
      exact List.drop_left' (by rw [List.length_map])
    have hn1m : ((nodesT.drop seg.length).take nodes1.length).map Node.index =
        nodes1.map Node.index := by
      rw [List.map_take, hdropm, List.map_append]
      exact List.take_left' (by rw [List.length_map])
    have hn2m : ((nodesT.drop seg.length).drop nodes1.length).map Node.index =
        nodes2.map Node.index := by
      rw [List.map_drop, hdropm, List.map_append]
      exact List.drop_left' (by rw [List.length_map])
    have hTeq : nodesT.take seg.length ++
        ((nodesT.drop seg.length).take nodes1.length ++
          (nodesT.drop seg.length).drop nodes1.length) = nodesT := by
      rw [List.take_append_drop, List.take_append_drop]
    have htopidx : (climbFold ⟨2 * i, hashData data2, data2.length⟩
        (nodesT.take seg.length)).index =
        (climbFold ⟨2 * i, hashData data, data.length⟩ seg).index :=
      climbFold_index_congr (nodesT.take seg.length) seg _ _ rfl hsegm
    have hsc2 : SibChain (2 * i) (nodesT.take seg.length) :=
      sibChain_congr seg (nodesT.take seg.length) (2 * i) hsegm.symm hsc
    have hmis2 : ∀ o1 orest,
        (nodesT.drop seg.length).take nodes1.length ++
          (nodesT.drop seg.length).drop nodes1.length = o1 :: orest →
        o1.index ≠ flat.sibling
          ((climbFold ⟨2 * i, hashData data2, data2.length⟩
            (nodesT.take seg.length)).index) := by
      intro o1 orest he
      have hmm := congrArg (List.map Node.index) he
      rw [List.map_append, hn1m, hn2m, ← List.map_append, List.map_cons] at hmm
      cases hcase : nodes1 ++ nodes2 with
      | nil =>
          rw [hcase] at hmm
          exact absurd hmm (by simp)
      | cons nd0 tl0 =>
          rw [hcase, List.map_cons] at hmm
          rw [htopidx, ← List.head_eq_of_cons_eq hmm]
          exact hmis nd0 tl0 hcase
    have hlast2 : (((nodesT.drop seg.length).take nodes1.length ++
        (nodesT.drop seg.length).drop nodes1.length).getLastD
          (climbFold ⟨2 * i, hashData data2, data2.length⟩
            (nodesT.take seg.length))).index =
        ((nodes1 ++ nodes2).getLastD
          (climbFold ⟨2 * i, hashData data, data.length⟩ seg)).index :=
      getLastD_index_congr _ (nodes1 ++ nodes2) _ _
        (by rw [List.map_append, hn1m, hn2m, ← List.map_append]) htopidx
    have hvb2 : max (flat.rightSpan
        ((climbFold ⟨2 * i, hashData data2, data2.length⟩
          (nodesT.take seg.length)).index))
        (flat.rightSpan ((((nodesT.drop seg.length).take nodes1.length ++
          (nodesT.drop seg.length).drop nodes1.length).getLastD
            (climbFold ⟨2 * i, hashData data2, data2.length⟩
              (nodesT.take seg.length))).index)) + 2 = 2 * n := by
      rw [htopidx, hlast2]
      exact hvb
    have hfr2 : flat.fullRoots (2 * n) =
        ((nodesT.drop seg.length).take nodes1.length).map Node.index ++
          (climbFold ⟨2 * i, hashData data2, data2.length⟩
            (nodesT.take seg.length)).index ::
            ((nodesT.drop seg.length).drop nodes1.length).map Node.index := by
      rw [htopidx, hn1m, hn2m]
      exact hfr
    have h1b : (climbFold ⟨2 * i, hashData data2, data2.length⟩
        (nodesT.take seg.length)).index ∉
        ((nodesT.drop seg.length).take nodes1.length).map Node.index := by
      rw [htopidx, hn1m]
      exact h1
    have h2b : (climbFold ⟨2 * i, hashData data2, data2.length⟩
        (nodesT.take seg.length)).index ∉
        ((nodesT.drop seg.length).drop nodes1.length).map Node.index := by
      rw [htopidx, hn2m]
      exact h2
    have hlenT : nodesT.length = (seg ++ (nodes1 ++ nodes2)).length := by
      have h := congrArg List.length hidx
      simp only [List.length_map] at h
      exact h
    have hfuel2 : (nodesT.take seg.length ++
        ((nodesT.drop seg.length).take nodes1.length ++
          (nodesT.drop seg.length).drop nodes1.length)).length <
        (seg ++ (nodes1 ++ nodes2)).length + 1 := by
      rw [hTeq, hlenT]
      omega
    have hMne : M ≠ hashTree
        ((nodesT.drop seg.length).take nodes1.length ++
          climbFold ⟨2 * i, hashData data2, data2.length⟩
            (nodesT.take seg.length) ::
          (nodesT.drop seg.length).drop nodes1.length) := by
      intro hMeq
      rw [hM] at hMeq
      have heq := hashTree_inj _ _ hMeq
      have hlen1 : nodes1.length =
          ((nodesT.drop seg.length).take nodes1.length).length := by
        have h := congrArg List.length hn1m
        simp only [List.length_map] at h
        omega
      obtain ⟨he1, he2⟩ := List.append_inj heq hlen1
      have htop_eq := List.head_eq_of_cons_eq he2
      have htail := List.tail_eq_of_cons_eq he2
      have hinj := climbFold_inj seg (nodesT.take seg.length)
        ⟨2 * i, hashData data, data.length⟩
        ⟨2 * i, hashData data2, data2.length⟩ rfl hsegm.symm htop_eq
      have hh : hashData data = hashData data2 := hinj.1
      have hdd : data.length = data2.length ∧ data = data2 := by
        unfold hashData at hh
        injection hh with e1 e2
        exact ⟨e1, e2⟩
      have hseg_eq := (hinj.2 (by
        show data.length = data2.length
        exact hdd.1)).1
      have hT : nodesT = seg ++ (nodes1 ++ nodes2) := by
        rw [← hTeq, ← hseg_eq, ← he1, ← htail]
      cases hne with
      | inl h => exact h hdd.2.symm
      | inr h => exact h hT
    rw [← hTeq]
    exact (put_reader_eval s i n data2 M (nodesT.take seg.length)
      ((nodesT.drop seg.length).take nodes1.length)
      ((nodesT.drop seg.length).drop nodes1.length)
      ((seg ++ (nodes1 ++ nodes2)).length + 1)
      hfuel2 hsc2 hmis2 hvb2 hfr2 h1b h2b).2 hMne

/-- C1: proof round-trip soundness.  Appending any block list to a
writer feed succeeds and stores each block; for every stored block the
proof produced by the writer for its index verifies against a fresh
reader holding only the public key (put accepts it), while any proof
message carrying the same node indices but a changed block or changed
proof-node contents, under the same signature, is rejected with the bad
remote signature error, mapped to the InvalidProof code; put returns
only the error, so the reader feed is left unchanged. -/
theorem C1_proof_roundtrip (s : Nat) (bs : List (List Nat)) (i : Nat)
    (hi : i < bs.length) :
    appendBatch (writerFeed s) idCodec bs = Except.ok (writerAfter s bs) ∧
    (writerAfter s bs).dataStore i = some (bs.getD i []) ∧
    ∃ pf, proofGen (writerAfter s bs) i = Except.ok pf ∧
      (∃ g, put (readerFeed s) idCodec i (bs.getD i []) pf
          (pf.nodes.length + 1) = Except.ok g) ∧
      (∀ (data2 : List Nat) (tampered : List Node),
        tampered.map Node.index = pf.nodes.map Node.index →
        data2 ≠ bs.getD i [] ∨ tampered ≠ pf.nodes →
        put (readerFeed s) idCodec i data2 ⟨tampered, pf.signature⟩
            (pf.nodes.length + 1) = Except.error Err.remoteBadSignature ∧
          errCode Err.remoteBadSignature = SpecCode.invalidProof) := by
  have hn : 0 < bs.length := by omega
  obtain ⟨⟨c1, ce⟩, hfc, hmem, hi1, hi2⟩ := findCover_canon bs.length i hi
  have hi1' : c1 ≤ i := hi1
  have hi2' : i < c1 + 2 ^ ce := hi2
  have hcdvd : (2 : Nat) ^ ce ∣ c1 := flat.canon_align_zero bs.length _ hmem
  obtain ⟨A, B, hAB, hexA, hexB⟩ := canon_split_at bs.length (c1, ce) hmem
  have hcanA : ∀ p ∈ A, p ∈ flat.canon bs.length 0 := fun p hp => by
    rw [hAB]
    exact List.mem_append_left _ hp
  have hcanB : ∀ p ∈ B, p ∈ flat.canon bs.length 0 := fun p hp => by
    rw [hAB]
    exact List.mem_append_right _ (List.mem_cons_of_mem _ hp)
  have dvdA : ∀ p ∈ A, (2 : Nat) ^ p.2 ∣ p.1 :=
    fun p hp => flat.canon_align_zero bs.length p (hcanA p hp)
  have dvdB : ∀ p ∈ B, (2 : Nat) ^ p.2 ∣ p.1 :=
    fun p hp => flat.canon_align_zero bs.length p (hcanB p hp)
  have hchain0 := sibChain_pathSibs bs i ce 0
  have hfold0 := climbFold_sem bs i ce 0
  have hseg_eq : ((List.range ce).map
      (fun m => flat.sibling (flat.idx (0 + m) (i / 2 ^ (0 + m))))) =
      pathSibs i ce := by
    unfold pathSibs
    apply List.map_congr_left
    intro m _
    rw [Nat.zero_add]
  have hi0 : i / 2 ^ 0 = i := by
    rw [pow_zero, Nat.div_one]
  have hstart : flat.idx 0 (i / 2 ^ 0) = 2 * i := by
    rw [hi0, flat.idx_zero]
  rw [hseg_eq, hstart] at hchain0
  rw [hseg_eq, hi0, Nat.zero_add] at hfold0
  have hleaf : (⟨2 * i, hashData (bs.getD i []), (bs.getD i []).length⟩ :
      Node) = semNode bs 0 i := by
    unfold semNode
    rw [flat.idx_zero]
    rfl
  have hCeq : climbFold
      (⟨2 * i, hashData (bs.getD i []), (bs.getD i []).length⟩ : Node)
      ((pathSibs i ce).map
        (fun j => semNode bs (flat.depth j) (flat.offset j))) =
      semNode bs ce (i / 2 ^ ce) := by
    rw [hleaf]
    exact hfold0
  obtain ⟨a, ha⟩ := id hcdvd
  have hdiva : c1 / 2 ^ ce = a := by
    rw [ha]
    exact Nat.mul_div_cancel_left a (pow_pos (by omega) ce)
  have hdivi : i / 2 ^ ce = a := by
    apply Nat.div_eq_of_lt_le
    · exact le_trans (le_of_eq ((Nat.mul_comm a (2 ^ ce)).trans ha.symm)) hi1'
    · rw [Nat.succ_mul, (Nat.mul_comm a (2 ^ ce)).trans ha.symm]
      exact hi2'
  have hCsem : climbFold
      (⟨2 * i, hashData (bs.getD i []), (bs.getD i []).length⟩ : Node)
      ((pathSibs i ce).map
        (fun j => semNode bs (flat.depth j) (flat.offset j))) =
      semP bs (c1, ce) := by
    rw [hCeq, hdivi]
    show semNode bs ce a = semNode bs ce (c1 / 2 ^ ce)
    rw [hdiva]
  have hCidx : (climbFold
      (⟨2 * i, hashData (bs.getD i []), (bs.getD i []).length⟩ : Node)
      ((pathSibs i ce).map
        (fun j => semNode bs (flat.depth j) (flat.offset j)))).index =
      2 * c1 + 2 ^ ce - 1 := by
    rw [hCsem]
    exact rootIdx_eq_idx (c1, ce) hcdvd
  have hm1 : ((A.map (semP bs)).map Node.index) =
      A.map (fun p => 2 * p.1 + 2 ^ p.2 - 1) := map_semP_index bs A dvdA
  have hm2 : ((B.map (semP bs)).map Node.index) =
      B.map (fun p => 2 * p.1 + 2 ^ p.2 - 1) := map_semP_index bs B dvdB
  have hfull : flat.fullRoots (2 * bs.length) =
      A.map (fun p => 2 * p.1 + 2 ^ p.2 - 1) ++ (2 * c1 + 2 ^ ce - 1) ::
        B.map (fun p => 2 * p.1 + 2 ^ p.2 - 1) := by
    rw [flat.fullRoots_canon, hAB]
    simp only [List.map_append, List.map_cons]
  have hfilter : (flat.fullRoots (2 * bs.length)).filter
      (fun r => r ≠ 2 * c1 + 2 ^ ce - 1) =
      A.map (fun p => 2 * p.1 + 2 ^ p.2 - 1) ++
        B.map (fun p => 2 * p.1 + 2 ^ p.2 - 1) := by
    rw [hfull]
    exact filter_roots A B (c1, ce)
      (fun p hp => ⟨dvdA p hp, by
        have hlt : ce < p.2 := hexA p hp
        show p.2 ≠ ce
        omega⟩)
      (fun p hp => ⟨dvdB p hp, by
        have hlt : p.2 < ce := hexB p hp
        show p.2 ≠ ce
        omega⟩)
      hcdvd
  have hnodes_eq : ((pathSibs i ce ++ (flat.fullRoots (2 * bs.length)).filter
        (fun r => r ≠ 2 * c1 + 2 ^ ce - 1)).map
      (fun j => semNode bs (flat.depth j) (flat.offset j))) =
      (pathSibs i ce).map
        (fun j => semNode bs (flat.depth j) (flat.offset j)) ++
        (A.map (semP bs) ++ B.map (semP bs)) := by
    rw [List.map_append, hfilter, List.map_append,
      map_Fsem_rt bs A dvdA, map_Fsem_rt bs B dvdB]
  have hmis : ∀ o1 orest, A.map (semP bs) ++ B.map (semP bs) = o1 :: orest →
      o1.index ≠ flat.sibling ((climbFold
        (⟨2 * i, hashData (bs.getD i []), (bs.getD i []).length⟩ : Node)
        ((pathSibs i ce).map
          (fun j => semNode bs (flat.depth j) (flat.offset j)))).index) := by
    intro o1 orest he
    have ho1 : o1 ∈ A.map (semP bs) ++ B.map (semP bs) := by
      rw [he]
      exact List.mem_cons_self _ _
    have hmem2 : o1.index ∈ (A.map (semP bs)).map Node.index ++
        (B.map (semP bs)).map Node.index := by
      rw [← List.map_append]
      exact List.mem_map_of_mem Node.index ho1
    rw [hm1, hm2] at hmem2
    rw [hCidx]
    exact others_head_ne bs.length c1 ce A B hAB
      ⟨2 * c1 + 2 ^ ce - 1, Hash.rootsNil, 0⟩ rfl o1.index
      (List.mem_append.mp hmem2)
  have hvb := verifiedBy_sem bs.length c1 ce A B hn hAB
    (climbFold (⟨2 * i, hashData (bs.getD i []), (bs.getD i []).length⟩ : Node)
      ((pathSibs i ce).map
        (fun j => semNode bs (flat.depth j) (flat.offset j))))
    (A.map (semP bs)) (B.map (semP bs)) hCidx hm1 hm2
  have hfr : flat.fullRoots (2 * bs.length) =
      (A.map (semP bs)).map Node.index ++
        (climbFold (⟨2 * i, hashData (bs.getD i []),
          (bs.getD i []).length⟩ : Node)
          ((pathSibs i ce).map
            (fun j => semNode bs (flat.depth j) (flat.offset j)))).index ::
          (B.map (semP bs)).map Node.index := by
    rw [hCidx, hm1, hm2]
    exact hfull
  have h1 : (climbFold (⟨2 * i, hashData (bs.getD i []),
      (bs.getD i []).length⟩ : Node)
      ((pathSibs i ce).map
        (fun j => semNode bs (flat.depth j) (flat.offset j)))).index ∉
      (A.map (semP bs)).map Node.index := by
    rw [hCidx, hm1]
    intro hc
    obtain ⟨p, hpm, hpe⟩ := List.mem_map.mp hc
    exact rt_ne p (c1, ce) (dvdA p hpm) hcdvd
      (by
        have hlt : ce < p.2 := hexA p hpm
        show p.2 ≠ ce
        omega) hpe
  have h2 : (climbFold (⟨2 * i, hashData (bs.getD i []),
      (bs.getD i []).length⟩ : Node)
      ((pathSibs i ce).map
        (fun j => semNode bs (flat.depth j) (flat.offset j)))).index ∉
      (B.map (semP bs)).map Node.index := by
    rw [hCidx, hm2]
    intro hc
    obtain ⟨p, hpm, hpe⟩ := List.mem_map.mp hc
    exact rt_ne p (c1, ce) (dvdB p hpm) hcdvd
      (by
        have hlt : p.2 < ce := hexB p hpm
        show p.2 ≠ ce
        omega) hpe
  have hM : hashTree (canonNodes bs bs.length) =
      hashTree (A.map (semP bs) ++
        climbFold (⟨2 * i, hashData (bs.getD i []),
          (bs.getD i []).length⟩ : Node)
          ((pathSibs i ce).map
            (fun j => semNode bs (flat.depth j) (flat.offset j))) ::
          B.map (semP bs)) := by
    rw [hCsem]
    unfold canonNodes
    rw [hAB, List.map_append, List.map_cons]
  have hboth := put_reader_both s i bs.length (bs.getD i [])
    (hashTree (canonNodes bs bs.length))
    ((pathSibs i ce).map (fun j => semNode bs (flat.depth j) (flat.offset j)))
    (A.map (semP bs)) (B.map (semP bs))
    hchain0 hmis hvb hfr h1 h2 hM
  refine ⟨writerAfter_append s bs, ?_, ⟨(pathSibs i ce ++
      (flat.fullRoots (2 * bs.length)).filter
        (fun r => r ≠ 2 * c1 + 2 ^ ce - 1)).map
      (fun j => semNode bs (flat.depth j) (flat.offset j)),
      some (sign s (hashTree (canonNodes bs bs.length)))⟩,
    proofGen_writer s bs i c1 ce hn hfc hmem hi1' hi2', ?_, ?_⟩
  · have hd := appendWrites_dataStore (writerFeed s) idCodec bs 0 i hi
    rw [show (writerFeed s).length + 0 + i = i from by
      show 0 + 0 + i = i
      omega] at hd
    exact hd
  · show ∃ g, putBuffer (readerFeed s) i (bs.getD i [])
        ⟨(pathSibs i ce ++ (flat.fullRoots (2 * bs.length)).filter
            (fun r => r ≠ 2 * c1 + 2 ^ ce - 1)).map
          (fun j => semNode bs (flat.depth j) (flat.offset j)),
          some (sign s (hashTree (canonNodes bs bs.length)))⟩
        (((pathSibs i ce ++ (flat.fullRoots (2 * bs.length)).filter
            (fun r => r ≠ 2 * c1 + 2 ^ ce - 1)).map
          (fun j => semNode bs (flat.depth j) (flat.offset j))).length + 1) =
        Except.ok g
    rw [hnodes_eq]
    exact hboth.1
  · intro data2 tampered hidx hne
    refine ⟨?_, rfl⟩
    show putBuffer (readerFeed s) i data2 ⟨tampered,
        some (sign s (hashTree (canonNodes bs bs.length)))⟩
      (((pathSibs i ce ++ (flat.fullRoots (2 * bs.length)).filter
          (fun r => r ≠ 2 * c1 + 2 ^ ce - 1)).map
        (fun j => semNode bs (flat.depth j) (flat.offset j))).length + 1) =
      Except.error Err.remoteBadSignature
    rw [hnodes_eq]
    refine hboth.2 data2 tampered ?_ ?_
    · rw [← hnodes_eq]
      exact hidx
    · rw [← hnodes_eq]
      exact hne

/-- Witness for C1 at seed 0, blocks [[1], [2]], index 0. -/
theorem C1_proof_roundtrip_witness :
    ((0 : Nat) < ([[1], [2]] : List (List Nat)).length) ∧
    (appendBatch (writerFeed 0) idCodec [[1], [2]] =
        Except.ok (writerAfter 0 [[1], [2]]) ∧
      (writerAfter 0 [[1], [2]]).dataStore 0 = some ([[1], [2]].getD 0 []) ∧
      ∃ pf, proofGen (writerAfter 0 [[1], [2]]) 0 = Except.ok pf ∧
        (∃ g, put (readerFeed 0) idCodec 0 ([[1], [2]].getD 0 []) pf
            (pf.nodes.length + 1) = Except.ok g) ∧
        (∀ (data2 : List Nat) (tampered : List Node),
          tampered.map Node.index = pf.nodes.map Node.index →
          data2 ≠ [[1], [2]].getD 0 [] ∨ tampered ≠ pf.nodes →
          put (readerFeed 0) idCodec 0 data2 ⟨tampered, pf.signature⟩
              (pf.nodes.length + 1) = Except.error Err.remoteBadSignature ∧
            errCode Err.remoteBadSignature = SpecCode.invalidProof)) :=
  ⟨by decide, C1_proof_roundtrip 0 [[1], [2]] 0 (by decide)⟩

end DDatabase
